import Mathlib

/-! # RedBlackTree.h : a shallow embedding

`RBTree<TKey, TData>` of `src/RedBlackTree.h` is a red-black tree whose nodes carry a list of
`(key, data)` entries.  The tree has no parent pointers: every operation first records the
nodes it walks through on a `std::stack<Node*>` and then works its way back up that stack.

**How the heap is represented**

* A `Node*` is a value of type `Node`: either `nullptr` or the node it points to together with
  everything reachable from it (its unfolding).  Every node keeps the address it lives at
  (`addr`), so that the pointer comparisons of the source (`leftPtr == child`,
  `father->rightPtr == grandson`) are comparisons of addresses (`Node.ptr`).
* An entry of the node stack that is not on top is a `Frame`: the node without the child
  through which the walk went on.  Reading such a node (`pullOutNodeFromStack`) plugs in the
  child as it is at that moment.
* Dereferencing `nullptr`, `front()`/`back()` of an empty list and reading an uninitialised
  local are undefined behaviour in C++; here they are the results `Err.nullDereference`,
  `Err.emptyList`, `Err.uninitialisedRead`.  A `throw` is `Err.thrown`.
* `ComparatorStrategy<TKey>` (declared in `../comparators/ComparatorStrategy.h`, which is not
  part of the sources) is any function `TKey → TKey → Int`; `operator==` of `TKey` is equality.
* `unsigned int numberOfNodes` is a natural number kept modulo `2 ^ 32`.
* `new Node(key, data)` returns an address the caller of the model supplies (`newAddr`).
* What `add` and `pop` write to `std::cerr` is the list of the lines written.
* A turn can leave one node under two fathers.  Such a heap is represented by its unfolding:
  the node stands under each of its fathers, and a write to it after the turn is replayed on
  every copy (`Node.reread`, `Node.setColorAt`).  A heap with a cycle has no unfolding
  (`Err.cyclic`), and a father that keeps pointing to a deleted node is `Err.danglingPointer`.
  The unfolding follows the source step by step on every tree that has the BST property under
  the signs of the comparator; on other trees some cycles go undetected.
-/

namespace RedBlackTree

/-! ## Data model -/

/-- The `struct KeyAndValue` of the source. -/
structure KeyAndValue (TKey TData : Type) where
  key : TKey
  data : TData
deriving DecidableEq, Repr

/-- A `Node*`: `nullptr`, or the node found at address `addr` with the nodes below it. -/
inductive Node (TKey TData : Type) where
  | nullptr : Node TKey TData
  | mk (addr : Nat) (keysAndValues : List (KeyAndValue TKey TData))
      (leftPtr rightPtr : Node TKey TData) (isRed : Bool) : Node TKey TData
deriving DecidableEq, Repr

/-- The value of a pointer: null, the address of a heap node, or the address of the local
copy `Node child = *childToDelete` made by `deleteLeafOrBranch`. -/
inductive Ptr where
  | null : Ptr
  | heap (addr : Nat) : Ptr
  | stackCopy : Ptr
deriving DecidableEq, Repr

/-- The two exception classes the source throws, with their `what()` text. -/
inductive Exception where
  | invalid_argument (what : String) : Exception
  | overflow_error (what : String) : Exception
deriving DecidableEq, Repr

/-- The ways a call can fail to return. -/
inductive Err where
  | thrown (e : Exception) : Err
  | nullDereference : Err
  | emptyList : Err
  | uninitialisedRead : Err
  | cyclic : Err
  | danglingPointer : Err
deriving DecidableEq, Repr

/-- An entry of the node stack below its top: the node at `addr` without the child the walk
continued with; `wentRight` tells that this child is `rightPtr`, `other` is the remaining one. -/
structure Frame (TKey TData : Type) where
  addr : Nat
  keysAndValues : List (KeyAndValue TKey TData)
  isRed : Bool
  wentRight : Bool
  other : Node TKey TData
deriving DecidableEq, Repr

/-- The fields of `class RBTree` (`function` is only used for printing and is left out). -/
structure RBTree (TKey TData : Type) where
  head : Node TKey TData
  comparatorStrategy : Option (TKey → TKey → Int)
  numberOfNodes : Nat

/-- How a call of a member function that may throw ends: it returns and leaves the tree `t`,
it throws `e` and leaves the tree `t`, or its behaviour is undefined. -/
inductive Outcome (TKey TData : Type) where
  | returned (t : RBTree TKey TData) : Outcome TKey TData
  | threw (e : Exception) (t : RBTree TKey TData) : Outcome TKey TData
  | undefined (why : Err) : Outcome TKey TData

variable {TKey TData : Type}

/-! ## `class Node` -/

namespace Node

/-- The pointer value of a `Node*`. -/
def ptr : Node TKey TData → Ptr
  | nullptr => Ptr.null
  | mk a _ _ _ _ => Ptr.heap a

/-- The test `if (p)` / `p != nullptr`. -/
def isNull : Node TKey TData → Bool
  | nullptr => true
  | mk _ _ _ _ _ => false

/-- The expression `p->keysAndValues.front().key`. -/
def frontKey : Node TKey TData → Except Err TKey
  | nullptr => .error .nullDereference
  | mk _ [] _ _ _ => .error .emptyList
  | mk _ (kv :: _) _ _ _ => .ok kv.key

/-- The expression `p->keysAndValues.back().key`. -/
def backKey : Node TKey TData → Except Err TKey
  | nullptr => .error .nullDereference
  | mk _ kvs _ _ _ =>
    match kvs.getLast? with
    | none => .error .emptyList
    | some kv => .ok kv.key

/-- The expression `p->leftPtr`. -/
def getLeftPtr : Node TKey TData → Except Err (Node TKey TData)
  | nullptr => .error .nullDereference
  | mk _ _ l _ _ => .ok l

/-- The expression `p->rightPtr`. -/
def getRightPtr : Node TKey TData → Except Err (Node TKey TData)
  | nullptr => .error .nullDereference
  | mk _ _ _ r _ => .ok r

/-- The assignment `p->leftPtr = q`. -/
def setLeftPtr (self q : Node TKey TData) : Except Err (Node TKey TData) :=
  match self with
  | nullptr => .error .nullDereference
  | mk a kvs _ r c => .ok (mk a kvs q r c)

/-- The assignment `p->rightPtr = q`. -/
def setRightPtr (self q : Node TKey TData) : Except Err (Node TKey TData) :=
  match self with
  | nullptr => .error .nullDereference
  | mk a kvs l _ c => .ok (mk a kvs l q c)

/-- `Node::makeRed`. -/
def makeRed : Node TKey TData → Except Err (Node TKey TData)
  | nullptr => .error .nullDereference
  | mk a kvs l r _ => .ok (mk a kvs l r true)

/-- `Node::makeBlack`. -/
def makeBlack : Node TKey TData → Except Err (Node TKey TData)
  | nullptr => .error .nullDereference
  | mk a kvs l r _ => .ok (mk a kvs l r false)

/-- `Node::nodeIsRed`. -/
def nodeIsRed : Node TKey TData → Except Err Bool
  | nullptr => .error .nullDereference
  | mk _ _ _ _ c => .ok (c == true)

/-- `Node::nodeIsBlack`. -/
def nodeIsBlack : Node TKey TData → Except Err Bool
  | nullptr => .error .nullDereference
  | mk _ _ _ _ c => .ok (c == false)

/-- The test `p && p->nodeIsRed()` (and the negation of `p == nullptr || p->nodeIsBlack()`):
an absent node counts as black. -/
def isRedNode : Node TKey TData → Bool
  | nullptr => false
  | mk _ _ _ _ c => c

/-- The colour of node `p` written through a pointer, seen from `root`: every occurrence of
the node at `p` below `root` takes the colour `red`. -/
def setColorAt (p : Ptr) (red : Bool) : Node TKey TData → Node TKey TData
  | nullptr => nullptr
  | mk a kvs l r c =>
    mk a kvs (setColorAt p red l) (setColorAt p red r) (if p = Ptr.heap a then red else c)

/-- A pointer field that is read after the node it points to was written: `p` if it does not
point to `now`, else `now`. -/
def reread (p now : Node TKey TData) : Node TKey TData :=
  if p.ptr = now.ptr then now else p

/-- The node `self` read after the node `now` was written: a child pointer of `self` that
points to `now` shows it as it is. -/
def rereadChildren (self now : Node TKey TData) : Node TKey TData :=
  match self with
  | nullptr => nullptr
  | mk a kvs l r c => mk a kvs (reread l now) (reread r now) c

/-- `Node::hasTheSameKeyWith`: compares the two front keys with `operator==` of `TKey`. -/
def hasTheSameKeyWith [DecidableEq TKey] (self node : Node TKey TData) : Except Err Bool := do
  let thisKey ← self.frontKey
  let nodeKey ← node.frontKey
  pure (decide (thisKey = nodeKey))

/-- `Node::returnAnotherChild`. -/
def returnAnotherChild (self : Node TKey TData) (child : Ptr) : Except Err (Node TKey TData) :=
  match self with
  | nullptr => .error .nullDereference
  | mk _ _ l r _ =>
    if l.ptr = child then .ok r
    else if r.ptr = child then .ok l
    else if l.ptr = Ptr.null then .ok r
    else .ok l

/-- `Node::nodeIsNotLeaf`. -/
def nodeIsNotLeaf : Node TKey TData → Except Err Bool
  | nullptr => .error .nullDereference
  | mk _ _ l r _ => .ok (!(l.isNull && r.isNull))

/-- `Node::nodeIsBranch`: exactly one child. -/
def nodeIsBranch : Node TKey TData → Except Err Bool
  | nullptr => .error .nullDereference
  | mk _ _ l r _ => .ok ((!l.isNull && r.isNull) || (l.isNull && !r.isNull))

/-- `Node::nodeIsNotBranch`. -/
def nodeIsNotBranch (self : Node TKey TData) : Except Err Bool := do
  let b ← self.nodeIsBranch
  pure (!b)

/-- `Node::returnRedChildOrNullptr`: the left child if it is red, else the right child if it
is red, else `nullptr`. -/
def returnRedChildOrNullptr : Node TKey TData → Except Err (Node TKey TData)
  | nullptr => .error .nullDereference
  | mk _ _ l r _ =>
    match l with
    | mk _ _ _ _ true => .ok l
    | _ =>
      match r with
      | mk _ _ _ _ true => .ok r
      | _ => .ok nullptr

/-- `Node::redGrandsonExists`.  `leftRedNephew` and `rightRedNephew` are assigned only when the
corresponding child is present, and `rightRedNephew || leftRedNephew` reads the right one
first. -/
def redGrandsonExists : Node TKey TData → Except Err Bool
  | nullptr => .error .nullDereference
  | mk _ _ leftChild rightChild _ =>
    match rightChild with
    | nullptr => .error .uninitialisedRead
    | mk _ _ _ _ _ => do
      let rightRedNephew ← rightChild.returnRedChildOrNullptr
      if !rightRedNephew.isNull then pure true
      else
        match leftChild with
        | nullptr => .error .uninitialisedRead
        | mk _ _ _ _ _ => do
          let leftRedNephew ← leftChild.returnRedChildOrNullptr
          pure (!leftRedNephew.isNull)

/-- `Node::returnSon`. -/
def returnSon (self grandson : Node TKey TData) (comparatorStrategy : TKey → TKey → Int) :
    Except Err (Node TKey TData) := do
  let key ← self.frontKey
  let grandsonKey ← grandson.frontKey
  let compareGrandfatherAndGrandson := comparatorStrategy key grandsonKey
  if compareGrandfatherAndGrandson < 0 then self.getRightPtr else self.getLeftPtr

/-- `Node::returnGrandsonByZigzag`. -/
def returnGrandsonByZigzag (self greatGrandfather : Node TKey TData)
    (comparatorStrategy : TKey → TKey → Int) : Except Err (Node TKey TData) := do
  let key ← self.frontKey
  let greatGrandfatherKey ← greatGrandfather.frontKey
  let compareGreatGrandfatherAndGrandfather := comparatorStrategy greatGrandfatherKey key
  if compareGreatGrandfatherAndGrandfather > 0 then
    let grandfather ← greatGrandfather.getLeftPtr
    let father ← grandfather.getRightPtr
    father.getLeftPtr
  else
    let grandfather ← greatGrandfather.getRightPtr
    let father ← grandfather.getLeftPtr
    father.getRightPtr

/-- `Node::returnSonByZigzag`. -/
def returnSonByZigzag (self grandfather : Node TKey TData)
    (comparatorStrategy : TKey → TKey → Int) : Except Err (Node TKey TData) := do
  let key ← self.frontKey
  let grandfatherKey ← grandfather.frontKey
  let compareGrandfatherAndFather := comparatorStrategy grandfatherKey key
  if compareGrandfatherAndFather > 0 then self.getRightPtr else self.getLeftPtr

/-- The expression `p->keysAndValues.front()`. -/
def front : Node TKey TData → Except Err (KeyAndValue TKey TData)
  | nullptr => .error .nullDereference
  | mk _ [] _ _ _ => .error .emptyList
  | mk _ (kv :: _) _ _ _ => .ok kv

/-- The call `p->keysAndValues.push_back(newElement)`. -/
def pushBack (newElement : KeyAndValue TKey TData) :
    Node TKey TData → Except Err (Node TKey TData)
  | nullptr => .error .nullDereference
  | mk a kvs l r c => .ok (mk a (kvs ++ [newElement]) l r c)

/-- The expression `p->keysAndValues`. -/
def getKeysAndValues : Node TKey TData → Except Err (List (KeyAndValue TKey TData))
  | nullptr => .error .nullDereference
  | mk _ kvs _ _ _ => .ok kvs

/-- The assignment `p->keysAndValues = kvs`. -/
def setKeysAndValues (kvs : List (KeyAndValue TKey TData)) :
    Node TKey TData → Except Err (Node TKey TData)
  | nullptr => .error .nullDereference
  | mk a _ l r c => .ok (mk a kvs l r c)

/-- `Node::returnData`. -/
def returnData : Node TKey TData → Except Err (List TData)
  | nullptr => .error .nullDereference
  | mk _ kvs _ _ _ => .ok (kvs.map (fun keyAndValue => keyAndValue.data))

end Node

/-! ## The node stack -/

namespace Frame

/-- The node of a stack entry, read with `child` as the child the walk continued with. -/
def fill (f : Frame TKey TData) (child : Node TKey TData) : Node TKey TData :=
  if f.wentRight then Node.mk f.addr f.keysAndValues f.other child f.isRed
  else Node.mk f.addr f.keysAndValues child f.other f.isRed

end Frame

/-- The tree seen from the bottom of the stack when `n` hangs under its top. -/
def rebuild : List (Frame TKey TData) → Node TKey TData → Node TKey TData
  | [], n => n
  | f :: rest, n => rebuild rest (f.fill n)

/-- `RBTree::pullOutNodeFromStack`: `nullptr` on an empty stack, else the top, which is read
with `pathChild` (the node the walk went on with) as it is now. -/
def pullOutNodeFromStack (nodeStack : List (Frame TKey TData)) (pathChild : Node TKey TData) :
    Node TKey TData × List (Frame TKey TData) :=
  match nodeStack with
  | [] => (Node.nullptr, [])
  | f :: rest => (f.fill pathChild, rest)

/-! ## `class RBTree` -/

/-- The text of the exception of a failed search. -/
def noElement : Exception := Exception.invalid_argument "No element in tree!"

/-- The text of the exception of `tryPop` on an empty tree. -/
def emptyTree : Exception := Exception.invalid_argument "Can't do pop. Tree is empty!"

/-- The text of the exception of `throwExceptionIfThereIsNoCompare`. -/
def noCompare : Exception := Exception.overflow_error "Can't use Compare!"

/-- The member `what()` of `std::exception`. -/
def Exception.what : Exception → String
  | .invalid_argument what => what
  | .overflow_error what => what

/-- The constructor `RBTree(ComparatorStrategy<TKey>*)`. -/
def RBTree.new (comparatorStrategy : Option (TKey → TKey → Int)) : RBTree TKey TData :=
  { head := Node.nullptr, comparatorStrategy := comparatorStrategy, numberOfNodes := 0 }

/-- `RBTree::isEmpty`. -/
def RBTree.isEmpty (t : RBTree TKey TData) : Bool := t.numberOfNodes == 0

/-- `RBTree::throwExceptionIfThereIsNoCompare`. -/
def RBTree.throwExceptionIfThereIsNoCompare (t : RBTree TKey TData) :
    Except Err (TKey → TKey → Int) :=
  match t.comparatorStrategy with
  | none => .error (.thrown noCompare)
  | some comparatorStrategy => .ok comparatorStrategy

/-- The increment `numberOfNodes++` of an `unsigned int`. -/
def increment (numberOfNodes : Nat) : Nat := (numberOfNodes + 1) % 2 ^ 32

/-- The decrement `numberOfNodes--` of an `unsigned int`. -/
def decrement (numberOfNodes : Nat) : Nat := (numberOfNodes + (2 ^ 32 - 1)) % 2 ^ 32

/-- `RBTree::returnFather`. -/
def returnFather (comparatorStrategy : TKey → TKey → Int)
    (grandfather grandson : Node TKey TData) : Except Err (Node TKey TData) := do
  let grandfatherKey ← grandfather.frontKey
  let grandsonKey ← grandson.frontKey
  let compareGrandfatherAndGrandson := comparatorStrategy grandfatherKey grandsonKey
  if compareGrandfatherAndGrandson < 0 then grandfather.getRightPtr else grandfather.getLeftPtr

/-- `RBTree::needToMakeSingleTurn`: the two results of the comparator are compared as
integers. -/
def needToMakeSingleTurn (comparatorStrategy : TKey → TKey → Int)
    (grandfather grandson : Node TKey TData) : Except Err Bool := do
  let father ← returnFather comparatorStrategy grandfather grandson
  let grandfatherKey ← grandfather.frontKey
  let fatherKey ← father.frontKey
  let grandsonKey ← grandson.frontKey
  let compareGrandfatherAndFather := comparatorStrategy grandfatherKey fatherKey
  let compareFatherAndGrandson := comparatorStrategy fatherKey grandsonKey
  pure (decide (compareGrandfatherAndFather = compareFatherAndGrandson))

/-- `RBTree::makeSingleTurn`.  The result is the father and the grandfather as they are after
the call; the father is the root of the turned subtree.  When the father that
`returnFather` finds hangs on the side of the grandfather that the turn does not rewrite, the
two nodes point at each other afterwards (`Err.cyclic`). -/
def makeSingleTurn (comparatorStrategy : TKey → TKey → Int)
    (grandfather grandson : Node TKey TData) :
    Except Err (Node TKey TData × Node TKey TData) := do
  let father ← returnFather comparatorStrategy grandfather grandson
  match grandfather, father with
  | .mk ga gkvs gl gr gc, .mk fa fkvs fl fr fc =>
    if fr.ptr = grandson.ptr then
      -- grandfather->rightPtr = father->leftPtr; father->leftPtr = grandfather;
      if gl.ptr = Ptr.heap fa then .error .cyclic
      else
        let grandfatherNow := Node.mk ga gkvs gl fl gc
        pure (Node.mk fa fkvs grandfatherNow fr fc, grandfatherNow)
    else
      -- grandfather->leftPtr = father->rightPtr; father->rightPtr = grandfather;
      if gr.ptr = Ptr.heap fa then .error .cyclic
      else
        let grandfatherNow := Node.mk ga gkvs fr gr gc
        pure (Node.mk fa fkvs fl grandfatherNow fc, grandfatherNow)
  | _, _ => .error .nullDereference

/-- `RBTree::makeDoubleTurn`.  The result is the grandson, the father and the grandfather as
they are after the call; the grandson is the root of the turned subtree.  The child pointer
of the grandfather that is not rewritten is read again: when it points to the father, it
shows the father as rewritten. -/
def makeDoubleTurn (comparatorStrategy : TKey → TKey → Int)
    (grandfather grandson : Node TKey TData) :
    Except Err (Node TKey TData × Node TKey TData × Node TKey TData) := do
  let father ← returnFather comparatorStrategy grandfather grandson
  match grandfather, father, grandson with
  | .mk ga gkvs gl gr gc, .mk fa fkvs fl fr fc, .mk sa skvs sl sr sc =>
    if fl.ptr = Ptr.heap sa then
      -- father->leftPtr = grandson->rightPtr; grandfather->rightPtr = grandson->leftPtr;
      -- grandson->rightPtr = father; grandson->leftPtr = grandfather;
      let fatherNow := Node.mk fa fkvs sr fr fc
      let grandfatherNow := Node.mk ga gkvs (Node.reread gl fatherNow) sl gc
      pure (Node.mk sa skvs grandfatherNow fatherNow sc, fatherNow, grandfatherNow)
    else
      -- father->rightPtr = grandson->leftPtr; grandfather->leftPtr = grandson->rightPtr;
      -- grandson->leftPtr = father; grandson->rightPtr = grandfather;
      let fatherNow := Node.mk fa fkvs fl sl fc
      let grandfatherNow := Node.mk ga gkvs sr (Node.reread gr fatherNow) gc
      pure (Node.mk sa skvs fatherNow grandfatherNow sc, fatherNow, grandfatherNow)
  | _, _, _ => .error .nullDereference

/-- `RBTree::hangNodesAfterTurn(Node* nodeToHang, Node* previousNode)`. -/
def hangNodesAfterTurn (comparatorStrategy : TKey → TKey → Int)
    (nodeToHang previousNode : Node TKey TData) : Except Err (Node TKey TData) := do
  let previousNodeKey ← previousNode.frontKey
  let nodeToHangKey ← nodeToHang.backKey
  let compareNodes := comparatorStrategy previousNodeKey nodeToHangKey
  if compareNodes < 0 then previousNode.setRightPtr nodeToHang
  else previousNode.setLeftPtr nodeToHang

/-- `RBTree::hangNodesAfterTurn(Node* nodeToHang, std::stack<Node*>& nodeStack)`.  The top of
the stack still points to `oldChild`, the former root of the turned subtree, given as it is
now.  The result is the head of the tree after the call. -/
def hangNodesAfterTurnStack (comparatorStrategy : TKey → TKey → Int)
    (nodeToHang oldChild : Node TKey TData) (nodeStack : List (Frame TKey TData)) :
    Except Err (Node TKey TData) :=
  match nodeStack with
  | [] => pure nodeToHang
  | previousNode :: rest => do
    let previousNodeNow ←
      hangNodesAfterTurn comparatorStrategy nodeToHang (previousNode.fill oldChild)
    pure (rebuild rest previousNodeNow)

/-- `RBTree::swapNodes`.  `firstKeysAndValues` is a reference to `first->keysAndValues`, so
the second assignment reads the list the first assignment has just written. -/
def swapNodes (first second : Node TKey TData) :
    Except Err (Node TKey TData × Node TKey TData) := do
  let firstNow ← first.setKeysAndValues (← second.getKeysAndValues)
  let firstKeysAndValues ← firstNow.getKeysAndValues
  let secondNow ← second.setKeysAndValues firstKeysAndValues
  pure (firstNow, secondNow)

/-! ### Lookup -/

/-- The loop of `RBTree::find`, started at `ptr`. -/
def findLoop (comparatorStrategy : TKey → TKey → Int) (key : TKey) :
    Node TKey TData → Except Err (List TData)
  | .nullptr => .error (.thrown noElement)
  | .mk a kvs l r c => do
    let ptrKey ← (Node.mk a kvs l r c).frontKey
    let compareCurrentAndNeededKeys := comparatorStrategy ptrKey key
    if compareCurrentAndNeededKeys < 0 then findLoop comparatorStrategy key r
    else if compareCurrentAndNeededKeys > 0 then findLoop comparatorStrategy key l
    else (Node.mk a kvs l r c).returnData

/-- `RBTree::find`.  The comparator is not checked: it is dereferenced as soon as the loop
meets a node. -/
def RBTree.find (t : RBTree TKey TData) (key : TKey) : Except Err (List TData) :=
  match t.comparatorStrategy with
  | some comparatorStrategy => findLoop comparatorStrategy key t.head
  | none =>
    match t.head with
    | .nullptr => .error (.thrown noElement)
    | .mk _ _ _ _ _ => .error .nullDereference

/-! ### Insertion -/

/-- `RBTree::initStackOfPreviousNodesInInsert`, started at `nodePtr` with the stack
`nodeStack`, together with the `pullOutNodeFromStack` that follows it in `tryAdd`: the result
is the last node pushed (`nullptr` if nothing was pushed and the stack is empty) and the stack
below it. -/
def initStackOfPreviousNodesInInsert (comparatorStrategy : TKey → TKey → Int)
    (keyToFind : TKey) :
    Node TKey TData → List (Frame TKey TData) →
      Except Err (Node TKey TData × List (Frame TKey TData))
  | .nullptr, nodeStack => pure (pullOutNodeFromStack nodeStack Node.nullptr)
  | .mk a kvs l r c, nodeStack => do
    let key ← (Node.mk a kvs l r c).frontKey
    let compareResult := comparatorStrategy key keyToFind
    if compareResult < 0 then
      initStackOfPreviousNodesInInsert comparatorStrategy keyToFind r
        ({ addr := a, keysAndValues := kvs, isRed := c, wentRight := true, other := l }
          :: nodeStack)
    else if compareResult > 0 then
      initStackOfPreviousNodesInInsert comparatorStrategy keyToFind l
        ({ addr := a, keysAndValues := kvs, isRed := c, wentRight := false, other := r }
          :: nodeStack)
    else pure (Node.mk a kvs l r c, nodeStack)

/-- `RBTree::linkOrUnionChildWithFatherInInsert`: the father and `numberOfNodes` after the
call. -/
def linkOrUnionChildWithFatherInInsert (comparatorStrategy : TKey → TKey → Int)
    (child father : Node TKey TData) (numberOfNodes : Nat) :
    Except Err (Node TKey TData × Nat) := do
  let fatherKey ← father.frontKey
  let childKey ← child.frontKey
  let compareFatherAndChild := comparatorStrategy fatherKey childKey
  if compareFatherAndChild < 0 then
    pure (← father.setRightPtr child, increment numberOfNodes)
  else if compareFatherAndChild > 0 then
    pure (← father.setLeftPtr child, increment numberOfNodes)
  else
    let childFront ← child.front
    let newElement : KeyAndValue TKey TData := { key := childFront.key, data := childFront.data }
    pure (← father.pushBack newElement, numberOfNodes)

/-- The last statement of `tryAdd`: `if (head->nodeIsRed()) head->makeBlack();`. -/
def blackenHead (head : Node TKey TData) : Except Err (Node TKey TData) := do
  if (← head.nodeIsRed) then head.makeBlack else pure head

/-- The rotation branch of the loop of `tryAdd` (the uncle is absent or black).  The result
is the head of the tree when `tryAdd` returns. -/
def tryAddRotate (comparatorStrategy : TKey → TKey → Int)
    (child father grandfather : Node TKey TData) (nodeStack : List (Frame TKey TData)) :
    Except Err (Node TKey TData) := do
  if (← needToMakeSingleTurn comparatorStrategy grandfather child) then
    let (fatherNow, grandfatherNow) ← makeSingleTurn comparatorStrategy grandfather child
    let head ← hangNodesAfterTurnStack comparatorStrategy (Node.reread father fatherNow)
      grandfatherNow nodeStack
    let head := head.setColorAt father.ptr false
    pure (head.setColorAt grandfather.ptr true)
  else
    let (childNow, _, grandfatherNow) ← makeDoubleTurn comparatorStrategy grandfather child
    let head ← hangNodesAfterTurnStack comparatorStrategy childNow grandfatherNow nodeStack
    let head := head.setColorAt child.ptr false
    pure (head.setColorAt grandfather.ptr true)

/-- The loop `while (father != nullptr && father->nodeIsRed())` of `tryAdd` with the
statement after it.  `father` is given as it is now, with `child` below it; `nodeStack` holds
the nodes above `father`.  The result is the head of the tree when `tryAdd` returns. -/
def tryAddLoop (comparatorStrategy : TKey → TKey → Int) :
    Node TKey TData → Node TKey TData → List (Frame TKey TData) → Except Err (Node TKey TData)
  | child, .nullptr, _ => blackenHead child
  | _, .mk a kvs l r false, nodeStack => blackenHead (rebuild nodeStack (Node.mk a kvs l r false))
  | _, .mk _ _ _ _ true, [] =>
    -- grandfather = nullptr; grandfather->returnAnotherChild(father)
    .error .nullDereference
  | child, .mk a kvs l r true, g :: rest => do
    let father : Node TKey TData := Node.mk a kvs l r true
    let grandfather := g.fill father
    let uncle ← grandfather.returnAnotherChild father.ptr
    if !uncle.isRedNode then
      -- uncle == nullptr || uncle->nodeIsBlack()
      tryAddRotate comparatorStrategy child father grandfather rest
    else
      let grandfather := grandfather.setColorAt father.ptr false
      let grandfather := grandfather.setColorAt uncle.ptr false
      let grandfather := grandfather.setColorAt (Ptr.heap g.addr) true
      match rest with
      | [] => blackenHead grandfather
      | f :: above => tryAddLoop comparatorStrategy grandfather (f.fill grandfather) above

/-- `RBTree::tryAdd`; `newAddr` is the address that `new Node(key, data)` returns. -/
def RBTree.tryAdd [DecidableEq TKey] (t : RBTree TKey TData) (newAddr : Nat) (key : TKey)
    (data : TData) : Outcome TKey TData :=
  if t.isEmpty then
    .returned { t with
      head := Node.mk newAddr [{ key := key, data := data }] Node.nullptr Node.nullptr false
      numberOfNodes := 1 }
  else
    match t.throwExceptionIfThereIsNoCompare with
    | .error (.thrown e) => .threw e t
    | .error why => .undefined why
    | .ok comparatorStrategy =>
      let run : Except Err (RBTree TKey TData) := do
        let (father, nodeStack) ←
          initStackOfPreviousNodesInInsert comparatorStrategy key t.head []
        let child : Node TKey TData :=
          Node.mk newAddr [{ key := key, data := data }] Node.nullptr Node.nullptr true
        let (father, numberOfNodes) ←
          linkOrUnionChildWithFatherInInsert comparatorStrategy child father t.numberOfNodes
        if (← father.nodeIsBlack) then
          pure { t with head := rebuild nodeStack father, numberOfNodes := numberOfNodes }
        else if (← father.hasTheSameKeyWith child) then
          pure { t with head := rebuild nodeStack father, numberOfNodes := numberOfNodes }
        else
          let head ← tryAddLoop comparatorStrategy child father nodeStack
          pure { t with head := head, numberOfNodes := numberOfNodes }
      match run with
      | .ok tree => .returned tree
      | .error (.thrown e) => .threw e t
      | .error why => .undefined why

/-- `RBTree::add`: `try { tryAdd(key, data); } catch (const std::exception& e)
{ std::cerr << e.what() << NL; }` where `NL` is the newline character.  Both exception classes
of the source derive from `std::exception`.  The result is how the call ends together with
the lines it writes to `std::cerr`. -/
def RBTree.add [DecidableEq TKey] (t : RBTree TKey TData) (newAddr : Nat) (key : TKey)
    (data : TData) : Outcome TKey TData × List String :=
  match t.tryAdd newAddr key data with
  | .returned tree => (.returned tree, [])
  | .threw e tree => (.returned tree, [e.what])
  | .undefined why => (.undefined why, [])

/-! ### Removal -/

/-- `RBTree::initStackOfPreviousNodesInDeletionOrThrowException`, started at `nodePtr` with
the stack `nodeStack`: the top of the stack (the node found) and the stack below it. -/
def initStackOfPreviousNodesInDeletionOrThrowException
    (comparatorStrategy : TKey → TKey → Int) (keyToFind : TKey) :
    Node TKey TData → List (Frame TKey TData) →
      Except Err (Node TKey TData × List (Frame TKey TData))
  | .nullptr, _ => .error (.thrown noElement)
  | .mk a kvs l r c, nodeStack => do
    let nodePtrKey ← (Node.mk a kvs l r c).frontKey
    let compareResult := comparatorStrategy nodePtrKey keyToFind
    if compareResult < 0 then
      initStackOfPreviousNodesInDeletionOrThrowException comparatorStrategy keyToFind r
        ({ addr := a, keysAndValues := kvs, isRed := c, wentRight := true, other := l }
          :: nodeStack)
    else if compareResult > 0 then
      initStackOfPreviousNodesInDeletionOrThrowException comparatorStrategy keyToFind l
        ({ addr := a, keysAndValues := kvs, isRed := c, wentRight := false, other := r }
          :: nodeStack)
    else pure (Node.mk a kvs l r c, nodeStack)

/-- The loop `while (minimalNode->rightPtr)` of `findMaxNodeInLeftBranchAndUpdateStack`:
the last node reached and the stack below it. -/
def walkRight : Node TKey TData → List (Frame TKey TData) →
    Except Err (Node TKey TData × List (Frame TKey TData))
  | .nullptr, _ => .error .nullDereference
  | .mk a kvs l r c, nodeStack =>
    match r with
    | .nullptr => pure (Node.mk a kvs l r c, nodeStack)
    | .mk ra rkvs rl rr rc =>
      walkRight (Node.mk ra rkvs rl rr rc)
        ({ addr := a, keysAndValues := kvs, isRed := c, wentRight := true, other := l }
          :: nodeStack)

/-- `RBTree::findMaxNodeInLeftBranchAndUpdateStack`; `child` is the top of the stack and
`nodeStack` the stack below it.  The result is the new top and the stack below it, in which
`child` shows the entries that `swapNodes` has given it. -/
def findMaxNodeInLeftBranchAndUpdateStack (child : Node TKey TData)
    (nodeStack : List (Frame TKey TData)) :
    Except Err (Node TKey TData × List (Frame TKey TData)) :=
  match child with
  | .nullptr => .error .nullDereference
  | .mk a kvs l r c => do
    let (minimalNode, pushed) ← walkRight l []
    let (childNow, minimalNodeNow) ← swapNodes (Node.mk a kvs l r c) minimalNode
    let childEntry : Frame TKey TData :=
      { addr := a, keysAndValues := (← childNow.getKeysAndValues), isRed := c,
        wentRight := false, other := r }
    pure (minimalNodeNow, pushed ++ childEntry :: nodeStack)

/-- `RBTree::deleteNode`: the father and `numberOfNodes` after the call. -/
def deleteNode (toDelete father : Node TKey TData) (numberOfNodes : Nat) :
    Except Err (Node TKey TData × Nat) := do
  let fatherNow ←
    if (← father.getLeftPtr).ptr = toDelete.ptr then father.setLeftPtr Node.nullptr
    else father.setRightPtr Node.nullptr
  pure (fatherNow, decrement numberOfNodes)

/-- `RBTree::deleteRedLeaf`: the father and `numberOfNodes` after the call. -/
def deleteRedLeaf (toDelete father : Node TKey TData) (numberOfNodes : Nat) :
    Except Err (Node TKey TData × Nat) := do
  let fatherNow ←
    if (← father.getRightPtr).ptr = toDelete.ptr then father.setRightPtr Node.nullptr
    else father.setLeftPtr Node.nullptr
  pure (fatherNow, decrement numberOfNodes)

/-- `RBTree::deleteBranch`; `father` is `nullptr` or the node above, `nodeStack` the stack
above the father.  The result is the head and `numberOfNodes` after the call.  When the
comparison puts `toHang` on the side of the father that does not hold `toDelete`, the father
keeps pointing to the deleted node (`Err.danglingPointer`). -/
def deleteBranch (comparatorStrategy : TKey → TKey → Int)
    (toDelete father : Node TKey TData) (nodeStack : List (Frame TKey TData))
    (numberOfNodes : Nat) : Except Err (Node TKey TData × Nat) := do
  let toHang ← if !(← toDelete.getLeftPtr).isNull then toDelete.getLeftPtr
    else toDelete.getRightPtr
  if !father.isNull then
    let fatherKey ← father.frontKey
    let toHangKey ← toHang.frontKey
    let toHangNow ← toHang.makeBlack
    let fatherNow ←
      if comparatorStrategy fatherKey toHangKey < 0 then father.setRightPtr toHangNow
      else father.setLeftPtr toHangNow
    -- delete toDelete;
    if (← fatherNow.getLeftPtr).ptr = toDelete.ptr ∨ (← fatherNow.getRightPtr).ptr = toDelete.ptr
    then .error .danglingPointer
    else pure (rebuild nodeStack fatherNow, decrement numberOfNodes)
  else
    let toHangNow ← toHang.makeBlack
    pure (toHangNow, decrement numberOfNodes)

/-- `RBTree::deleteBranchOrRedLeaf`: the head and `numberOfNodes` after the call. -/
def deleteBranchOrRedLeaf (comparatorStrategy : TKey → TKey → Int)
    (child father : Node TKey TData) (nodeStack : List (Frame TKey TData))
    (numberOfNodes : Nat) : Except Err (Node TKey TData × Nat) := do
  if (← child.nodeIsBranch) then
    deleteBranch comparatorStrategy child father nodeStack numberOfNodes
  else
    let (fatherNow, numberOfNodes) ← deleteRedLeaf child father numberOfNodes
    pure (rebuild nodeStack fatherNow, numberOfNodes)

/-- The statement `if (needToMakeSingleTurn(father, nephew)) { makeSingleTurn(father, nephew);
hangNodesAfterTurn(brother, nodeStack); } else { makeDoubleTurn(father, nephew);
hangNodesAfterTurn(nephew, nodeStack); }`, which `deleteLeafOrBranch` contains twice: the head of
the tree after it. -/
def turnAndHang (comparatorStrategy : TKey → TKey → Int)
    (father brother nephew : Node TKey TData) (nodeStack : List (Frame TKey TData)) :
    Except Err (Node TKey TData) := do
  if (← needToMakeSingleTurn comparatorStrategy father nephew) then
    let (brotherNow, fatherNow) ← makeSingleTurn comparatorStrategy father nephew
    hangNodesAfterTurnStack comparatorStrategy (Node.reread brother brotherNow)
      fatherNow nodeStack
  else
    let (nephewNow, _, fatherNow) ← makeDoubleTurn comparatorStrategy father nephew
    hangNodesAfterTurnStack comparatorStrategy nephewNow fatherNow nodeStack

/-- The branch `father->nodeIsRed()` of the loop of `deleteLeafOrBranch`: the head of the tree
when `deleteLeafOrBranch` returns. -/
def deleteFatherRed (comparatorStrategy : TKey → TKey → Int)
    (father brother redNephew : Node TKey TData) (nodeStack : List (Frame TKey TData)) :
    Except Err (Node TKey TData) := do
  if !redNephew.isNull then
    if (← needToMakeSingleTurn comparatorStrategy father redNephew) then
      let (brotherNow, fatherNow) ← makeSingleTurn comparatorStrategy father redNephew
      let head ← hangNodesAfterTurnStack comparatorStrategy (Node.reread brother brotherNow)
        fatherNow nodeStack
      let head := head.setColorAt brother.ptr true
      let head := head.setColorAt father.ptr false
      pure (head.setColorAt redNephew.ptr false)
    else
      let (redNephewNow, _, fatherNow) ← makeDoubleTurn comparatorStrategy father redNephew
      let head ← hangNodesAfterTurnStack comparatorStrategy redNephewNow fatherNow nodeStack
      pure (head.setColorAt father.ptr false)
  else
    let father := father.setColorAt father.ptr false
    let father := father.setColorAt brother.ptr true
    pure (rebuild nodeStack father)

/-- The branch `brother->nodeIsRed()` (under a black father) of the loop of
`deleteLeafOrBranch`: the head of the tree when `deleteLeafOrBranch` returns. -/
def deleteBrotherRed (comparatorStrategy : TKey → TKey → Int)
    (father brother : Node TKey TData) (nodeStack : List (Frame TKey TData)) :
    Except Err (Node TKey TData) := do
  if (← brother.redGrandsonExists) then
    let brotherGrandson ← brother.returnGrandsonByZigzag father comparatorStrategy
    if brotherGrandson.isRedNode then
      let blackNephew ← brother.returnSon brotherGrandson comparatorStrategy
      let (blackNephewNow, _, fatherNow) ← makeDoubleTurn comparatorStrategy father blackNephew
      let head ← hangNodesAfterTurnStack comparatorStrategy blackNephewNow fatherNow nodeStack
      pure (head.setColorAt brotherGrandson.ptr false)
    else
      let blackNephew ← brother.returnSonByZigzag father comparatorStrategy
      let brotherGrandson ← blackNephew.returnAnotherChild brotherGrandson.ptr
      if brotherGrandson.isRedNode then
        let anotherNephew ← brother.returnAnotherChild blackNephew.ptr
        let (brotherNow, fatherNow) ← makeSingleTurn comparatorStrategy father anotherNephew
        let brotherNow := (Node.reread brother brotherNow).setColorAt brother.ptr false
        let (brotherGrandsonNow, _, fatherNow) ←
          makeDoubleTurn comparatorStrategy fatherNow brotherGrandson
        let brotherNow ← hangNodesAfterTurn comparatorStrategy brotherGrandsonNow
          (brotherNow.rereadChildren fatherNow)
        hangNodesAfterTurnStack comparatorStrategy brotherNow fatherNow nodeStack
      else
        -- blackNephew->makeRed(); brother->makeBlack();
        let father := (father.setColorAt blackNephew.ptr true).setColorAt brother.ptr false
        let brother := (brother.setColorAt blackNephew.ptr true).setColorAt brother.ptr false
        let blackNephew ← brother.returnAnotherChild blackNephew.ptr
        let (brotherNow, fatherNow) ← makeSingleTurn comparatorStrategy father blackNephew
        hangNodesAfterTurnStack comparatorStrategy (Node.reread brother brotherNow)
          fatherNow nodeStack
  else
    let blackNephew ← brother.getLeftPtr
    let anotherBlackNephew ← brother.getRightPtr
    let head ← turnAndHang comparatorStrategy father brother blackNephew nodeStack
    let head := head.setColorAt brother.ptr false
    let _ ← anotherBlackNephew.makeRed
    pure (head.setColorAt anotherBlackNephew.ptr true)

/-- The loop `while (father)` of `deleteLeafOrBranch`.  `childPtr` is the pointer of that
name, `child` the node it stands for as it is now (`nullptr` for the deleted node), `father`
the node above it as it is now, `nodeStack` the stack above the father.  The result is the
head of the tree when `deleteLeafOrBranch` returns. -/
def deleteLoop (comparatorStrategy : TKey → TKey → Int) :
    Ptr → Node TKey TData → Node TKey TData → List (Frame TKey TData) →
      Except Err (Node TKey TData)
  | _, child, .nullptr, _ => pure child
  | childPtr, _, .mk a kvs l r c, nodeStack => do
    let father : Node TKey TData := Node.mk a kvs l r c
    let brother ← father.returnAnotherChild childPtr
    let redNephew ← brother.returnRedChildOrNullptr
    if (← father.nodeIsRed) then
      deleteFatherRed comparatorStrategy father brother redNephew nodeStack
    else if (← brother.nodeIsRed) then
      deleteBrotherRed comparatorStrategy father brother nodeStack
    else if !redNephew.isNull then
      let head ← turnAndHang comparatorStrategy father brother redNephew nodeStack
      pure (head.setColorAt redNephew.ptr false)
    else
      let father := father.setColorAt brother.ptr true
      match nodeStack with
      | [] => pure father
      | f :: rest => deleteLoop comparatorStrategy father.ptr father (f.fill father) rest

/-- `RBTree::deleteLeafOrBranch`; `childToDelete` is the top of the stack and `nodeStack` the
stack below it. -/
def deleteLeafOrBranch (comparatorStrategy : TKey → TKey → Int) (t : RBTree TKey TData)
    (childToDelete : Node TKey TData) (nodeStack : List (Frame TKey TData)) :
    Except Err (RBTree TKey TData) := do
  -- Node child = *childToDelete;
  let childIsRed ← childToDelete.nodeIsRed
  let childIsBranch ← childToDelete.nodeIsBranch
  let (father, nodeStack) := pullOutNodeFromStack nodeStack childToDelete
  if t.numberOfNodes == 1 then
    pure { t with head := Node.nullptr, numberOfNodes := 0 }
  else if childIsRed || childIsBranch then
    let (head, numberOfNodes) ←
      deleteBranchOrRedLeaf comparatorStrategy childToDelete father nodeStack t.numberOfNodes
    pure { t with head := head, numberOfNodes := numberOfNodes }
  else
    let (father, numberOfNodes) ← deleteNode childToDelete father t.numberOfNodes
    let head ← deleteLoop comparatorStrategy Ptr.stackCopy Node.nullptr father nodeStack
    pure { t with head := head, numberOfNodes := numberOfNodes }

/-- `RBTree::tryPop`. -/
def RBTree.tryPop (t : RBTree TKey TData) (key : TKey) : Outcome TKey TData :=
  if t.isEmpty then .threw emptyTree t
  else
    match t.throwExceptionIfThereIsNoCompare with
    | .error (.thrown e) => .threw e t
    | .error why => .undefined why
    | .ok comparatorStrategy =>
      let run : Except Err (RBTree TKey TData) := do
        let (child, nodeStack) ←
          initStackOfPreviousNodesInDeletionOrThrowException comparatorStrategy key t.head []
        let (top, nodeStack) ←
          if (← child.nodeIsNotLeaf) && (← child.nodeIsNotBranch) then
            findMaxNodeInLeftBranchAndUpdateStack child nodeStack
          else pure (child, nodeStack)
        deleteLeafOrBranch comparatorStrategy t top nodeStack
      match run with
      | .ok tree => .returned tree
      | .error (.thrown e) => .threw e t
      | .error why => .undefined why

/-- `RBTree::pop`: `try { tryPop(key); } catch (const std::exception& e)
{ std::cerr << e.what() << NL; }` where `NL` is the newline character.  The result is how the
call ends together with the lines it writes to `std::cerr`. -/
def RBTree.pop (t : RBTree TKey TData) (key : TKey) : Outcome TKey TData × List String :=
  match t.tryPop key with
  | .returned tree => (.returned tree, [])
  | .threw e tree => (.returned tree, [e.what])
  | .undefined why => (.undefined why, [])

/-! ## The invariants of the data model (§3 of the specification) -/

namespace Node

/-- The addresses of the nodes of a tree, root first. -/
def addrs : Node TKey TData → List Nat
  | nullptr => []
  | mk a _ l r _ => a :: (addrs l ++ addrs r)

/-- The entry sequences of the nodes of a tree, root first. -/
def entries : Node TKey TData → List (List (KeyAndValue TKey TData))
  | nullptr => []
  | mk _ kvs l r _ => kvs :: (entries l ++ entries r)

/-- The representative keys (the key of the first entry) of the nodes of a tree. -/
def keys : Node TKey TData → List TKey
  | nullptr => []
  | mk _ kvs l r _ => (kvs.head?.map (fun kv => kv.key)).toList ++ (keys l ++ keys r)

/-- The number of nodes of a tree. -/
def size : Node TKey TData → Nat
  | nullptr => 0
  | mk _ _ l r _ => 1 + size l + size r

/-- Invariant 1, the BST property: every key of the left subtree compares strictly less and
every key of the right subtree strictly greater than the representative key of the node. -/
def Ordered (cmp : TKey → TKey → Int) : Node TKey TData → Prop
  | nullptr => True
  | mk _ kvs l r _ =>
    ((∀ k ∈ (kvs.head?.map (fun kv => kv.key)).toList,
        (∀ x ∈ keys l, cmp x k < 0) ∧ (∀ x ∈ keys r, cmp x k > 0)) ∧
      Ordered cmp l) ∧ Ordered cmp r

/-- Invariant 2: no red node has a red child. -/
def NoRedRed : Node TKey TData → Prop
  | nullptr => True
  | mk _ _ l r c =>
    ((c = true → l.isRedNode = false ∧ r.isRedNode = false) ∧ NoRedRed l) ∧ NoRedRed r

/-- The number of black nodes on each path from the root to an absent child. -/
def blackCounts : Node TKey TData → List Nat
  | nullptr => [0]
  | mk _ _ l r c => (blackCounts l ++ blackCounts r).map (fun n => n + if c then 0 else 1)

/-- Invariant 3: every path from the root to an absent child visits the same number of black
nodes. -/
def UniformBlackHeight (t : Node TKey TData) : Prop :=
  ∀ m ∈ blackCounts t, ∀ n ∈ blackCounts t, m = n

/-- Invariant 4: the root, if present, is black. -/
def RootBlack (t : Node TKey TData) : Prop := t.isRedNode = false

/-- Invariant 5 with the description of `entries`: the entry sequence of every node is not
empty and all its keys compare equal to the first one. -/
def EntriesOk (cmp : TKey → TKey → Int) (t : Node TKey TData) : Prop :=
  ∀ kvs ∈ entries t, ∃ kv rest, kvs = kv :: rest ∧ ∀ e ∈ rest, cmp e.key kv.key = 0

/-- The red-black colour invariants 2, 3 and 4. -/
def ColourInvariants (t : Node TKey TData) : Prop :=
  NoRedRed t ∧ UniformBlackHeight t ∧ RootBlack t

/-- No two nodes of the tree lie at the same address (the heap is a tree). -/
def Distinct (t : Node TKey TData) : Prop := (addrs t).Nodup

instance decidableOrdered (cmp : TKey → TKey → Int) :
    (t : Node TKey TData) → Decidable (Ordered cmp t)
  | nullptr => isTrue trivial
  | mk _ kvs l r _ =>
    have := decidableOrdered cmp l
    have := decidableOrdered cmp r
    by unfold Ordered; exact inferInstance

instance decidableNoRedRed : (t : Node TKey TData) → Decidable (NoRedRed t)
  | nullptr => isTrue trivial
  | mk _ _ l r _ =>
    have := decidableNoRedRed l
    have := decidableNoRedRed r
    by unfold NoRedRed; exact inferInstance

instance (t : Node TKey TData) : Decidable (UniformBlackHeight t) := by
  unfold UniformBlackHeight; exact inferInstance

instance (t : Node TKey TData) : Decidable (RootBlack t) := by
  unfold RootBlack; exact inferInstance

instance (t : Node TKey TData) : Decidable (ColourInvariants t) := by
  unfold ColourInvariants; exact inferInstance

instance (t : Node TKey TData) : Decidable (Distinct t) := by
  unfold Distinct; exact inferInstance

instance (cmp : TKey → TKey → Int) (t : Node TKey TData) : Decidable (EntriesOk cmp t) :=
  decidable_of_iff
    (∀ kvs ∈ entries t,
      (match kvs with
        | [] => false
        | kv :: rest => rest.all (fun e => decide (cmp e.key kv.key = 0))) = true)
    (by
      unfold EntriesOk
      refine forall_congr' fun kvs => imp_congr_right fun _ => ?_
      cases kvs with
      | nil => simp
      | cons kv rest =>
        simp only [List.all_eq_true, decide_eq_true_eq, List.cons.injEq]
        constructor
        · intro h; exact ⟨kv, rest, ⟨rfl, rfl⟩, h⟩
        · rintro ⟨kv1, rest1, ⟨rfl, rfl⟩, h⟩; exact h)

end Node

/-- A comparator that defines a strict total order: `a` is less than `b` when the result is
negative, greater when it is positive, and the result is zero exactly for equal keys. -/
structure StrictTotalOrder (cmp : TKey → TKey → Int) : Prop where
  eq_zero : ∀ a b, cmp a b = 0 ↔ a = b
  antisymm : ∀ a b, cmp a b < 0 ↔ cmp b a > 0
  trans : ∀ a b c, cmp a b < 0 → cmp b c < 0 → cmp a c < 0

/-- The tree of an outcome, when the call returned. -/
def Outcome.tree? : Outcome TKey TData → Option (RBTree TKey TData)
  | .returned t => some t
  | _ => none

/-- The head of the tree an outcome leaves, when the call returned. -/
def Outcome.head? (o : Outcome TKey TData) : Option (Node TKey TData) :=
  o.tree?.map (fun t => t.head)

/-- The tree a call leaves when it returned, else the tree `t` it started from: the next call
in a row of calls is made on this tree. -/
def Outcome.treeOr (o : Outcome TKey TData) (t : RBTree TKey TData) : RBTree TKey TData :=
  (o.tree?).getD t

/-- A comparator on integers that returns the difference of its arguments. -/
def difference (a b : Int) : Int := a - b

/-- A comparator on integers that returns `-1`, `0` or `1`. -/
def threeWay (a b : Int) : Int := if a < b then -1 else if a > b then 1 else 0

/-! ## Properties of the node stack -/

/-- The key `x` lies, for every entry of the stack, on the side on which the walk went on:
the comparator says that the entry's key is less than `x` where the walk went right and greater
where it went left. -/
def KeyBelow (cmp : TKey → TKey → Int) (nodeStack : List (Frame TKey TData)) (x : TKey) : Prop :=
  ∀ f ∈ nodeStack, ∃ kv tl, f.keysAndValues = kv :: tl ∧
    if f.wentRight then cmp kv.key x < 0 else cmp kv.key x > 0

/-- Every entry of the stack has a key, and this key lies on the right side of all entries
below it on the stack (the nodes above it in the tree). -/
def PathKeys (cmp : TKey → TKey → Int) : List (Frame TKey TData) → Prop
  | [] => True
  | f :: rest =>
    (∃ kv tl, f.keysAndValues = kv :: tl ∧ KeyBelow cmp rest kv.key) ∧ PathKeys cmp rest

/-- The child that is not on the path never lies at the address of the child that is:
`below` is the pointer to the node under the top of the stack. -/
def PathPtrs : List (Frame TKey TData) → Ptr → Prop
  | [], _ => True
  | f :: rest, below => f.other.ptr ≠ below ∧ PathPtrs rest (Ptr.heap f.addr)

/-- The entry sequence of every node of the tree has the property `P`. -/
def Node.AllEntries (P : List (KeyAndValue TKey TData) → Prop) (n : Node TKey TData) : Prop :=
  ∀ kvs ∈ n.entries, P kvs

/-- The entry sequence of every node that the stack holds or that hangs off it has the
property `P`. -/
def FramesAll (P : List (KeyAndValue TKey TData) → Prop)
    (nodeStack : List (Frame TKey TData)) : Prop :=
  ∀ f ∈ nodeStack, P f.keysAndValues ∧ f.other.AllEntries P

/-- Every result that the computation `x` returns has the property `Q` (nothing is said
when it fails). -/
structure Holds {α : Type} (x : Except Err α) (Q : α → Prop) : Prop where
  out : ∀ a, x = .ok a → Q a

/-- The entry sequence `kvs` is not empty and its first key does not compare equal to `k`. -/
def NoEqualKey (cmp : TKey → TKey → Int) (k : TKey) (kvs : List (KeyAndValue TKey TData)) :
    Prop :=
  ∃ kv rest, kvs = kv :: rest ∧ cmp kv.key k ≠ 0

/-- The pointer to the node at the bottom of the stack, or `below` when the stack is empty. -/
def bottomPtr : List (Frame TKey TData) → Ptr → Ptr
  | [], below => below
  | f :: rest, _ => bottomPtr rest (Ptr.heap f.addr)


/-! ## Chains and rotations -/

/-- The two child links of a node. -/
inductive Side where
  | left : Side
  | right : Side
deriving DecidableEq, Repr

/-- The child of a node on the given side (`nullptr` has none). -/
def Node.child : Side → Node TKey TData → Node TKey TData
  | _, .nullptr => .nullptr
  | .left, .mk _ _ l _ _ => l
  | .right, .mk _ _ _ r _ => r

/-- The in-order sequence of the nodes of a subtree: the address, the entry sequence and the
colour of each node. -/
def Node.inorder : Node TKey TData → List (Nat × List (KeyAndValue TKey TData) × Bool)
  | .nullptr => []
  | .mk a kvs l r c => inorder l ++ (a, kvs, c) :: inorder r

/-- The comparator returns only `-1`, `0` and `1`. -/
def SignOnly (cmp : TKey → TKey → Int) : Prop :=
  ∀ a b, cmp a b = -1 ∨ cmp a b = 0 ∨ cmp a b = 1

/-- A single rotation in the words of the specification ("swap a parent/child pair while
preserving in-order key order"), here the one that lifts the right child above the node: the
node takes the left subtree of the child as its right subtree and becomes the left child. -/
def specRotateLeft : Node TKey TData → Node TKey TData
  | .mk a kvs l (.mk ra rkvs rl rr rc) c => .mk ra rkvs (.mk a kvs l rl c) rr rc
  | n => n

/-- The mirror image of `specRotateLeft`: the rotation that lifts the left child above the
node. -/
def specRotateRight : Node TKey TData → Node TKey TData
  | .mk a kvs (.mk la lkvs ll lr lc) r c => .mk la lkvs ll (.mk a kvs lr r c) lc
  | n => n

/-- The double rotation in the words of the specification ("rotate the child under the
grandparent first, then rotate the result") on a chain whose father hangs on the side
`sideF` of the grandfather and whose grandson hangs on the other side of the father: the
grandson is rotated above the father and linked as the child of the grandfather, then it is
rotated above the grandfather. -/
def specDoubleRotation (sideF : Side) : Node TKey TData → Node TKey TData
  | .nullptr => .nullptr
  | .mk a kvs l r c =>
    match sideF with
    | .right => specRotateLeft (.mk a kvs l (specRotateRight r) c)
    | .left => specRotateRight (.mk a kvs (specRotateLeft l) r c)

/-- The shape, colours and entries of a tree: the tree with every address replaced by `0`. -/
def Node.withoutAddresses : Node TKey TData → Node TKey TData
  | .nullptr => .nullptr
  | .mk _ kvs l r c => .mk 0 kvs (withoutAddresses l) (withoutAddresses r) c

/-! ## What the removal needs of the stack -/

/-- The number of black nodes on the leftmost path from `n` to an absent child. -/
def Node.blackHeight : Node TKey TData → Nat
  | .nullptr => 0
  | .mk _ _ l _ c => Node.blackHeight l + if c then 0 else 1

/-- The two subtrees of every node of the tree have the same black height. -/
def Node.Balanced : Node TKey TData → Prop
  | .nullptr => True
  | .mk _ _ l r _ =>
    (Node.blackHeight l = Node.blackHeight r ∧ Node.Balanced l) ∧ Node.Balanced r

/-- What the fixup of a removal uses of a stack entry: the entry has a key, every key of the
subtree `other` lies on the side of it where `other` hangs, `other` has the BST property,
entries in every node and no address twice, and it is balanced with a black height of at
least `b`. -/
def FrameOk (cmp : TKey → TKey → Int) (b : Nat) (f : Frame TKey TData) : Prop :=
  (∃ kv tl, f.keysAndValues = kv :: tl ∧
    ∀ x ∈ f.other.keys, if f.wentRight then cmp kv.key x > 0 else cmp kv.key x < 0) ∧
  f.other.Ordered cmp ∧ f.other.EntriesOk cmp ∧ f.other.Distinct ∧ f.other.Balanced ∧
  b ≤ f.other.blackHeight

/-- The state of a walk down the tree that has reached the node `n` with the stack
`nodeStack`: `n` and every subtree that hangs off the stack are well formed, the keys of `n`
lie on the side of every stack entry on which the walk went on, and the black height of `n`
is at most that of every subtree that hangs off the stack. -/
def WalkOk (cmp : TKey → TKey → Int) (n : Node TKey TData)
    (nodeStack : List (Frame TKey TData)) : Prop :=
  n.Ordered cmp ∧ n.EntriesOk cmp ∧ n.Distinct ∧ n.Balanced ∧
  (∀ f ∈ nodeStack, FrameOk cmp n.blackHeight f) ∧
  (∀ x ∈ n.keys, KeyBelow cmp nodeStack x) ∧ PathPtrs nodeStack n.ptr


/-! ## Concrete trees

Every tree below satisfies the five invariants of §3 and is what a row of calls of `tryAdd`
(and one `tryPop`) builds from the empty tree; the value stored under the key `k` is
`10 * k`, and a node lies at the address `n` when it is the `n`-th node allocated. -/

/-- The calls `tryAdd(k, 10 * k)` for the keys of the list, in order; the nodes are allocated
at the addresses `newAddr`, `newAddr + 1`, … (a call that does not return leaves the tree as it
was). -/
def addAll (t : RBTree Int Int) : List Int → Nat → RBTree Int Int
  | [], _ => t
  | key :: keys, newAddr =>
    addAll ((t.tryAdd newAddr key (10 * key)).treeOr t) keys (newAddr + 1)

/-- The empty tree with the comparator `difference`. -/
def emptyWithDifference : RBTree Int Int := RBTree.new (some difference)

/-- The empty tree constructed with a null comparator: `RBTree(nullptr)`. -/
def emptyWithoutComparator : RBTree Int Int := RBTree.new none

/-- The tree `6(black)[2(red), -]`, under the comparator `difference`. -/
def treeLeftChain : RBTree Int Int :=
  { head := .mk 1 [⟨6, 60⟩] (.mk 2 [⟨2, 20⟩] .nullptr .nullptr true) .nullptr false,
    comparatorStrategy := some difference, numberOfNodes := 2 }

/-- The tree `10(black)[-, 20(red)]`, under the comparator `difference`. -/
def treeRightChain : RBTree Int Int :=
  { head := .mk 1 [⟨10, 100⟩] .nullptr (.mk 2 [⟨20, 200⟩] .nullptr .nullptr true) false,
    comparatorStrategy := some difference, numberOfNodes := 2 }

/-- The tree `8(black)[5(red)[3(black)[2(red), 4(red)], 6(black)], 9(black)]`, under the
comparator `difference`. -/
def treeRepaint : RBTree Int Int :=
  { head := .mk 1 [⟨8, 80⟩]
      (.mk 2 [⟨5, 50⟩]
        (.mk 4 [⟨3, 30⟩] (.mk 6 [⟨2, 20⟩] .nullptr .nullptr true)
          (.mk 7 [⟨4, 40⟩] .nullptr .nullptr true) false)
        (.mk 5 [⟨6, 60⟩] .nullptr .nullptr false) true)
      (.mk 3 [⟨9, 90⟩] .nullptr .nullptr false) false,
    comparatorStrategy := some difference, numberOfNodes := 7 }

/-- The tree `4(black)[2(black), 7(black)[-, 9(red)]]`, under the comparator `difference`. -/
def treeRedNephewRight : RBTree Int Int :=
  { head := .mk 1 [⟨4, 40⟩] (.mk 2 [⟨2, 20⟩] .nullptr .nullptr false)
      (.mk 3 [⟨7, 70⟩] .nullptr (.mk 4 [⟨9, 90⟩] .nullptr .nullptr true) false) false,
    comparatorStrategy := some difference, numberOfNodes := 4 }

/-- The tree `10(black)[5(black)[1(red), -], 12(black)]`, under the comparator
`difference`. -/
def treeRedNephewLeft : RBTree Int Int :=
  { head := .mk 1 [⟨10, 100⟩]
      (.mk 2 [⟨5, 50⟩] (.mk 4 [⟨1, 10⟩] .nullptr .nullptr true) .nullptr false)
      (.mk 3 [⟨12, 120⟩] .nullptr .nullptr false) false,
    comparatorStrategy := some difference, numberOfNodes := 4 }

/-- The tree `4(black)[2(black)[1(black), 3(black)], 7(black)[5(black), 9(red)[8(black),
10(black)]]]`, under the comparator `difference`. -/
def treeNine : RBTree Int Int :=
  { head := .mk 4 [⟨4, 40⟩]
      (.mk 1 [⟨2, 20⟩] (.mk 2 [⟨1, 10⟩] .nullptr .nullptr false)
        (.mk 6 [⟨3, 30⟩] .nullptr .nullptr false) false)
      (.mk 9 [⟨7, 70⟩] (.mk 7 [⟨5, 50⟩] .nullptr .nullptr false)
        (.mk 10 [⟨9, 90⟩] (.mk 8 [⟨8, 80⟩] .nullptr .nullptr false)
          (.mk 3 [⟨10, 100⟩] .nullptr .nullptr false) true) false) false,
    comparatorStrategy := some difference, numberOfNodes := 9 }

/-- The tree `20(black)[10(red), 30(red)]` whose node `10` holds two entries, under the
comparator `threeWay`. -/
def treeThree : RBTree Int Int :=
  { head := .mk 1 [⟨20, 200⟩] (.mk 2 [⟨10, 100⟩, ⟨10, 101⟩] .nullptr .nullptr true)
      (.mk 3 [⟨30, 300⟩] .nullptr .nullptr true) false,
    comparatorStrategy := some threeWay, numberOfNodes := 3 }

/-! ### The heads the calls leave

Where the heap holds a node under two fathers, the node stands under each of them. -/

/-- The head after `tryAdd(1, 10)` on `treeLeftChain`: `1(black)[6(red)[2(red), -], 2(red)]`;
node `2` hangs under node `6` and under node `1`. -/
def headLeftChainAfterAdd : Node Int Int :=
  .mk 3 [⟨1, 10⟩]
    (.mk 1 [⟨6, 60⟩] (.mk 2 [⟨2, 20⟩] .nullptr .nullptr true) .nullptr true)
    (.mk 2 [⟨2, 20⟩] .nullptr .nullptr true) false

/-- The head after `tryAdd(35, 350)` on `treeRightChain`:
`35(black)[20(red), 10(red)[-, 20(red)]]`; node `20` hangs under node `35` and under
node `10`. -/
def headRightChainAfterAdd : Node Int Int :=
  .mk 3 [⟨35, 350⟩]
    (.mk 2 [⟨20, 200⟩] .nullptr .nullptr true)
    (.mk 1 [⟨10, 100⟩] .nullptr (.mk 2 [⟨20, 200⟩] .nullptr .nullptr true) true) false

/-- The head after `tryAdd(1, 10)` on `treeRepaint`:
`3(black)[8(red)[5(red)[4, 6], 2(black)[1(red), -]], 5(red)[4(black), 6(black)]]`; node `5`
hangs under node `8` and under node `3`, and node `9` is no longer reachable. -/
def headRepaintAfterAdd : Node Int Int :=
  .mk 4 [⟨3, 30⟩]
    (.mk 1 [⟨8, 80⟩]
      (.mk 2 [⟨5, 50⟩] (.mk 7 [⟨4, 40⟩] .nullptr .nullptr false)
        (.mk 5 [⟨6, 60⟩] .nullptr .nullptr false) true)
      (.mk 6 [⟨2, 20⟩] (.mk 8 [⟨1, 10⟩] .nullptr .nullptr true) .nullptr false) true)
    (.mk 2 [⟨5, 50⟩] (.mk 7 [⟨4, 40⟩] .nullptr .nullptr false)
      (.mk 5 [⟨6, 60⟩] .nullptr .nullptr false) true) false

/-- The head after `tryPop(2)` on `treeRedNephewRight`:
`9(black)[7(black), 4(black)[-, 7(black)]]`; node `7` hangs under node `9` and under
node `4`. -/
def headRedNephewRightAfterPop : Node Int Int :=
  .mk 4 [⟨9, 90⟩]
    (.mk 3 [⟨7, 70⟩] .nullptr .nullptr false)
    (.mk 1 [⟨4, 40⟩] .nullptr (.mk 3 [⟨7, 70⟩] .nullptr .nullptr false) false) false

/-- The head after `tryPop(12)` on `treeRedNephewLeft`:
`1(black)[10(black)[5(black), -], 5(black)]`; node `5` hangs under node `10` and under
node `1`. -/
def headRedNephewLeftAfterPop : Node Int Int :=
  .mk 4 [⟨1, 10⟩]
    (.mk 1 [⟨10, 100⟩] (.mk 2 [⟨5, 50⟩] .nullptr .nullptr false) .nullptr false)
    (.mk 2 [⟨5, 50⟩] .nullptr .nullptr false) false

/-- The head after `tryPop(1)` on `treeNine`:
`9(black)[7(black)[5, 8], 4(black)[10(black), 7(black)[5, 8]]]`; node `7` hangs under node `9`
and under node `4`, and the nodes `2` and `3` are no longer reachable. -/
def headNineAfterPop : Node Int Int :=
  .mk 10 [⟨9, 90⟩]
    (.mk 9 [⟨7, 70⟩] (.mk 7 [⟨5, 50⟩] .nullptr .nullptr false)
      (.mk 8 [⟨8, 80⟩] .nullptr .nullptr false) false)
    (.mk 4 [⟨4, 40⟩] (.mk 3 [⟨10, 100⟩] .nullptr .nullptr false)
      (.mk 9 [⟨7, 70⟩] (.mk 7 [⟨5, 50⟩] .nullptr .nullptr false)
        (.mk 8 [⟨8, 80⟩] .nullptr .nullptr false) false) false) false

/-- The tree after `tryPop(10)` on `treeThree`: `20(black)[-, 30(red)]`. -/
def treeThreeAfterPop : RBTree Int Int :=
  { head := .mk 1 [⟨20, 200⟩] .nullptr (.mk 3 [⟨30, 300⟩] .nullptr .nullptr true) false,
    comparatorStrategy := some threeWay, numberOfNodes := 2 }

/-- The number of nodes of the heap that the head reaches: the distinct addresses. -/
def Node.reachableNodes (t : Node TKey TData) : Nat := t.addrs.dedup.length

/-- The tree `t` with the comparator `cmp` in place of its own. -/
def RBTree.withComparator (t : RBTree TKey TData) (cmp : TKey → TKey → Int) :
    RBTree TKey TData :=
  { t with comparatorStrategy := some cmp }

/-- The call returned and left a head with the property `P`. -/
def Outcome.LeavesHead (o : Outcome TKey TData) (P : Node TKey TData → Prop) : Prop :=
  o.head?.isSome = true ∧ ∀ h ∈ o.head?, P h

instance (o : Outcome TKey TData) (P : Node TKey TData → Prop) [DecidablePred P] :
    Decidable (o.LeavesHead P) := by
  unfold Outcome.LeavesHead; exact inferInstance

/-- The call threw: it ended with an exception that reaches the caller. -/
def Outcome.Threw (o : Outcome TKey TData) : Prop := ∃ e t, o = .threw e t

/-- The call completed normally. -/
def Outcome.Returned (o : Outcome TKey TData) : Prop := ∃ t, o = .returned t

/-- The tree `10(black)[-, 20(red)]` under the comparator `threeWay`. -/
def treeRootWithRedLeaf : RBTree Int Int :=
  { head := .mk 1 [⟨10, 100⟩] .nullptr (.mk 2 [⟨20, 200⟩] .nullptr .nullptr true) false,
    comparatorStrategy := some threeWay, numberOfNodes := 2 }

/-- The chain `10(black)[-, 20(red)[-, 35(red)]]` that `tryAdd(35, 350)` builds on
`treeRightChain` before it asks `needToMakeSingleTurn`. -/
def chainRightRight : Node Int Int :=
  .mk 1 [⟨10, 100⟩] .nullptr
    (.mk 2 [⟨20, 200⟩] .nullptr (.mk 3 [⟨35, 350⟩] .nullptr .nullptr true) true) false

/-- The chain `10(black)[5(black), 30(red)[20(red)[15(black), 25(black)], 40(black)]]`: the
father `30` is the right child of the grandfather `10` and the grandson `20` is the left
child of the father. -/
def chainRightLeft : Node Int Int :=
  .mk 1 [⟨10, 100⟩] (.mk 2 [⟨5, 50⟩] .nullptr .nullptr false)
    (.mk 3 [⟨30, 300⟩]
      (.mk 4 [⟨20, 200⟩] (.mk 5 [⟨15, 150⟩] .nullptr .nullptr false)
        (.mk 6 [⟨25, 250⟩] .nullptr .nullptr false) true)
      (.mk 7 [⟨40, 400⟩] .nullptr .nullptr false) true) false

/-- A comparator on integers that compares the absolute values and returns `-1`, `0` or `1`:
the keys `10` and `-10` compare equal and differ under `==`. -/
def compareAbsolute (a b : Int) : Int := threeWay a.natAbs b.natAbs

/-- The tree `20(black)[10(red), -]` under the comparator `compareAbsolute`. -/
def treeRedLeftAbsolute : RBTree Int Int :=
  { head := .mk 1 [⟨20, 200⟩] (.mk 2 [⟨10, 100⟩] .nullptr .nullptr true) .nullptr false,
    comparatorStrategy := some compareAbsolute, numberOfNodes := 2 }

/-- The tree `20(black)[10(red), 30(red)]` under the comparator `compareAbsolute`. -/
def treeTwoRedAbsolute : RBTree Int Int :=
  { head := .mk 1 [⟨20, 200⟩] (.mk 2 [⟨10, 100⟩] .nullptr .nullptr true)
      (.mk 3 [⟨30, 300⟩] .nullptr .nullptr true) false,
    comparatorStrategy := some compareAbsolute, numberOfNodes := 3 }

/-! ## Basic facts -/

@[simp] theorem Node.ptr_mk (a : Nat) (kvs : List (KeyAndValue TKey TData))
    (l r : Node TKey TData) (c : Bool) : (Node.mk a kvs l r c).ptr = Ptr.heap a := rfl

@[simp] theorem Node.ptr_nullptr : (Node.nullptr : Node TKey TData).ptr = Ptr.null := rfl


theorem Node.mem_keys_of_mem_entries {kv : KeyAndValue TKey TData}
    {rest : List (KeyAndValue TKey TData)} :
    ∀ {t : Node TKey TData}, (kv :: rest) ∈ t.entries → kv.key ∈ t.keys
  | .nullptr, h => by simp [Node.entries] at h
  | .mk _ kvs l r _, h => by
    simp only [Node.entries, List.mem_cons, List.mem_append] at h
    simp only [Node.keys, List.mem_append]
    rcases h with h | h | h
    · left; subst h; simp
    · right; left; exact Node.mem_keys_of_mem_entries h
    · right; right; exact Node.mem_keys_of_mem_entries h

theorem Node.EntriesOk.ofLeft {cmp : TKey → TKey → Int} {a kvs c} {l r : Node TKey TData}
    (h : (Node.mk a kvs l r c).EntriesOk cmp) : l.EntriesOk cmp := by
  intro kvs hk; exact h kvs (by simp [Node.entries, hk])

theorem Node.EntriesOk.ofRight {cmp : TKey → TKey → Int} {a kvs c} {l r : Node TKey TData}
    (h : (Node.mk a kvs l r c).EntriesOk cmp) : r.EntriesOk cmp := by
  intro kvs hk; exact h kvs (by simp [Node.entries, hk])

theorem Node.EntriesOk.ofRoot {cmp : TKey → TKey → Int} {a kvs c} {l r : Node TKey TData}
    (h : (Node.mk a kvs l r c).EntriesOk cmp) :
    ∃ kv rest, kvs = kv :: rest ∧ ∀ e ∈ rest, cmp e.key kv.key = 0 :=
  h kvs (by simp [Node.entries])

theorem StrictTotalOrder.pos_trans {cmp : TKey → TKey → Int} (h : StrictTotalOrder cmp)
    {a b c : TKey} (hab : cmp a b > 0) (hbc : cmp b c > 0) : cmp a c > 0 :=
  (h.antisymm c a).1 (h.trans c b a ((h.antisymm c b).2 hbc) ((h.antisymm b a).2 hab))

theorem StrictTotalOrder.refl {cmp : TKey → TKey → Int} (h : StrictTotalOrder cmp) (a : TKey) :
    cmp a a = 0 := (h.eq_zero a a).2 rfl

/-! ## Lookup -/

theorem findLoop_spec {cmp : TKey → TKey → Int} (hcmp : StrictTotalOrder cmp) (key : TKey) :
    ∀ (n : Node TKey TData), n.Ordered cmp → n.EntriesOk cmp →
      (∀ kv rest, (kv :: rest) ∈ n.entries → cmp kv.key key = 0 →
          findLoop cmp key n = .ok ((kv :: rest).map (fun e => e.data))) ∧
      (findLoop cmp key n = .error (.thrown noElement) ↔ ∀ x ∈ n.keys, cmp x key ≠ 0)
  | .nullptr, _, _ => by simp [Node.entries, Node.keys, findLoop]
  | .mk a kvs l r c, hord, hent => by
    obtain ⟨kv0, rest0, rfl, -⟩ := hent.ofRoot
    obtain ⟨⟨hroot, hl⟩, hr⟩ := hord
    have hroot' := hroot kv0.key (by simp)
    have ihl := findLoop_spec hcmp key l hl hent.ofLeft
    have ihr := findLoop_spec hcmp key r hr hent.ofRight
    have hlk : ∀ kv rest, (kv :: rest) ∈ l.entries → cmp kv.key kv0.key < 0 :=
      fun kv rest h => hroot'.1 _ (Node.mem_keys_of_mem_entries h)
    have hrk : ∀ kv rest, (kv :: rest) ∈ r.entries → cmp kv.key kv0.key > 0 :=
      fun kv rest h => hroot'.2 _ (Node.mem_keys_of_mem_entries h)
    simp only [findLoop, Node.frontKey, Node.returnData, bind, Except.bind, Node.entries,
      List.mem_cons, List.mem_append, Node.keys, List.head?_cons, Option.map_some',
      Option.toList_some, List.singleton_append]
    by_cases h1 : cmp kv0.key key < 0
    · have hleft : ∀ x ∈ l.keys, cmp x key < 0 := fun x hx => hcmp.trans _ _ _ (hroot'.1 x hx) h1
      simp only [h1, if_true]
      refine ⟨?_, ?_⟩
      · rintro kv rest (h | h | h) h0
        · cases h; omega
        · have := hleft _ (Node.mem_keys_of_mem_entries h); omega
        · exact ihr.1 kv rest h h0
      · rw [ihr.2]
        constructor
        · rintro h x (hx | hx | hx)
          · subst hx; omega
          · have := hleft x hx; omega
          · exact h x hx
        · intro h x hx; exact h x (Or.inr (Or.inr hx))
    · by_cases h2 : cmp kv0.key key > 0
      · have hright : ∀ x ∈ r.keys, cmp x key > 0 :=
          fun x hx => hcmp.pos_trans (hroot'.2 x hx) h2
        simp only [h1, h2, if_true, if_false]
        refine ⟨?_, ?_⟩
        · rintro kv rest (h | h | h) h0
          · cases h; omega
          · exact ihl.1 kv rest h h0
          · have := hright _ (Node.mem_keys_of_mem_entries h); omega
        · rw [ihl.2]
          constructor
          · rintro h x (hx | hx | hx)
            · subst hx; omega
            · exact h x hx
            · have := hright x hx; omega
          · intro h x hx; exact h x (Or.inr (Or.inl hx))
      · have h0 : cmp kv0.key key = 0 := by omega
        have hk : kv0.key = key := (hcmp.eq_zero _ _).1 h0
        simp only [h1, h2, if_false]
        refine ⟨?_, ?_⟩
        · rintro kv rest (h | h | h) h0'
          · cases h; rfl
          · have := hlk kv rest h; rw [hk] at this; omega
          · have := hrk kv rest h; rw [hk] at this; omega
        · constructor
          · intro h; cases h
          · intro h; exact absurd h0 (h _ (Or.inl rfl))

/-! ## Facts about addresses, keys and the stack -/

theorem Node.Distinct.left {a kvs c} {l r : Node TKey TData}
    (h : (Node.mk a kvs l r c).Distinct) : l.Distinct := by
  unfold Node.Distinct at h ⊢
  simp only [Node.addrs, List.nodup_cons, List.nodup_append] at h
  exact h.2.1

theorem Node.Distinct.right {a kvs c} {l r : Node TKey TData}
    (h : (Node.mk a kvs l r c).Distinct) : r.Distinct := by
  unfold Node.Distinct at h ⊢
  simp only [Node.addrs, List.nodup_cons, List.nodup_append] at h
  exact h.2.2.1

theorem Node.mem_addrs_of_ptr {n : Node TKey TData} {a : Nat} (h : n.ptr = Ptr.heap a) :
    a ∈ n.addrs := by
  cases n with
  | nullptr => simp [Node.ptr] at h
  | mk b _ _ _ _ => simp only [Node.ptr, Ptr.heap.injEq] at h; simp [Node.addrs, h]

theorem Node.Distinct.root_ne_left {a kvs c} {l r : Node TKey TData}
    (h : (Node.mk a kvs l r c).Distinct) : l.ptr ≠ Ptr.heap a := by
  intro hp
  unfold Node.Distinct at h
  simp only [Node.addrs, List.nodup_cons, List.mem_append] at h
  exact h.1 (Or.inl (Node.mem_addrs_of_ptr hp))

theorem Node.Distinct.root_ne_right {a kvs c} {l r : Node TKey TData}
    (h : (Node.mk a kvs l r c).Distinct) : r.ptr ≠ Ptr.heap a := by
  intro hp
  unfold Node.Distinct at h
  simp only [Node.addrs, List.nodup_cons, List.mem_append] at h
  exact h.1 (Or.inr (Node.mem_addrs_of_ptr hp))

theorem Node.Distinct.left_ne_right {a kvs c} {l r : Node TKey TData}
    (h : (Node.mk a kvs l r c).Distinct) (hr : r ≠ Node.nullptr) : l.ptr ≠ r.ptr := by
  cases r with
  | nullptr => exact absurd rfl hr
  | mk b _ _ _ _ =>
    intro hp
    unfold Node.Distinct at h
    simp only [Node.addrs, List.nodup_cons, List.nodup_append, List.Disjoint] at h
    exact h.2.2.2 (Node.mem_addrs_of_ptr hp) (by simp)

theorem Node.Distinct.right_ne_left {a kvs c} {l r : Node TKey TData}
    (h : (Node.mk a kvs l r c).Distinct) (hl : l ≠ Node.nullptr) : r.ptr ≠ l.ptr := by
  cases l with
  | nullptr => exact absurd rfl hl
  | mk b _ _ _ _ =>
    intro hp
    unfold Node.Distinct at h
    simp only [Node.addrs, List.nodup_cons, List.nodup_append, List.Disjoint] at h
    exact h.2.2.2 (by simp) (Node.mem_addrs_of_ptr hp)

theorem KeyBelow.cons {cmp : TKey → TKey → Int} {f : Frame TKey TData}
    {rest : List (Frame TKey TData)} {x : TKey}
    (hf : ∃ kv tl, f.keysAndValues = kv :: tl ∧
      if f.wentRight then cmp kv.key x < 0 else cmp kv.key x > 0)
    (hrest : KeyBelow cmp rest x) : KeyBelow cmp (f :: rest) x := by
  intro g hg
  rcases List.mem_cons.1 hg with h | h
  · subst h; exact hf
  · exact hrest g h

theorem KeyBelow.tail {cmp : TKey → TKey → Int} {f : Frame TKey TData}
    {rest : List (Frame TKey TData)} {x : TKey} (h : KeyBelow cmp (f :: rest) x) :
    KeyBelow cmp rest x := fun g hg => h g (List.mem_cons_of_mem _ hg)

theorem KeyBelow.head {cmp : TKey → TKey → Int} {f : Frame TKey TData}
    {rest : List (Frame TKey TData)} {x : TKey} (h : KeyBelow cmp (f :: rest) x) :
    ∃ kv tl, f.keysAndValues = kv :: tl ∧
      if f.wentRight then cmp kv.key x < 0 else cmp kv.key x > 0 :=
  h f (List.mem_cons_self _ _)

theorem rebuild_isRedNode (nodeStack : List (Frame TKey TData)) (f : Frame TKey TData)
    (x y : Node TKey TData) :
    (rebuild nodeStack (f.fill x)).isRedNode = (rebuild nodeStack (f.fill y)).isRedNode := by
  induction nodeStack generalizing f x y with
  | nil => simp only [rebuild, Frame.fill]; split <;> rfl
  | cons g rest ih => simp only [rebuild]; exact ih g _ _

theorem rebuild_ne_nullptr (nodeStack : List (Frame TKey TData)) {x : Node TKey TData}
    (hx : x ≠ Node.nullptr) : rebuild nodeStack x ≠ Node.nullptr := by
  induction nodeStack generalizing x with
  | nil => exact hx
  | cons g rest ih =>
    simp only [rebuild]
    apply ih
    simp only [Frame.fill]; split <;> simp

/-- C8: on a tree with the BST property under a strict-total-order comparator, `find(k)`
returns the data values, in stored order, of the node whose representative key compares
equal to `k` whenever the tree has such a node, and it throws
`invalid_argument("No element in tree!")` exactly when no representative key compares equal
to `k`. -/
theorem find_returns_entries_of_equal_key (t : RBTree TKey TData) (cmp : TKey → TKey → Int)
    (key : TKey) (hcmp : t.comparatorStrategy = some cmp) (horder : StrictTotalOrder cmp)
    (hbst : t.head.Ordered cmp) (hentries : t.head.EntriesOk cmp) :
    (∀ kv rest, (kv :: rest) ∈ t.head.entries → cmp kv.key key = 0 →
        t.find key = .ok ((kv :: rest).map (fun e => e.data))) ∧
    (t.find key = .error (.thrown (.invalid_argument "No element in tree!")) ↔
      ∀ x ∈ t.head.keys, cmp x key ≠ 0) := by
  have h := findLoop_spec horder key t.head hbst hentries
  simpa only [RBTree.find, hcmp] using h

/-! ## Removal of an absent key -/

theorem initStackOfPreviousNodesInDeletionOrThrowException_absent
    (cmp : TKey → TKey → Int) (key : TKey) :
    ∀ (n : Node TKey TData) (nodeStack : List (Frame TKey TData)),
      (∀ kvs ∈ n.entries, kvs ≠ []) → (∀ x ∈ n.keys, cmp x key ≠ 0) →
      initStackOfPreviousNodesInDeletionOrThrowException cmp key n nodeStack
        = .error (.thrown noElement)
  | .nullptr, _, _, _ => rfl
  | .mk a kvs l r c, nodeStack, hent, hkeys => by
    match kvs, hent, hkeys with
    | [], hent, _ => exact absurd rfl (hent [] (by simp [Node.entries]))
    | kv :: rest, hent, hkeys =>
      have h0 : cmp kv.key key ≠ 0 := hkeys kv.key (by simp [Node.keys])
      have hl := initStackOfPreviousNodesInDeletionOrThrowException_absent cmp key l
        ({ addr := a, keysAndValues := kv :: rest, isRed := c, wentRight := false, other := r }
          :: nodeStack)
        (fun kvs h => hent kvs (by simp [Node.entries, h]))
        (fun x h => hkeys x (by simp [Node.keys, h]))
      have hr := initStackOfPreviousNodesInDeletionOrThrowException_absent cmp key r
        ({ addr := a, keysAndValues := kv :: rest, isRed := c, wentRight := true, other := l }
          :: nodeStack)
        (fun kvs h => hent kvs (by simp [Node.entries, h]))
        (fun x h => hkeys x (by simp [Node.keys, h]))
      simp only [initStackOfPreviousNodesInDeletionOrThrowException, Node.frontKey, bind,
        Except.bind]
      by_cases h1 : cmp kv.key key < 0
      · simp only [h1, if_true]; exact hr
      · have h2 : cmp kv.key key > 0 := by omega
        simp only [h1, h2, if_true, if_false]; exact hl

/-- C7: on a tree that is not empty and has a comparator, `tryPop` of a key that compares
equal to the representative key of no node throws `invalid_argument("No element in tree!")`
and leaves the tree as it was: the same head (nodes, links, colours, entry sequences) and the
same `numberOfNodes`. -/
theorem tryPop_absent_key_throws_and_keeps_tree (t : RBTree TKey TData)
    (cmp : TKey → TKey → Int) (key : TKey)
    (hcmp : t.comparatorStrategy = some cmp) (hnonempty : t.numberOfNodes ≠ 0)
    (hentries : ∀ kvs ∈ t.head.entries, kvs ≠ [])
    (habsent : ∀ x ∈ t.head.keys, cmp x key ≠ 0) :
    t.tryPop key = .threw (.invalid_argument "No element in tree!") t := by
  have h := initStackOfPreviousNodesInDeletionOrThrowException_absent cmp key
    t.head [] hentries habsent
  simp only [RBTree.tryPop, RBTree.isEmpty, RBTree.throwExceptionIfThereIsNoCompare, hcmp,
    beq_iff_eq, hnonempty, if_false, h, bind, Except.bind]
  rfl

/-! ## The turns on a chain grandfather, father, grandson -/

section Turns

variable {cmp : TKey → TKey → Int}
variable {ga fa sa : Nat} {kvg kvf kvc : KeyAndValue TKey TData}
variable {tlg tlf tlc : List (KeyAndValue TKey TData)}
variable {gl gr fl fr sl sr : Node TKey TData} {gc fc sc : Bool}

theorem returnFather_of_lt (h : cmp kvg.key kvc.key < 0) :
    returnFather cmp (Node.mk ga (kvg :: tlg) gl gr gc) (Node.mk sa (kvc :: tlc) sl sr sc)
      = .ok gr := by
  simp [returnFather, Node.frontKey, Node.getRightPtr, bind, Except.bind, h]

theorem returnFather_of_not_lt (h : ¬ cmp kvg.key kvc.key < 0) :
    returnFather cmp (Node.mk ga (kvg :: tlg) gl gr gc) (Node.mk sa (kvc :: tlc) sl sr sc)
      = .ok gl := by
  simp [returnFather, Node.frontKey, Node.getLeftPtr, bind, Except.bind, h]

theorem needToMakeSingleTurn_of_lt (h : cmp kvg.key kvc.key < 0) :
    needToMakeSingleTurn cmp (Node.mk ga (kvg :: tlg) gl (Node.mk fa (kvf :: tlf) fl fr fc) gc)
        (Node.mk sa (kvc :: tlc) sl sr sc)
      = .ok (decide (cmp kvg.key kvf.key = cmp kvf.key kvc.key)) := by
  simp [needToMakeSingleTurn, returnFather_of_lt h, Node.frontKey, bind, Except.bind, pure,
    Except.pure]

theorem needToMakeSingleTurn_of_not_lt (h : ¬ cmp kvg.key kvc.key < 0) :
    needToMakeSingleTurn cmp (Node.mk ga (kvg :: tlg) (Node.mk fa (kvf :: tlf) fl fr fc) gr gc)
        (Node.mk sa (kvc :: tlc) sl sr sc)
      = .ok (decide (cmp kvg.key kvf.key = cmp kvf.key kvc.key)) := by
  simp [needToMakeSingleTurn, returnFather_of_not_lt h, Node.frontKey, bind, Except.bind, pure,
    Except.pure]

/-- A single turn on a chain that goes right twice. -/
theorem makeSingleTurn_right_right (h : cmp kvg.key kvc.key < 0) (hp : gl.ptr ≠ Ptr.heap fa) :
    makeSingleTurn cmp
        (Node.mk ga (kvg :: tlg) gl
          (Node.mk fa (kvf :: tlf) fl (Node.mk sa (kvc :: tlc) sl sr sc) fc) gc)
        (Node.mk sa (kvc :: tlc) sl sr sc)
      = .ok (Node.mk fa (kvf :: tlf) (Node.mk ga (kvg :: tlg) gl fl gc)
              (Node.mk sa (kvc :: tlc) sl sr sc) fc,
            Node.mk ga (kvg :: tlg) gl fl gc) := by
  simp [makeSingleTurn, returnFather_of_lt h, bind, Except.bind, pure, Except.pure, hp]

/-- A single turn on a chain that goes left twice. -/
theorem makeSingleTurn_left_left (h : ¬ cmp kvg.key kvc.key < 0)
    (hs : fr.ptr ≠ Ptr.heap sa) (hp : gr.ptr ≠ Ptr.heap fa) :
    makeSingleTurn cmp
        (Node.mk ga (kvg :: tlg)
          (Node.mk fa (kvf :: tlf) (Node.mk sa (kvc :: tlc) sl sr sc) fr fc) gr gc)
        (Node.mk sa (kvc :: tlc) sl sr sc)
      = .ok (Node.mk fa (kvf :: tlf) (Node.mk sa (kvc :: tlc) sl sr sc)
              (Node.mk ga (kvg :: tlg) fr gr gc) fc,
            Node.mk ga (kvg :: tlg) fr gr gc) := by
  simp [makeSingleTurn, returnFather_of_not_lt h, bind, Except.bind, pure, Except.pure, hp, hs]

/-- A double turn on a chain that goes right, then left. -/
theorem makeDoubleTurn_right_left (h : cmp kvg.key kvc.key < 0) (hp : gl.ptr ≠ Ptr.heap fa) :
    makeDoubleTurn cmp
        (Node.mk ga (kvg :: tlg) gl
          (Node.mk fa (kvf :: tlf) (Node.mk sa (kvc :: tlc) sl sr sc) fr fc) gc)
        (Node.mk sa (kvc :: tlc) sl sr sc)
      = .ok (Node.mk sa (kvc :: tlc) (Node.mk ga (kvg :: tlg) gl sl gc)
              (Node.mk fa (kvf :: tlf) sr fr fc) sc,
            Node.mk fa (kvf :: tlf) sr fr fc, Node.mk ga (kvg :: tlg) gl sl gc) := by
  simp [makeDoubleTurn, returnFather_of_lt h, bind, Except.bind, pure, Except.pure, hp,
    Node.reread]

/-- A double turn on a chain that goes left, then right. -/
theorem makeDoubleTurn_left_right (h : ¬ cmp kvg.key kvc.key < 0)
    (hs : fl.ptr ≠ Ptr.heap sa) (hp : gr.ptr ≠ Ptr.heap fa) :
    makeDoubleTurn cmp
        (Node.mk ga (kvg :: tlg)
          (Node.mk fa (kvf :: tlf) fl (Node.mk sa (kvc :: tlc) sl sr sc) fc) gr gc)
        (Node.mk sa (kvc :: tlc) sl sr sc)
      = .ok (Node.mk sa (kvc :: tlc) (Node.mk fa (kvf :: tlf) fl sl fc)
              (Node.mk ga (kvg :: tlg) sr gr gc) sc,
            Node.mk fa (kvf :: tlf) fl sl fc, Node.mk ga (kvg :: tlg) sr gr gc) := by
  simp [makeDoubleTurn, returnFather_of_not_lt h, bind, Except.bind, pure, Except.pure, hp, hs,
    Node.reread]

/-- A double turn on a chain that goes right twice: the grandfather keeps pointing to the
father, which is thus reached on two ways. -/
theorem makeDoubleTurn_right_right (h : cmp kvg.key kvc.key < 0) (hs : fl.ptr ≠ Ptr.heap sa) :
    makeDoubleTurn cmp
        (Node.mk ga (kvg :: tlg) gl
          (Node.mk fa (kvf :: tlf) fl (Node.mk sa (kvc :: tlc) sl sr sc) fc) gc)
        (Node.mk sa (kvc :: tlc) sl sr sc)
      = .ok (Node.mk sa (kvc :: tlc) (Node.mk fa (kvf :: tlf) fl sl fc)
              (Node.mk ga (kvg :: tlg) sr (Node.mk fa (kvf :: tlf) fl sl fc) gc) sc,
            Node.mk fa (kvf :: tlf) fl sl fc,
            Node.mk ga (kvg :: tlg) sr (Node.mk fa (kvf :: tlf) fl sl fc) gc) := by
  simp [makeDoubleTurn, returnFather_of_lt h, bind, Except.bind, pure, Except.pure, hs,
    Node.reread]

/-- A double turn on a chain that goes left twice: the grandfather keeps pointing to the
father, which is thus reached on two ways. -/
theorem makeDoubleTurn_left_left (h : ¬ cmp kvg.key kvc.key < 0) :
    makeDoubleTurn cmp
        (Node.mk ga (kvg :: tlg)
          (Node.mk fa (kvf :: tlf) (Node.mk sa (kvc :: tlc) sl sr sc) fr fc) gr gc)
        (Node.mk sa (kvc :: tlc) sl sr sc)
      = .ok (Node.mk sa (kvc :: tlc)
              (Node.mk ga (kvg :: tlg) (Node.mk fa (kvf :: tlf) sr fr fc) sl gc)
              (Node.mk fa (kvf :: tlf) sr fr fc) sc,
            Node.mk fa (kvf :: tlf) sr fr fc,
            Node.mk ga (kvg :: tlg) (Node.mk fa (kvf :: tlf) sr fr fc) sl gc) := by
  simp [makeDoubleTurn, returnFather_of_not_lt h, bind, Except.bind, pure, Except.pure,
    Node.reread]

end Turns

/-! ## Insertion: the walk down -/

theorem initStackOfPreviousNodesInInsert_spec {cmp : TKey → TKey → Int}
    (hcmp : StrictTotalOrder cmp) (k : TKey) :
    ∀ (n : Node TKey TData) (st : List (Frame TKey TData)),
      n ≠ Node.nullptr → n.Ordered cmp → (∀ kvs ∈ n.entries, kvs ≠ []) → n.Distinct →
      PathKeys cmp st → (∀ x ∈ k :: n.keys, KeyBelow cmp st x) → PathPtrs st n.ptr →
      ∃ a kv tl l r c st',
        initStackOfPreviousNodesInInsert cmp k n st = .ok (Node.mk a (kv :: tl) l r c, st') ∧
        rebuild st' (Node.mk a (kv :: tl) l r c) = rebuild st n ∧
        PathKeys cmp st' ∧ KeyBelow cmp st' k ∧ KeyBelow cmp st' kv.key ∧
        PathPtrs st' (Ptr.heap a) ∧
        (∀ x ∈ (Node.mk a (kv :: tl) l r c).addrs, x ∈ n.addrs) ∧
        (Node.mk a (kv :: tl) l r c).Distinct ∧
        ((cmp kv.key k = 0 ∧ kv.key ∈ n.keys) ∨
          ((cmp kv.key k < 0 ∧ r = Node.nullptr ∨ cmp kv.key k > 0 ∧ l = Node.nullptr) ∧
            ∀ x ∈ n.keys, cmp x k ≠ 0)) := by
  intro n
  induction n with
  | nullptr => intro st h; exact absurd rfl h
  | mk a kvs l r c ihl ihr =>
    intro st _ hord hent hdist hpk hkb hpp
    obtain ⟨kv, tl, rfl⟩ : ∃ kv tl, kvs = kv :: tl := by
      cases kvs with
      | nil => exact absurd rfl (hent [] (by simp [Node.entries]))
      | cons kv tl => exact ⟨kv, tl, rfl⟩
    obtain ⟨⟨hroot, hl⟩, hr⟩ := hord
    have hroot' := hroot kv.key (by simp)
    have hentl : ∀ kvs ∈ l.entries, kvs ≠ [] := fun kvs h => hent kvs (by simp [Node.entries, h])
    have hentr : ∀ kvs ∈ r.entries, kvs ≠ [] := fun kvs h => hent kvs (by simp [Node.entries, h])
    have hkroot : KeyBelow cmp st kv.key := hkb kv.key (by simp [Node.keys])
    simp only [initStackOfPreviousNodesInInsert, Node.frontKey, bind, Except.bind]
    by_cases h1 : cmp kv.key k < 0
    · simp only [h1, if_true]
      have hleft : ∀ x ∈ l.keys, cmp x k ≠ 0 := fun x hx => by
        have := hcmp.trans _ _ _ (hroot'.1 x hx) h1; omega
      by_cases hrn : r = Node.nullptr
      · subst hrn
        refine ⟨a, kv, tl, l, Node.nullptr, c, st, ?_, ?_, hpk, hkb k (by simp), hkroot,
          hpp, ?_, hdist, Or.inr ⟨Or.inl ⟨h1, rfl⟩, ?_⟩⟩
        · simp [initStackOfPreviousNodesInInsert, pullOutNodeFromStack, Frame.fill, pure,
            Except.pure]
        · rfl
        · intro x hx; exact hx
        · intro x hx
          simp only [Node.keys, List.head?_cons, Option.map_some', Option.toList_some,
            List.singleton_append, List.append_nil, List.mem_cons] at hx
          rcases hx with hx | hx
          · subst hx; omega
          · exact hleft x hx
      · obtain ⟨a', kv', tl', l', r', c', st', he, hre, hpk', hkb', hkk', hpp', hsub, hd', hcase⟩ :=
          ihr ({ addr := a, keysAndValues := kv :: tl, isRed := c, wentRight := true,
                  other := l } :: st) hrn hr hentr hdist.right
            ⟨⟨kv, tl, rfl, hkroot⟩, hpk⟩
            (fun x hx => KeyBelow.cons ⟨kv, tl, rfl, by
                simp only [if_true]
                rcases List.mem_cons.1 hx with hx | hx
                · subst hx; exact h1
                · exact (hcmp.antisymm _ _).2 (hroot'.2 x hx)⟩
              (hkb x (by
                rcases List.mem_cons.1 hx with hx | hx
                · subst hx; simp
                · simp [Node.keys, hx])))
            ⟨hdist.left_ne_right hrn, hpp⟩
        refine ⟨a', kv', tl', l', r', c', st', he, ?_, hpk', hkb', hkk', hpp', ?_, hd', ?_⟩
        · rw [hre]; simp [rebuild, Frame.fill]
        · intro x hx; have := hsub x hx; simp only [Node.addrs, List.mem_cons, List.mem_append]
          exact Or.inr (Or.inr this)
        · rcases hcase with ⟨h0, hm⟩ | ⟨hside, hall⟩
          · left; refine ⟨h0, ?_⟩
            simp only [Node.keys, List.mem_append]; exact Or.inr (Or.inr hm)
          · right; refine ⟨hside, ?_⟩
            intro x hx
            simp only [Node.keys, List.head?_cons, Option.map_some', Option.toList_some,
              List.singleton_append, List.mem_cons, List.mem_append] at hx
            rcases hx with hx | hx | hx
            · subst hx; omega
            · exact hleft x hx
            · exact hall x hx
    · by_cases h2 : cmp kv.key k > 0
      · simp only [h1, h2, if_true, if_false]
        have hright : ∀ x ∈ r.keys, cmp x k ≠ 0 := fun x hx => by
          have := hcmp.pos_trans (hroot'.2 x hx) h2; omega
        by_cases hln : l = Node.nullptr
        · subst hln
          refine ⟨a, kv, tl, Node.nullptr, r, c, st, ?_, ?_, hpk, hkb k (by simp), hkroot,
            hpp, ?_, hdist, Or.inr ⟨Or.inr ⟨h2, rfl⟩, ?_⟩⟩
          · simp [initStackOfPreviousNodesInInsert, pullOutNodeFromStack, Frame.fill, pure,
              Except.pure]
          · rfl
          · intro x hx; exact hx
          · intro x hx
            simp only [Node.keys, List.head?_cons, Option.map_some', Option.toList_some,
              List.singleton_append, List.nil_append, List.mem_cons] at hx
            rcases hx with hx | hx
            · subst hx; omega
            · exact hright x hx
        · obtain ⟨a', kv', tl', l', r', c', st', he, hre, hpk', hkb', hkk', hpp', hsub, hd', hcase⟩ :=
            ihl ({ addr := a, keysAndValues := kv :: tl, isRed := c, wentRight := false,
                    other := r } :: st) hln hl hentl hdist.left
              ⟨⟨kv, tl, rfl, hkroot⟩, hpk⟩
              (fun x hx => KeyBelow.cons ⟨kv, tl, rfl, by
                  simp only [Bool.false_eq_true, if_false]
                  rcases List.mem_cons.1 hx with hx | hx
                  · subst hx; exact h2
                  · exact (hcmp.antisymm _ _).1 (hroot'.1 x hx)⟩
                (hkb x (by
                  rcases List.mem_cons.1 hx with hx | hx
                  · subst hx; simp
                  · simp [Node.keys, hx])))
              ⟨hdist.right_ne_left hln, hpp⟩
          refine ⟨a', kv', tl', l', r', c', st', he, ?_, hpk', hkb', hkk', hpp', ?_, hd', ?_⟩
          · rw [hre]; simp [rebuild, Frame.fill]
          · intro x hx; have := hsub x hx
            simp only [Node.addrs, List.mem_cons, List.mem_append]
            exact Or.inr (Or.inl this)
          · rcases hcase with ⟨h0, hm⟩ | ⟨hside, hall⟩
            · left; refine ⟨h0, ?_⟩
              simp only [Node.keys, List.mem_append]; exact Or.inr (Or.inl hm)
            · right; refine ⟨hside, ?_⟩
              intro x hx
              simp only [Node.keys, List.head?_cons, Option.map_some', Option.toList_some,
                List.singleton_append, List.mem_cons, List.mem_append] at hx
              rcases hx with hx | hx | hx
              · subst hx; omega
              · exact hall x hx
              · exact hright x hx
      · have h0 : cmp kv.key k = 0 := by omega
        simp only [h1, h2, if_false]
        refine ⟨a, kv, tl, l, r, c, st, rfl, rfl, hpk, hkb k (by simp), hkroot, hpp,
          fun x hx => hx, hdist, Or.inl ⟨h0, by simp [Node.keys]⟩⟩

/-! ## Insertion: the loop returns -/

theorem hangNodesAfterTurnStack_ok (cmp : TKey → TKey → Int)
    (nodeToHang oldChild : Node TKey TData) (nodeStack : List (Frame TKey TData))
    (hn : ∃ a kv tl l r c, nodeToHang = Node.mk a (kv :: tl) l r c)
    (hs : ∀ f ∈ nodeStack, f.keysAndValues ≠ []) :
    ∃ head, hangNodesAfterTurnStack cmp nodeToHang oldChild nodeStack = .ok head := by
  obtain ⟨a, kv, tl, l, r, c, rfl⟩ := hn
  cases nodeStack with
  | nil => exact ⟨_, rfl⟩
  | cons f rest =>
    have hf := hs f (List.mem_cons_self _ _)
    obtain ⟨fa, fkvs, fc, fw, fo⟩ := f
    cases fkvs with
    | nil => exact absurd rfl hf
    | cons fkv ftl =>
      have hlast : ∃ e, (kv :: tl).getLast? = some e := by
        cases h : (kv :: tl).getLast? with
        | none => simp at h
        | some e => exact ⟨e, rfl⟩
      obtain ⟨e, he⟩ := hlast
      by_cases hlt : cmp fkv.key e.key < 0 <;> cases fw <;>
        simp [hangNodesAfterTurnStack, hangNodesAfterTurn, Frame.fill, Node.frontKey,
          Node.backKey, he, bind, Except.bind, pure, Except.pure, hlt, Node.setRightPtr,
          Node.setLeftPtr]

theorem blackenHead_ok (head : Node TKey TData) (h : head ≠ Node.nullptr) :
    ∃ head', blackenHead head = .ok head' := by
  cases head with
  | nullptr => exact absurd rfl h
  | mk a kvs l r c =>
    cases c <;> simp [blackenHead, Node.nodeIsRed, Node.makeBlack, bind, Except.bind, pure,
      Except.pure]

theorem tryAddRotate_ok {cmp : TKey → TKey → Int} (g f0 : Frame TKey TData)
    (child : Node TKey TData) (rest : List (Frame TKey TData))
    {kvg kvf kvc : KeyAndValue TKey TData} {tlg tlf tlc : List (KeyAndValue TKey TData)}
    {sa : Nat} {sl sr : Node TKey TData} {sc : Bool}
    (hg : g.keysAndValues = kvg :: tlg) (hf : f0.keysAndValues = kvf :: tlf)
    (hc : child = Node.mk sa (kvc :: tlc) sl sr sc)
    (hgf : if g.wentRight then cmp kvg.key kvf.key < 0 else cmp kvg.key kvf.key > 0)
    (hgc : if g.wentRight then cmp kvg.key kvc.key < 0 else cmp kvg.key kvc.key > 0)
    (hfc : if f0.wentRight then cmp kvf.key kvc.key < 0 else cmp kvf.key kvc.key > 0)
    (hpg : g.other.ptr ≠ Ptr.heap f0.addr) (hpf : f0.other.ptr ≠ child.ptr)
    (hrest : ∀ f ∈ rest, f.keysAndValues ≠ []) :
    ∃ head, tryAddRotate cmp child (f0.fill child) (g.fill (f0.fill child)) rest
      = .ok head := by
  subst hc
  obtain ⟨ga, gkvs, gc, gw, go⟩ := g
  obtain ⟨fa, fkvs, fc, fw, fo⟩ := f0
  simp only at hg hf hgf hgc hfc hpg hpf
  subst hg hf
  simp only [Node.ptr_mk] at hpf
  have hang := fun (n o : Node TKey TData)
      (hn : ∃ a kv tl l r c, n = Node.mk a (kv :: tl) l r c) =>
    hangNodesAfterTurnStack_ok cmp n o rest hn hrest
  cases gw <;> cases fw <;>
    simp only [Bool.false_eq_true, if_false, if_true] at hgf hgc hfc <;>
    simp only [tryAddRotate, Frame.fill, Bool.false_eq_true, if_false, if_true]
  · -- left, left
    have hn : ¬ cmp kvg.key kvc.key < 0 := by omega
    rw [needToMakeSingleTurn_of_not_lt hn]
    simp only [bind, Except.bind]
    by_cases he : cmp kvg.key kvf.key = cmp kvf.key kvc.key
    · simp only [he, decide_True, if_true, makeSingleTurn_left_left hn hpf hpg, Node.reread,
        Node.ptr_mk]
      obtain ⟨head, hh⟩ := hang (Node.mk fa (kvf :: tlf) (Node.mk sa (kvc :: tlc) sl sr sc)
        (Node.mk ga (kvg :: tlg) fo go gc) fc) (Node.mk ga (kvg :: tlg) fo go gc)
        ⟨_, _, _, _, _, _, rfl⟩
      rw [hh]; exact ⟨_, rfl⟩
    · simp only [he, decide_False, Bool.false_eq_true, if_false, makeDoubleTurn_left_left hn]
      obtain ⟨head, hh⟩ := hang (Node.mk sa (kvc :: tlc)
        (Node.mk ga (kvg :: tlg) (Node.mk fa (kvf :: tlf) sr fo fc) sl gc)
        (Node.mk fa (kvf :: tlf) sr fo fc) sc)
        (Node.mk ga (kvg :: tlg) (Node.mk fa (kvf :: tlf) sr fo fc) sl gc)
        ⟨_, _, _, _, _, _, rfl⟩
      rw [hh]; exact ⟨_, rfl⟩
  · -- left, right
    have hn : ¬ cmp kvg.key kvc.key < 0 := by omega
    rw [needToMakeSingleTurn_of_not_lt hn]
    simp only [bind, Except.bind]
    have he : ¬ cmp kvg.key kvf.key = cmp kvf.key kvc.key := by omega
    simp only [he, decide_False, Bool.false_eq_true, if_false,
      makeDoubleTurn_left_right hn hpf hpg]
    obtain ⟨head, hh⟩ := hang (Node.mk sa (kvc :: tlc) (Node.mk fa (kvf :: tlf) fo sl fc)
      (Node.mk ga (kvg :: tlg) sr go gc) sc) (Node.mk ga (kvg :: tlg) sr go gc)
      ⟨_, _, _, _, _, _, rfl⟩
    rw [hh]; exact ⟨_, rfl⟩
  · -- right, left
    rw [needToMakeSingleTurn_of_lt hgc]
    simp only [bind, Except.bind]
    have he : ¬ cmp kvg.key kvf.key = cmp kvf.key kvc.key := by omega
    simp only [he, decide_False, Bool.false_eq_true, if_false,
      makeDoubleTurn_right_left hgc hpg]
    obtain ⟨head, hh⟩ := hang (Node.mk sa (kvc :: tlc) (Node.mk ga (kvg :: tlg) go sl gc)
      (Node.mk fa (kvf :: tlf) sr fo fc) sc) (Node.mk ga (kvg :: tlg) go sl gc)
      ⟨_, _, _, _, _, _, rfl⟩
    rw [hh]; exact ⟨_, rfl⟩
  · -- right, right
    rw [needToMakeSingleTurn_of_lt hgc]
    simp only [bind, Except.bind]
    by_cases he : cmp kvg.key kvf.key = cmp kvf.key kvc.key
    · simp only [he, decide_True, if_true, makeSingleTurn_right_right hgc hpg, Node.reread,
        Node.ptr_mk]
      obtain ⟨head, hh⟩ := hang (Node.mk fa (kvf :: tlf) (Node.mk ga (kvg :: tlg) go fo gc)
        (Node.mk sa (kvc :: tlc) sl sr sc) fc) (Node.mk ga (kvg :: tlg) go fo gc)
        ⟨_, _, _, _, _, _, rfl⟩
      rw [hh]; exact ⟨_, rfl⟩
    · simp only [he, decide_False, Bool.false_eq_true, if_false,
        makeDoubleTurn_right_right hgc hpf]
      obtain ⟨head, hh⟩ := hang (Node.mk sa (kvc :: tlc) (Node.mk fa (kvf :: tlf) fo sl fc)
        (Node.mk ga (kvg :: tlg) sr (Node.mk fa (kvf :: tlf) fo sl fc) gc) sc)
        (Node.mk ga (kvg :: tlg) sr (Node.mk fa (kvf :: tlf) fo sl fc) gc)
        ⟨_, _, _, _, _, _, rfl⟩
      rw [hh]; exact ⟨_, rfl⟩

theorem tryAddLoop_red_cons (cmp : TKey → TKey → Int) (child : Node TKey TData) (a : Nat)
    (kvs : List (KeyAndValue TKey TData)) (l r : Node TKey TData) (g : Frame TKey TData)
    (rest : List (Frame TKey TData)) (uncle : Node TKey TData)
    (hu : (g.fill (Node.mk a kvs l r true)).returnAnotherChild (Ptr.heap a) = .ok uncle) :
    tryAddLoop cmp child (Node.mk a kvs l r true) (g :: rest) =
      if uncle.isRedNode = false then
        tryAddRotate cmp child (Node.mk a kvs l r true) (g.fill (Node.mk a kvs l r true)) rest
      else
        match rest with
        | [] => blackenHead
            ((((g.fill (Node.mk a kvs l r true)).setColorAt (Ptr.heap a) false).setColorAt
              uncle.ptr false).setColorAt (Ptr.heap g.addr) true)
        | f :: above => tryAddLoop cmp
            ((((g.fill (Node.mk a kvs l r true)).setColorAt (Ptr.heap a) false).setColorAt
              uncle.ptr false).setColorAt (Ptr.heap g.addr) true)
            (f.fill ((((g.fill (Node.mk a kvs l r true)).setColorAt (Ptr.heap a) false).setColorAt
              uncle.ptr false).setColorAt (Ptr.heap g.addr) true)) above := by
  simp only [tryAddLoop, Node.ptr_mk, hu, bind, Except.bind]
  cases h : uncle.isRedNode <;> simp

theorem Frame.fill_returnAnotherChild (g : Frame TKey TData) (father : Node TKey TData)
    (a : Nat) (hfa : father.ptr = Ptr.heap a) (hp : g.other.ptr ≠ Ptr.heap a) :
    (g.fill father).returnAnotherChild (Ptr.heap a) = .ok g.other := by
  unfold Frame.fill
  split <;> simp [Node.returnAnotherChild, hfa, hp]

theorem tryAddLoop_ok (cmp : TKey → TKey → Int) :
    ∀ (n : Nat) (frames : List (Frame TKey TData)) (f0 : Frame TKey TData)
      (child : Node TKey TData),
      frames.length ≤ n →
      PathKeys cmp (f0 :: frames) →
      (∃ sa kvc tlc sl sr sc, child = Node.mk sa (kvc :: tlc) sl sr sc ∧
        KeyBelow cmp (f0 :: frames) kvc.key) →
      PathPtrs (f0 :: frames) child.ptr →
      (rebuild frames (f0.fill child)).isRedNode = false →
      ∃ head, tryAddLoop cmp child (f0.fill child) frames = .ok head := by
  intro n
  induction n using Nat.strong_induction_on with
  | _ n ih =>
    intro frames f0 child hlen hpk hchild hpp hroot
    obtain ⟨sa, kvc, tlc, sl, sr, sc, hc, hkc⟩ := hchild
    obtain ⟨⟨kvf, tlf, hf, hkf⟩, hpk'⟩ := hpk
    obtain ⟨hpf, hpp'⟩ := hpp
    obtain ⟨kvf', tlf', hf', hfc⟩ := hkc.head
    rw [hf] at hf'
    cases hf'
    obtain ⟨l, r, hfill⟩ : ∃ l r, f0.fill child = Node.mk f0.addr (kvf :: tlf) l r f0.isRed := by
      unfold Frame.fill; rw [hf]; split <;> exact ⟨_, _, rfl⟩
    cases hred : f0.isRed with
    | false =>
      have hfill' : f0.fill child = Node.mk f0.addr (kvf :: tlf) l r false := by
        rw [hfill, hred]
      have hne : rebuild frames (f0.fill child) ≠ Node.nullptr :=
        rebuild_ne_nullptr _ (by rw [hfill']; simp)
      rw [hfill'] at hne ⊢
      simp only [tryAddLoop]
      exact blackenHead_ok _ hne
    | true =>
      have hfill' : f0.fill child = Node.mk f0.addr (kvf :: tlf) l r true := by
        rw [hfill, hred]
      cases frames with
      | nil =>
        rw [hfill'] at hroot
        simp [rebuild, Node.isRedNode] at hroot
      | cons g rest =>
        obtain ⟨⟨kvg, tlg, hg, hkg⟩, hpk''⟩ := hpk'
        obtain ⟨hpg, hpp''⟩ := hpp'
        obtain ⟨kvg', tlg', hg', hgf⟩ := hkf.head
        rw [hg] at hg'; cases hg'
        obtain ⟨kvg', tlg', hg', hgc⟩ := hkc.tail.head
        rw [hg] at hg'; cases hg'
        have hrot := tryAddRotate_ok g f0 child rest hg hf hc hgf hgc hfc hpg hpf
          (fun f hfm => by
            obtain ⟨kv, tl, hkv, -⟩ := (hkf.tail) f hfm
            rw [hkv]; simp)
        have hu := Frame.fill_returnAnotherChild g (f0.fill child) f0.addr
          (by rw [hfill']; rfl) hpg
        rw [hfill'] at hu hrot hroot ⊢
        rw [tryAddLoop_red_cons cmp child _ _ _ _ g rest g.other hu]
        split
        · exact hrot
        · obtain ⟨gl, gr, gcol, hpaint⟩ : ∃ gl gr gcol,
              ((((g.fill (Node.mk f0.addr (kvf :: tlf) l r true)).setColorAt
                (Ptr.heap f0.addr) false).setColorAt g.other.ptr false).setColorAt
                  (Ptr.heap g.addr) true) = Node.mk g.addr (kvg :: tlg) gl gr gcol := by
            unfold Frame.fill; rw [hg]; split <;> exact ⟨_, _, _, rfl⟩
          rw [hpaint]
          cases rest with
          | nil => exact blackenHead_ok _ (by simp)
          | cons f above =>
            simp only
            have hlen' : above.length + 2 ≤ n := by simpa using hlen
            apply ih (n - 2) (by omega) above f _ (by omega) hpk''
            · exact ⟨g.addr, kvg, tlg, _, _, _, rfl, hkg⟩
            · simpa using hpp''
            · have h1 := hroot
              simp only [rebuild] at h1
              rw [← h1]
              exact rebuild_isRedNode above f _ _

/-! ## Insertion: the number of nodes -/

theorem increment_eq (n : Nat) (h : n + 1 < 2 ^ 32) : increment n = n + 1 := by
  unfold increment; exact Nat.mod_eq_of_lt h

theorem Node.eq_nullptr_of_size_eq_zero {n : Node TKey TData} (h : n.size = 0) :
    n = Node.nullptr := by
  cases n with
  | nullptr => rfl
  | mk a kvs l r c => simp [Node.size] at h

/-- C9: on a tree that satisfies the invariants of §3 and whose `numberOfNodes` is its number
of nodes (below the largest `unsigned int`), `tryAdd` returns; `numberOfNodes` has grown by
exactly 1 when the key compares equal to no representative key of the tree (the empty tree
included), and is unchanged when the key compares equal to one. -/
theorem tryAdd_numberOfNodes [DecidableEq TKey] (t : RBTree TKey TData)
    (cmp : TKey → TKey → Int) (newAddr : Nat) (key : TKey) (data : TData)
    (hcmp : t.comparatorStrategy = some cmp) (horder : StrictTotalOrder cmp)
    (hbst : t.head.Ordered cmp) (hentries : t.head.EntriesOk cmp)
    (hblack : t.head.RootBlack) (hdistinct : t.head.Distinct)
    (hfresh : newAddr ∉ t.head.addrs)
    (hcount : t.numberOfNodes = t.head.size) (hbound : t.numberOfNodes + 1 < 2 ^ 32) :
    ∃ t', t.tryAdd newAddr key data = .returned t' ∧
      ((∀ x ∈ t.head.keys, cmp x key ≠ 0) → t'.numberOfNodes = t.numberOfNodes + 1) ∧
      ((∃ x ∈ t.head.keys, cmp x key = 0) → t'.numberOfNodes = t.numberOfNodes) := by
  by_cases h0 : t.numberOfNodes = 0
  · have hnull : t.head = Node.nullptr := Node.eq_nullptr_of_size_eq_zero (hcount ▸ h0)
    refine ⟨{ t with
        head := Node.mk newAddr [{ key := key, data := data }] Node.nullptr Node.nullptr false
        numberOfNodes := 1 }, by simp [RBTree.tryAdd, RBTree.isEmpty, h0], ?_, ?_⟩
    · intro _; show 1 = t.numberOfNodes + 1; omega
    · rintro ⟨x, hx, -⟩; rw [hnull] at hx; simp [Node.keys] at hx
  · have hne : t.head ≠ Node.nullptr := by
      intro h; rw [h] at hcount; exact h0 (by simpa [Node.size] using hcount)
    have hnonempty : ∀ kvs ∈ t.head.entries, kvs ≠ [] := by
      intro kvs hk; obtain ⟨kv, rest, rfl, -⟩ := hentries kvs hk; simp
    obtain ⟨a, kv, tl, l, r, c, st', hdescent, hre, hpk, hkb, hkk, hpp, hsub, hd, hcase⟩ :=
      initStackOfPreviousNodesInInsert_spec horder key t.head [] hne hbst hnonempty hdistinct
        trivial (fun x _ f hf => by simp at hf) trivial
    have hfreshl : l.ptr ≠ Ptr.heap newAddr := fun h =>
      hfresh (hsub _ (by simp [Node.addrs, Node.mem_addrs_of_ptr h]))
    have hfreshr : r.ptr ≠ Ptr.heap newAddr := fun h =>
      hfresh (hsub _ (by simp [Node.addrs, Node.mem_addrs_of_ptr h]))
    have hrootcol : ∀ (f0 : Frame TKey TData) (x y : Node TKey TData),
        f0.fill y = Node.mk a (kv :: tl) l r c →
        (rebuild st' (f0.fill x)).isRedNode = false := by
      intro f0 x y hy
      rw [rebuild_isRedNode st' f0 x y, hy, hre]
      exact hblack
    simp only [RBTree.tryAdd, RBTree.isEmpty, beq_iff_eq, h0, if_false,
      RBTree.throwExceptionIfThereIsNoCompare, hcmp, hdescent, bind, Except.bind,
      linkOrUnionChildWithFatherInInsert, Node.frontKey, Node.front, pure, Except.pure]
    rcases hcase with ⟨heq, hmem⟩ | ⟨hside, hall⟩
    · -- the key is in the tree
      have hk : kv.key = key := (horder.eq_zero _ _).1 heq
      have h1 : ¬ cmp kv.key key < 0 := by omega
      have h2 : ¬ cmp kv.key key > 0 := by omega
      simp only [h1, h2, if_false, Node.pushBack, List.cons_append]
      simp only [Node.nodeIsBlack, Node.hasTheSameKeyWith,
        Node.frontKey, bind, Except.bind, pure, Except.pure, hk, decide_True]
      cases c <;>
        simp only [beq_self_eq_true, if_true, Bool.true_eq_false, beq_iff_eq, if_false,
          Bool.false_eq_true] <;>
        exact ⟨_, rfl, fun h => absurd heq (h _ hmem), fun _ => rfl⟩
    · -- the key is new
      have hnk : kv.key ≠ key := by
        intro h; rcases hside with ⟨h1, -⟩ | ⟨h1, -⟩ <;>
          · rw [h, horder.refl] at h1; omega
      have hnum : ∀ t' : RBTree TKey TData, t'.numberOfNodes = increment t.numberOfNodes →
          ((∀ x ∈ t.head.keys, cmp x key ≠ 0) → t'.numberOfNodes = t.numberOfNodes + 1) ∧
          ((∃ x ∈ t.head.keys, cmp x key = 0) → t'.numberOfNodes = t.numberOfNodes) := by
        intro t' ht'
        refine ⟨fun _ => by rw [ht', increment_eq _ hbound], ?_⟩
        rintro ⟨x, hx, hx0⟩; exact absurd hx0 (hall x hx)
      rcases hside with ⟨h1, hr⟩ | ⟨h2, hl⟩
      · subst hr
        simp only [h1, if_true, Node.setRightPtr, Node.nodeIsBlack, Node.hasTheSameKeyWith,
          Node.frontKey, bind, Except.bind, pure, Except.pure, hnk, decide_False]
        cases c
        · simp only [beq_self_eq_true, if_true]
          exact ⟨_, rfl, hnum _ rfl⟩
        · simp only [Bool.true_eq_false, beq_iff_eq, if_false, Bool.false_eq_true]
          obtain ⟨head, hhead⟩ := tryAddLoop_ok cmp st'.length st'
            { addr := a, keysAndValues := kv :: tl, isRed := true, wentRight := true,
              other := l }
            (Node.mk newAddr [{ key := key, data := data }] Node.nullptr Node.nullptr true)
            (le_refl _) ⟨⟨kv, tl, rfl, hkk⟩, hpk⟩
            ⟨_, _, _, _, _, _, rfl, KeyBelow.cons ⟨kv, tl, rfl, by simpa using h1⟩ hkb⟩
            ⟨by simpa using hfreshl, hpp⟩
            (hrootcol _ _ Node.nullptr (by simp [Frame.fill]))
          simp only [Frame.fill, if_true] at hhead
          rw [hhead]
          exact ⟨_, rfl, hnum _ rfl⟩
      · subst hl
        have h1 : ¬ cmp kv.key key < 0 := by omega
        simp only [h1, h2, if_true, if_false, Node.setLeftPtr, Node.nodeIsBlack,
          Node.hasTheSameKeyWith, Node.frontKey, bind, Except.bind, pure, Except.pure, hnk,
          decide_False]
        cases c
        · simp only [beq_self_eq_true, if_true]
          exact ⟨_, rfl, hnum _ rfl⟩
        · simp only [Bool.true_eq_false, beq_iff_eq, if_false, Bool.false_eq_true]
          obtain ⟨head, hhead⟩ := tryAddLoop_ok cmp st'.length st'
            { addr := a, keysAndValues := kv :: tl, isRed := true, wentRight := false,
              other := r }
            (Node.mk newAddr [{ key := key, data := data }] Node.nullptr Node.nullptr true)
            (le_refl _) ⟨⟨kv, tl, rfl, hkk⟩, hpk⟩
            ⟨_, _, _, _, _, _, rfl, KeyBelow.cons ⟨kv, tl, rfl, by simpa using h2⟩ hkb⟩
            ⟨by simpa using hfreshr, hpp⟩
            (hrootcol _ _ Node.nullptr (by simp [Frame.fill]))
          simp only [Frame.fill, Bool.false_eq_true, if_false] at hhead
          rw [hhead]
          exact ⟨_, rfl, hnum _ rfl⟩

/-! ## What the operations do to the entry sequences

Turning, hanging and recolouring move nodes and change colours; no entry sequence is made or
changed.  `AllEntries P` is therefore kept by every step of the removal. -/

theorem bind_eq_ok {ε α β : Type} {x : Except ε α} {f : α → Except ε β} {b : β} :
    (x >>= f) = .ok b ↔ ∃ a, x = .ok a ∧ f a = .ok b := by
  cases x with
  | error e => simp [bind, Except.bind]
  | ok a => simp [bind, Except.bind]

section AllEntries

variable {P : List (KeyAndValue TKey TData) → Prop}

theorem Node.AllEntries.nullptr : (Node.nullptr : Node TKey TData).AllEntries P := by
  intro kvs h; simp [Node.entries] at h

theorem Node.allEntries_mk {a : Nat} {kvs : List (KeyAndValue TKey TData)}
    {l r : Node TKey TData} {c : Bool} :
    (Node.mk a kvs l r c).AllEntries P ↔ P kvs ∧ l.AllEntries P ∧ r.AllEntries P := by
  simp only [Node.AllEntries, Node.entries, List.mem_cons, List.mem_append]
  constructor
  · intro h
    exact ⟨h _ (Or.inl rfl), fun k hk => h k (Or.inr (Or.inl hk)),
      fun k hk => h k (Or.inr (Or.inr hk))⟩
  · rintro ⟨h1, h2, h3⟩ k (hk | hk | hk)
    · subst hk; exact h1
    · exact h2 k hk
    · exact h3 k hk

theorem Node.entries_setColorAt (p : Ptr) (red : Bool) :
    ∀ n : Node TKey TData, (n.setColorAt p red).entries = n.entries
  | .nullptr => rfl
  | .mk a kvs l r c => by
    simp only [Node.setColorAt, Node.entries, Node.entries_setColorAt p red l,
      Node.entries_setColorAt p red r]

theorem Node.AllEntries.setColorAt {n : Node TKey TData} (h : n.AllEntries P) (p : Ptr)
    (red : Bool) : (n.setColorAt p red).AllEntries P := by
  unfold Node.AllEntries; rw [Node.entries_setColorAt]; exact h

theorem Node.AllEntries.reread {p now : Node TKey TData} (hp : p.AllEntries P)
    (hn : now.AllEntries P) : (Node.reread p now).AllEntries P := by
  unfold Node.reread; split <;> assumption

theorem Frame.allEntries_fill {f : Frame TKey TData} {x : Node TKey TData} :
    (f.fill x).AllEntries P ↔ (P f.keysAndValues ∧ f.other.AllEntries P) ∧ x.AllEntries P := by
  unfold Frame.fill
  split <;> simp only [Node.allEntries_mk] <;> tauto

theorem allEntries_rebuild {nodeStack : List (Frame TKey TData)} {x : Node TKey TData} :
    (rebuild nodeStack x).AllEntries P ↔ FramesAll P nodeStack ∧ x.AllEntries P := by
  induction nodeStack generalizing x with
  | nil => simp [rebuild, FramesAll]
  | cons f rest ih =>
    simp only [rebuild, ih, Frame.allEntries_fill, FramesAll, List.mem_cons, forall_eq_or_imp]
    tauto

theorem Node.AllEntries.of_getLeftPtr {n l : Node TKey TData} (h : n.AllEntries P)
    (hl : n.getLeftPtr = .ok l) : l.AllEntries P := by
  cases n with
  | nullptr => simp [Node.getLeftPtr] at hl
  | mk a kvs l' r c =>
    simp only [Node.getLeftPtr, Except.ok.injEq] at hl
    subst hl; exact (Node.allEntries_mk.1 h).2.1

theorem Node.AllEntries.of_getRightPtr {n r : Node TKey TData} (h : n.AllEntries P)
    (hr : n.getRightPtr = .ok r) : r.AllEntries P := by
  cases n with
  | nullptr => simp [Node.getRightPtr] at hr
  | mk a kvs l r' c =>
    simp only [Node.getRightPtr, Except.ok.injEq] at hr
    subst hr; exact (Node.allEntries_mk.1 h).2.2

theorem Node.AllEntries.of_setLeftPtr {n q m : Node TKey TData} (h : n.AllEntries P)
    (hq : q.AllEntries P) (hm : n.setLeftPtr q = .ok m) : m.AllEntries P := by
  cases n with
  | nullptr => simp [Node.setLeftPtr] at hm
  | mk a kvs l r c =>
    simp only [Node.setLeftPtr, Except.ok.injEq] at hm
    subst hm
    have := Node.allEntries_mk.1 h
    exact Node.allEntries_mk.2 ⟨this.1, hq, this.2.2⟩

theorem Node.AllEntries.of_setRightPtr {n q m : Node TKey TData} (h : n.AllEntries P)
    (hq : q.AllEntries P) (hm : n.setRightPtr q = .ok m) : m.AllEntries P := by
  cases n with
  | nullptr => simp [Node.setRightPtr] at hm
  | mk a kvs l r c =>
    simp only [Node.setRightPtr, Except.ok.injEq] at hm
    subst hm
    have := Node.allEntries_mk.1 h
    exact Node.allEntries_mk.2 ⟨this.1, this.2.1, hq⟩

theorem Node.AllEntries.of_returnAnotherChild {n u : Node TKey TData} {p : Ptr}
    (h : n.AllEntries P) (hu : n.returnAnotherChild p = .ok u) : u.AllEntries P := by
  cases n with
  | nullptr => simp [Node.returnAnotherChild] at hu
  | mk a kvs l r c =>
    have := Node.allEntries_mk.1 h
    simp only [Node.returnAnotherChild] at hu
    split at hu
    · cases hu; exact this.2.2
    · split at hu
      · cases hu; exact this.2.1
      · split at hu
        · cases hu; exact this.2.2
        · cases hu; exact this.2.1

theorem Node.AllEntries.of_returnRedChildOrNullptr {n u : Node TKey TData}
    (h : n.AllEntries P) (hu : n.returnRedChildOrNullptr = .ok u) : u.AllEntries P := by
  cases n with
  | nullptr => simp [Node.returnRedChildOrNullptr] at hu
  | mk a kvs l r c =>
    have := Node.allEntries_mk.1 h
    simp only [Node.returnRedChildOrNullptr] at hu
    split at hu
    · cases hu; exact this.2.1
    · split at hu
      · cases hu; exact this.2.2
      · cases hu; exact Node.AllEntries.nullptr

theorem Node.AllEntries.of_returnFather {cmp : TKey → TKey → Int} {g s f : Node TKey TData}
    (h : g.AllEntries P) (hf : returnFather cmp g s = .ok f) : f.AllEntries P := by
  simp only [returnFather, bind_eq_ok] at hf
  obtain ⟨_, _, _, _, hf⟩ := hf
  split at hf
  · exact h.of_getRightPtr hf
  · exact h.of_getLeftPtr hf

theorem Node.AllEntries.of_returnSon {cmp : TKey → TKey → Int} {g s f : Node TKey TData}
    (h : g.AllEntries P) (hf : g.returnSon s cmp = .ok f) : f.AllEntries P := by
  simp only [Node.returnSon, bind_eq_ok] at hf
  obtain ⟨_, _, _, _, hf⟩ := hf
  split at hf
  · exact h.of_getRightPtr hf
  · exact h.of_getLeftPtr hf

theorem Node.AllEntries.of_returnSonByZigzag {cmp : TKey → TKey → Int}
    {g s f : Node TKey TData}
    (h : g.AllEntries P) (hf : g.returnSonByZigzag s cmp = .ok f) : f.AllEntries P := by
  simp only [Node.returnSonByZigzag, bind_eq_ok] at hf
  obtain ⟨_, _, _, _, hf⟩ := hf
  split at hf
  · exact h.of_getRightPtr hf
  · exact h.of_getLeftPtr hf

theorem Node.AllEntries.of_returnGrandsonByZigzag {cmp : TKey → TKey → Int}
    {b g s : Node TKey TData}
    (h : g.AllEntries P) (hs : b.returnGrandsonByZigzag g cmp = .ok s) : s.AllEntries P := by
  simp only [Node.returnGrandsonByZigzag, bind_eq_ok] at hs
  obtain ⟨_, _, _, _, hs⟩ := hs
  split at hs
  · simp only [bind_eq_ok] at hs
    obtain ⟨x, hx, y, hy, hs⟩ := hs
    exact ((h.of_getLeftPtr hx).of_getRightPtr hy).of_getLeftPtr hs
  · simp only [bind_eq_ok] at hs
    obtain ⟨x, hx, y, hy, hs⟩ := hs
    exact ((h.of_getRightPtr hx).of_getLeftPtr hy).of_getRightPtr hs

theorem allEntries_makeSingleTurn {cmp : TKey → TKey → Int} {g s f' g' : Node TKey TData}
    (hg : g.AllEntries P) (h : makeSingleTurn cmp g s = .ok (f', g')) :
    f'.AllEntries P ∧ g'.AllEntries P := by
  simp only [makeSingleTurn, bind_eq_ok] at h
  obtain ⟨f, hf, h⟩ := h
  have hfa := hg.of_returnFather hf
  cases g with
  | nullptr => simp at h
  | mk ga gkvs gl gr gc =>
    cases f with
    | nullptr => simp at h
    | mk fa fkvs fl fr fc =>
      have hg' := Node.allEntries_mk.1 hg
      have hf' := Node.allEntries_mk.1 hfa
      simp only at h
      split at h
      · split at h
        · cases h
        · simp only [pure, Except.pure, Except.ok.injEq, Prod.mk.injEq] at h
          obtain ⟨rfl, rfl⟩ := h
          simp only [Node.allEntries_mk]; tauto
      · split at h
        · cases h
        · simp only [pure, Except.pure, Except.ok.injEq, Prod.mk.injEq] at h
          obtain ⟨rfl, rfl⟩ := h
          simp only [Node.allEntries_mk]; tauto

theorem allEntries_makeDoubleTurn {cmp : TKey → TKey → Int}
    {g s s' f' g' : Node TKey TData}
    (hg : g.AllEntries P) (hs : s.AllEntries P)
    (h : makeDoubleTurn cmp g s = .ok (s', f', g')) :
    s'.AllEntries P ∧ f'.AllEntries P ∧ g'.AllEntries P := by
  simp only [makeDoubleTurn, bind_eq_ok] at h
  obtain ⟨f, hf, h⟩ := h
  have hfa := hg.of_returnFather hf
  cases g with
  | nullptr => simp at h
  | mk ga gkvs gl gr gc =>
    cases f with
    | nullptr => simp at h
    | mk fa fkvs fl fr fc =>
      cases s with
      | nullptr => simp at h
      | mk sa skvs sl sr sc =>
        have hg' := Node.allEntries_mk.1 hg
        have hf' := Node.allEntries_mk.1 hfa
        have hs' := Node.allEntries_mk.1 hs
        simp only at h
        split at h
        · simp only [pure, Except.pure, Except.ok.injEq, Prod.mk.injEq] at h
          obtain ⟨rfl, rfl, rfl⟩ := h
          have hfn : (Node.mk fa fkvs sr fr fc).AllEntries P :=
            Node.allEntries_mk.2 ⟨hf'.1, hs'.2.2, hf'.2.2⟩
          have hre := Node.AllEntries.reread hg'.2.1 hfn
          simp only [Node.allEntries_mk] at hfn ⊢; tauto
        · simp only [pure, Except.pure, Except.ok.injEq, Prod.mk.injEq] at h
          obtain ⟨rfl, rfl, rfl⟩ := h
          have hfn : (Node.mk fa fkvs fl sl fc).AllEntries P :=
            Node.allEntries_mk.2 ⟨hf'.1, hf'.2.1, hs'.2.1⟩
          have hre := Node.AllEntries.reread hg'.2.2 hfn
          simp only [Node.allEntries_mk] at hfn ⊢; tauto

theorem allEntries_hangNodesAfterTurn {cmp : TKey → TKey → Int}
    {n prev out : Node TKey TData} (hn : n.AllEntries P) (hp : prev.AllEntries P)
    (h : hangNodesAfterTurn cmp n prev = .ok out) : out.AllEntries P := by
  simp only [hangNodesAfterTurn, bind_eq_ok] at h
  obtain ⟨_, _, _, _, h⟩ := h
  split at h
  · exact hp.of_setRightPtr hn h
  · exact hp.of_setLeftPtr hn h

theorem allEntries_hangNodesAfterTurnStack {cmp : TKey → TKey → Int}
    {n old head : Node TKey TData} {nodeStack : List (Frame TKey TData)}
    (hn : n.AllEntries P) (ho : old.AllEntries P) (hst : FramesAll P nodeStack)
    (h : hangNodesAfterTurnStack cmp n old nodeStack = .ok head) : head.AllEntries P := by
  cases nodeStack with
  | nil =>
    simp only [hangNodesAfterTurnStack, pure, Except.pure, Except.ok.injEq] at h
    subst h; exact hn
  | cons f rest =>
    simp only [hangNodesAfterTurnStack, bind_eq_ok, pure, Except.pure, Except.ok.injEq] at h
    obtain ⟨p, hp, rfl⟩ := h
    have hf := hst f (List.mem_cons_self _ _)
    have hrest : FramesAll P rest := fun g hg => hst g (List.mem_cons_of_mem _ hg)
    exact allEntries_rebuild.2 ⟨hrest,
      allEntries_hangNodesAfterTurn hn (Frame.allEntries_fill.2 ⟨hf, ho⟩) hp⟩

end AllEntries

section AllEntriesRemoval

variable {P : List (KeyAndValue TKey TData) → Prop} {cmp : TKey → TKey → Int}

theorem allEntries_deleteFatherRed {father brother redNephew head : Node TKey TData}
    {nodeStack : List (Frame TKey TData)}
    (hf : father.AllEntries P) (hb : brother.AllEntries P) (hr : redNephew.AllEntries P)
    (hst : FramesAll P nodeStack)
    (h : deleteFatherRed cmp father brother redNephew nodeStack = .ok head) :
    head.AllEntries P := by
  simp only [deleteFatherRed] at h
  split at h
  · simp only [bind_eq_ok] at h
    obtain ⟨single, -, h⟩ := h
    split at h
    · simp only [bind_eq_ok, pure, Except.pure, Except.ok.injEq] at h
      obtain ⟨⟨brotherNow, fatherNow⟩, hturn, hd, hhang, rfl⟩ := h
      obtain ⟨h1, h2⟩ := allEntries_makeSingleTurn hf hturn
      exact (((allEntries_hangNodesAfterTurnStack (hb.reread h1) h2 hst hhang).setColorAt _ _
        ).setColorAt _ _).setColorAt _ _
    · simp only [bind_eq_ok, pure, Except.pure, Except.ok.injEq] at h
      obtain ⟨⟨redNephewNow, _, fatherNow⟩, hturn, hd, hhang, rfl⟩ := h
      obtain ⟨h1, -, h3⟩ := allEntries_makeDoubleTurn hf hr hturn
      exact (allEntries_hangNodesAfterTurnStack h1 h3 hst hhang).setColorAt _ _
  · simp only [pure, Except.pure, Except.ok.injEq] at h
    subst h
    exact allEntries_rebuild.2 ⟨hst, (hf.setColorAt _ _).setColorAt _ _⟩

theorem Node.AllEntries.rereadChildren {n now : Node TKey TData} (hn : n.AllEntries P)
    (hnow : now.AllEntries P) : (n.rereadChildren now).AllEntries P := by
  cases n with
  | nullptr => exact Node.AllEntries.nullptr
  | mk a kvs l r c =>
    have := Node.allEntries_mk.1 hn
    exact Node.allEntries_mk.2 ⟨this.1, this.2.1.reread hnow, this.2.2.reread hnow⟩

theorem Holds.pure {α : Type} {Q : α → Prop} {a : α} (h : Q a) :
    Holds (Pure.pure a : Except Err α) Q :=
  ⟨fun b hb => by cases hb; exact h⟩

theorem Holds.ok {α : Type} {Q : α → Prop} {a : α} (h : Q a) :
    Holds (Except.ok a : Except Err α) Q :=
  ⟨fun b hb => by cases hb; exact h⟩

theorem Holds.error {α : Type} {Q : α → Prop} {e : Err} :
    Holds (Except.error e : Except Err α) Q :=
  ⟨fun b hb => by cases hb⟩

theorem Holds.of_imp {α : Type} {Q : α → Prop} {x : Except Err α}
    (h : ∀ a, x = .ok a → Q a) : Holds x Q := ⟨h⟩

theorem Holds.bind {α β : Type} {Q : β → Prop} (R : α → Prop) {x : Except Err α}
    {f : α → Except Err β} (hx : Holds x R) (hf : ∀ a, R a → Holds (f a) Q) :
    Holds (x >>= f) Q :=
  ⟨fun b hb => by
    obtain ⟨a, ha, hfa⟩ := bind_eq_ok.1 hb
    exact (hf a (hx.out a ha)).out b hfa⟩

theorem Holds.bind_any {α β : Type} {Q : β → Prop} {x : Except Err α}
    {f : α → Except Err β} (hf : ∀ a, Holds (f a) Q) : Holds (x >>= f) Q :=
  Holds.bind (fun _ => True) ⟨fun _ _ => trivial⟩ (fun a _ => hf a)

theorem Holds.mono {α : Type} {Q R : α → Prop} {x : Except Err α} (hx : Holds x R)
    (h : ∀ a, R a → Q a) : Holds x Q := ⟨fun a ha => h a (hx.out a ha)⟩

theorem holds_makeSingleTurn {g s : Node TKey TData} (hg : g.AllEntries P) :
    Holds (makeSingleTurn cmp g s) (fun res => res.1.AllEntries P ∧ res.2.AllEntries P) :=
  ⟨fun _ h => allEntries_makeSingleTurn hg h⟩

theorem holds_makeDoubleTurn {g s : Node TKey TData} (hg : g.AllEntries P)
    (hs : s.AllEntries P) :
    Holds (makeDoubleTurn cmp g s)
      (fun res => res.1.AllEntries P ∧ res.2.1.AllEntries P ∧ res.2.2.AllEntries P) :=
  ⟨fun _ h => allEntries_makeDoubleTurn hg hs h⟩

theorem holds_hangNodesAfterTurnStack {n old : Node TKey TData}
    {nodeStack : List (Frame TKey TData)}
    (hn : n.AllEntries P) (ho : old.AllEntries P) (hst : FramesAll P nodeStack) :
    Holds (hangNodesAfterTurnStack cmp n old nodeStack) (Node.AllEntries P) :=
  ⟨fun _ h => allEntries_hangNodesAfterTurnStack hn ho hst h⟩

theorem holds_hangNodesAfterTurn {n prev : Node TKey TData}
    (hn : n.AllEntries P) (hp : prev.AllEntries P) :
    Holds (hangNodesAfterTurn cmp n prev) (Node.AllEntries P) :=
  ⟨fun _ h => allEntries_hangNodesAfterTurn hn hp h⟩

theorem holds_turnAndHang {father brother nephew : Node TKey TData}
    {nodeStack : List (Frame TKey TData)}
    (hf : father.AllEntries P) (hb : brother.AllEntries P) (hn : nephew.AllEntries P)
    (hst : FramesAll P nodeStack) :
    Holds (turnAndHang cmp father brother nephew nodeStack) (Node.AllEntries P) := by
  unfold turnAndHang
  apply Holds.bind_any
  intro single
  split
  · apply Holds.bind _ (holds_makeSingleTurn hf)
    rintro ⟨brotherNow, fatherNow⟩ ⟨h1, h2⟩
    exact holds_hangNodesAfterTurnStack (hb.reread h1) h2 hst
  · apply Holds.bind _ (holds_makeDoubleTurn hf hn)
    rintro ⟨nephewNow, _, fatherNow⟩ ⟨h1, -, h3⟩
    exact holds_hangNodesAfterTurnStack h1 h3 hst

theorem holds_deleteBrotherRed {father brother : Node TKey TData}
    {nodeStack : List (Frame TKey TData)}
    (hf : father.AllEntries P) (hb : brother.AllEntries P) (hst : FramesAll P nodeStack) :
    Holds (deleteBrotherRed cmp father brother nodeStack) (Node.AllEntries P) := by
  unfold deleteBrotherRed
  apply Holds.bind_any
  intro grandsonExists
  split
  · apply Holds.bind _ (Holds.of_imp fun s hs => hf.of_returnGrandsonByZigzag hs)
    intro brotherGrandson hbg
    split
    · apply Holds.bind _ (Holds.of_imp fun s hs => hb.of_returnSon hs)
      intro blackNephew hbn
      apply Holds.bind _ (holds_makeDoubleTurn hf hbn)
      rintro ⟨blackNephewNow, _, fatherNow⟩ ⟨h1, -, h3⟩
      apply Holds.bind _ (holds_hangNodesAfterTurnStack h1 h3 hst)
      intro head hhead
      exact Holds.pure (hhead.setColorAt _ _)
    · apply Holds.bind _ (Holds.of_imp fun s hs => hb.of_returnSonByZigzag hs)
      intro blackNephew hbn
      apply Holds.bind _ (Holds.of_imp fun s hs => hbn.of_returnAnotherChild hs)
      intro brotherGrandson2 hbg2
      split
      · apply Holds.bind_any
        intro anotherNephew
        apply Holds.bind _ (holds_makeSingleTurn hf)
        rintro ⟨brotherNow, fatherNow⟩ ⟨h1, h2⟩
        apply Holds.bind _ (holds_makeDoubleTurn h2 hbg2)
        rintro ⟨brotherGrandsonNow, _, fatherNow2⟩ ⟨h3, -, h5⟩
        apply Holds.bind _ (holds_hangNodesAfterTurn h3
          (((hb.reread h1).setColorAt brother.ptr false).rereadChildren h5))
        intro brotherNow2 h6
        exact holds_hangNodesAfterTurnStack h6 h5 hst
      · apply Holds.bind_any
        intro blackNephew2
        apply Holds.bind _ (holds_makeSingleTurn
          ((hf.setColorAt blackNephew.ptr true).setColorAt brother.ptr false))
        rintro ⟨brotherNow, fatherNow⟩ ⟨h1, h2⟩
        exact holds_hangNodesAfterTurnStack
          (((hb.setColorAt blackNephew.ptr true).setColorAt brother.ptr false).reread h1)
          h2 hst
  · apply Holds.bind _ (Holds.of_imp fun s hs => hb.of_getLeftPtr hs)
    intro blackNephew hbn
    apply Holds.bind_any
    intro anotherBlackNephew
    apply Holds.bind _ (holds_turnAndHang hf hb hbn hst)
    intro head hhead
    apply Holds.bind_any
    intro _
    exact Holds.pure ((hhead.setColorAt _ _).setColorAt _ _)

theorem allEntries_deleteBrotherRed {father brother head : Node TKey TData}
    {nodeStack : List (Frame TKey TData)}
    (hf : father.AllEntries P) (hb : brother.AllEntries P) (hst : FramesAll P nodeStack)
    (h : deleteBrotherRed cmp father brother nodeStack = .ok head) :
    head.AllEntries P := (holds_deleteBrotherRed hf hb hst).out head h

theorem holds_deleteLoop :
    ∀ (nodeStack : List (Frame TKey TData)) (childPtr : Ptr) (child father : Node TKey TData),
      child.AllEntries P → father.AllEntries P → FramesAll P nodeStack →
      Holds (deleteLoop cmp childPtr child father nodeStack) (Node.AllEntries P) := by
  intro nodeStack
  induction nodeStack with
  | nil =>
    intro childPtr child father hc hf hst
    cases father with
    | nullptr => simp only [deleteLoop]; exact Holds.pure hc
    | mk a kvs l r c =>
      simp only [deleteLoop]
      apply Holds.bind _ (Holds.of_imp fun s hs => hf.of_returnAnotherChild hs)
      intro brother hb
      apply Holds.bind _ (Holds.of_imp fun s hs => hb.of_returnRedChildOrNullptr hs)
      intro redNephew hr
      apply Holds.bind_any
      intro fatherIsRed
      split
      · exact ⟨fun head h => allEntries_deleteFatherRed hf hb hr hst h⟩
      · apply Holds.bind_any
        intro brotherIsRed
        split
        · exact holds_deleteBrotherRed hf hb hst
        · split
          · apply Holds.bind _ (holds_turnAndHang hf hb hr hst)
            intro head hhead
            exact Holds.pure (hhead.setColorAt _ _)
          · exact Holds.pure (hf.setColorAt _ _)
  | cons f rest ih =>
    intro childPtr child father hc hf hst
    cases father with
    | nullptr => simp only [deleteLoop]; exact Holds.pure hc
    | mk a kvs l r c =>
      simp only [deleteLoop]
      apply Holds.bind _ (Holds.of_imp fun s hs => hf.of_returnAnotherChild hs)
      intro brother hb
      apply Holds.bind _ (Holds.of_imp fun s hs => hb.of_returnRedChildOrNullptr hs)
      intro redNephew hr
      apply Holds.bind_any
      intro fatherIsRed
      split
      · exact ⟨fun head h => allEntries_deleteFatherRed hf hb hr hst h⟩
      · apply Holds.bind_any
        intro brotherIsRed
        split
        · exact holds_deleteBrotherRed hf hb hst
        · split
          · apply Holds.bind _ (holds_turnAndHang hf hb hr hst)
            intro head hhead
            exact Holds.pure (hhead.setColorAt _ _)
          · have hf' := hf.setColorAt brother.ptr true
            have hfr := hst f (List.mem_cons_self _ _)
            exact ih _ _ _ hf' (Frame.allEntries_fill.2 ⟨hfr, hf'⟩)
              (fun g hg => hst g (List.mem_cons_of_mem _ hg))

end AllEntriesRemoval

/-! ## Removal: the walk down -/

theorem PathPtrs_append {xs ys : List (Frame TKey TData)} {p : Ptr} :
    PathPtrs (xs ++ ys) p ↔ PathPtrs xs p ∧ PathPtrs ys (bottomPtr xs p) := by
  induction xs generalizing p with
  | nil => simp [PathPtrs, bottomPtr]
  | cons f rest ih =>
    show f.other.ptr ≠ p ∧ PathPtrs (rest ++ ys) (Ptr.heap f.addr) ↔ _
    simp only [PathPtrs, bottomPtr, ih, and_assoc]

theorem FramesAll_append {P : List (KeyAndValue TKey TData) → Prop}
    {xs ys : List (Frame TKey TData)} :
    FramesAll P (xs ++ ys) ↔ FramesAll P xs ∧ FramesAll P ys := by
  simp only [FramesAll, List.mem_append]
  constructor
  · intro h; exact ⟨fun f hf => h f (Or.inl hf), fun f hf => h f (Or.inr hf)⟩
  · rintro ⟨h1, h2⟩ f (hf | hf)
    · exact h1 f hf
    · exact h2 f hf

theorem FramesAll_cons {P : List (KeyAndValue TKey TData) → Prop}
    {f : Frame TKey TData} {rest : List (Frame TKey TData)} :
    FramesAll P (f :: rest) ↔ (P f.keysAndValues ∧ f.other.AllEntries P) ∧ FramesAll P rest := by
  simp only [FramesAll, List.mem_cons, forall_eq_or_imp]

theorem Node.allEntries_noEqualKey_of_keys {cmp : TKey → TKey → Int} {k : TKey}
    {n : Node TKey TData} (hne : ∀ kvs ∈ n.entries, kvs ≠ [])
    (hk : ∀ x ∈ n.keys, cmp x k ≠ 0) : n.AllEntries (NoEqualKey cmp k) := by
  intro kvs hkvs
  cases kvs with
  | nil => exact absurd rfl (hne [] hkvs)
  | cons kv rest => exact ⟨kv, rest, rfl, hk _ (Node.mem_keys_of_mem_entries hkvs)⟩

theorem initStackOfPreviousNodesInDeletionOrThrowException_spec {cmp : TKey → TKey → Int}
    (hcmp : StrictTotalOrder cmp) (k : TKey) :
    ∀ (n : Node TKey TData) (st : List (Frame TKey TData)),
      n.Ordered cmp → (∀ kvs ∈ n.entries, kvs ≠ []) → n.Distinct →
      FramesAll (NoEqualKey cmp k) st → PathPtrs st n.ptr →
      Holds (initStackOfPreviousNodesInDeletionOrThrowException cmp k n st)
        (fun res => ∃ a kv tl l r c, res.1 = Node.mk a (kv :: tl) l r c ∧ cmp kv.key k = 0 ∧
          l.AllEntries (NoEqualKey cmp k) ∧ r.AllEntries (NoEqualKey cmp k) ∧
          FramesAll (NoEqualKey cmp k) res.2 ∧ PathPtrs res.2 (Ptr.heap a) ∧
          (Node.mk a (kv :: tl) l r c).Distinct ∧
          rebuild res.2 res.1 = rebuild st n) := by
  intro n
  induction n with
  | nullptr => intro st _ _ _ _ _; exact Holds.error
  | mk a kvs l r c ihl ihr =>
    intro st hord hent hdist hst hpp
    obtain ⟨kv, tl, rfl⟩ : ∃ kv tl, kvs = kv :: tl := by
      cases kvs with
      | nil => exact absurd rfl (hent [] (by simp [Node.entries]))
      | cons kv tl => exact ⟨kv, tl, rfl⟩
    obtain ⟨⟨hroot, hl⟩, hr⟩ := hord
    have hroot' := hroot kv.key (by simp)
    have hentl : ∀ kvs ∈ l.entries, kvs ≠ [] := fun kvs h => hent kvs (by simp [Node.entries, h])
    have hentr : ∀ kvs ∈ r.entries, kvs ≠ [] := fun kvs h => hent kvs (by simp [Node.entries, h])
    simp only [initStackOfPreviousNodesInDeletionOrThrowException, Node.frontKey, bind,
      Except.bind]
    by_cases h1 : cmp kv.key k < 0
    · simp only [h1, if_true]
      have hleft : l.AllEntries (NoEqualKey cmp k) :=
        Node.allEntries_noEqualKey_of_keys hentl (fun x hx => by
          have := hcmp.trans _ _ _ (hroot'.1 x hx) h1; omega)
      by_cases hrn : r = Node.nullptr
      · subst hrn; exact Holds.error
      · refine (ihr
          ({ addr := a, keysAndValues := kv :: tl, isRed := c, wentRight := true,
              other := l } :: st) hr hentr hdist.right
          (FramesAll_cons.2 ⟨⟨⟨kv, tl, rfl, by omega⟩, hleft⟩, hst⟩)
          ⟨hdist.left_ne_right hrn, hpp⟩).mono ?_
        rintro ⟨top, st'⟩ ⟨a', kv', tl', l', r', c', h1', h2', h3', h4', h5', h6', h7', h8'⟩
        exact ⟨a', kv', tl', l', r', c', h1', h2', h3', h4', h5', h6', h7', by
          rw [h8']; simp [rebuild, Frame.fill]⟩
    · by_cases h2 : cmp kv.key k > 0
      · simp only [h1, h2, if_true, if_false]
        have hright : r.AllEntries (NoEqualKey cmp k) :=
          Node.allEntries_noEqualKey_of_keys hentr (fun x hx => by
            have := hcmp.pos_trans (hroot'.2 x hx) h2; omega)
        by_cases hln : l = Node.nullptr
        · subst hln; exact Holds.error
        · refine (ihl
            ({ addr := a, keysAndValues := kv :: tl, isRed := c, wentRight := false,
                other := r } :: st) hl hentl hdist.left
            (FramesAll_cons.2 ⟨⟨⟨kv, tl, rfl, by omega⟩, hright⟩, hst⟩)
            ⟨hdist.right_ne_left hln, hpp⟩).mono ?_
          rintro ⟨top, st'⟩ ⟨a', kv', tl', l', r', c', h1', h2', h3', h4', h5', h6', h7', h8'⟩
          exact ⟨a', kv', tl', l', r', c', h1', h2', h3', h4', h5', h6', h7', by
            rw [h8']; simp [rebuild, Frame.fill]⟩
      · have h0 : cmp kv.key k = 0 := by omega
        have hk : kv.key = k := (hcmp.eq_zero _ _).1 h0
        simp only [h1, h2, if_false]
        refine Holds.pure ⟨a, kv, tl, l, r, c, rfl, h0, ?_, ?_, hst, hpp, hdist, rfl⟩
        · exact Node.allEntries_noEqualKey_of_keys hentl (fun x hx => by
            have := hroot'.1 x hx; rw [hk] at this; omega)
        · exact Node.allEntries_noEqualKey_of_keys hentr (fun x hx => by
            have := hroot'.2 x hx; rw [hk] at this; omega)

theorem walkRight_spec {P : List (KeyAndValue TKey TData) → Prop} :
    ∀ (n : Node TKey TData) (st0 : List (Frame TKey TData)),
      n.AllEntries P → n.Distinct →
      Holds (walkRight n st0)
        (fun res => ∃ a kvs l c pushed, res.1 = Node.mk a kvs l Node.nullptr c ∧
          res.2 = pushed ++ st0 ∧ P kvs ∧ l.AllEntries P ∧ FramesAll P pushed ∧
          (Node.mk a kvs l Node.nullptr c).Distinct ∧
          ∀ st, PathPtrs st n.ptr → PathPtrs (pushed ++ st) (Ptr.heap a)) := by
  intro n
  induction n with
  | nullptr => intro st0 _ _; exact Holds.error
  | mk a kvs l r c _ ihr =>
    intro st0 hall hdist
    have hall' := Node.allEntries_mk.1 hall
    by_cases hrn : r = Node.nullptr
    · subst hrn
      simp only [walkRight]
      exact Holds.pure ⟨a, kvs, l, c, [], rfl, rfl, hall'.1, hall'.2.1,
        fun f hf => by simp at hf, hdist, fun st hst => hst⟩
    · have hw : walkRight (Node.mk a kvs l r c) st0
          = walkRight r ((⟨a, kvs, c, true, l⟩ : Frame TKey TData) :: st0) := by
        cases r with
        | nullptr => exact absurd rfl hrn
        | mk ra rkvs rl rr rc => simp only [walkRight]
      rw [hw]
      refine (ihr ((⟨a, kvs, c, true, l⟩ : Frame TKey TData) :: st0)
        hall'.2.2 hdist.right).mono ?_
      rintro ⟨top, st'⟩ ⟨a', kvs', l', c', pushed, h1, h2, h3, h4, h5, h6, h7⟩
      refine ⟨a', kvs', l', c', pushed ++ [(⟨a, kvs, c, true, l⟩ : Frame TKey TData)],
        h1, by simpa using h2, h3, h4, ?_, h6, ?_⟩
      · exact FramesAll_append.2 ⟨h5, FramesAll_cons.2 ⟨⟨hall'.1, hall'.2.1⟩,
          fun f hf => by simp at hf⟩⟩
      · intro st hst
        have := h7 ((⟨a, kvs, c, true, l⟩ : Frame TKey TData) :: st)
          ⟨hdist.left_ne_right hrn, hst⟩
        simpa using this

theorem findMaxNodeInLeftBranchAndUpdateStack_spec {P : List (KeyAndValue TKey TData) → Prop}
    {a : Nat} {kvs : List (KeyAndValue TKey TData)} {l r : Node TKey TData} {c : Bool}
    {st : List (Frame TKey TData)}
    (hl : l.AllEntries P) (hr : r.AllEntries P) (hst : FramesAll P st)
    (hpp : PathPtrs st (Ptr.heap a)) (hdist : (Node.mk a kvs l r c).Distinct) :
    Holds (findMaxNodeInLeftBranchAndUpdateStack (Node.mk a kvs l r c) st)
      (fun res => ∃ a' kvs' l' c', res.1 = Node.mk a' kvs' l' Node.nullptr c' ∧
        l'.AllEntries P ∧ FramesAll P res.2 ∧ PathPtrs res.2 (Ptr.heap a') ∧
        P kvs') := by
  by_cases hlne : l = Node.nullptr
  · subst hlne
    simp only [findMaxNodeInLeftBranchAndUpdateStack, Node.getLeftPtr, walkRight, bind,
      Except.bind, pure, Except.pure]
    exact Holds.error
  simp only [findMaxNodeInLeftBranchAndUpdateStack, Node.getLeftPtr, bind, Except.bind, pure,
    Except.pure]
  have hw := walkRight_spec l [] hl hdist.left
  cases hres : walkRight l [] with
  | error e => exact Holds.error
  | ok res =>
    obtain ⟨a', kvs', l', c', pushed, h1, h2, h3, h4, h5, h6, h7⟩ := hw.out res hres
    obtain ⟨minimalNode, pushed'⟩ := res
    simp only at h1 h2
    subst h1
    simp only [List.append_nil] at h2
    subst h2
    simp only [swapNodes, Node.setKeysAndValues, Node.getKeysAndValues, bind, Except.bind, pure,
      Except.pure]
    refine Holds.ok ⟨a', kvs', l', c', rfl, h4, ?_, ?_, h3⟩
    · exact FramesAll_append.2 ⟨h5, FramesAll_cons.2 ⟨⟨h3, hr⟩, hst⟩⟩
    · exact h7 _ ⟨hdist.right_ne_left hlne, hpp⟩


section RemovalOfTheTop

variable {P : List (KeyAndValue TKey TData) → Prop} {cmp : TKey → TKey → Int}

theorem Node.AllEntries.of_makeBlack {n s : Node TKey TData} (hn : n.AllEntries P)
    (h : n.makeBlack = .ok s) : s.AllEntries P := by
  cases n with
  | nullptr => simp [Node.makeBlack] at h
  | mk a kvs l r c =>
    simp only [Node.makeBlack, Except.ok.injEq] at h
    subst h
    exact Node.allEntries_mk.2 (Node.allEntries_mk.1 hn)

theorem holds_deleteNode {a : Nat} {kvs : List (KeyAndValue TKey TData)}
    {l r : Node TKey TData} {c : Bool} {f : Frame TKey TData} (n : Nat)
    (hf : P f.keysAndValues ∧ f.other.AllEntries P) (hne : f.other.ptr ≠ Ptr.heap a) :
    Holds (deleteNode (Node.mk a kvs l r c) (f.fill (Node.mk a kvs l r c)) n)
      (fun res => res.1.AllEntries P) := by
  obtain ⟨fa, fk, fc, fw, fo⟩ := f
  simp only at hf hne
  cases fw
  · simp only [deleteNode, Frame.fill, Node.getLeftPtr, Node.setLeftPtr, Node.ptr_mk, bind,
      Except.bind, pure, Except.pure, if_true, Bool.false_eq_true, if_false]
    exact Holds.ok (Node.allEntries_mk.2 ⟨hf.1, Node.AllEntries.nullptr, hf.2⟩)
  · simp only [deleteNode, Frame.fill, Node.getLeftPtr, Node.setRightPtr, Node.ptr_mk, bind,
      Except.bind, pure, Except.pure, if_true, hne, if_false]
    exact Holds.ok (Node.allEntries_mk.2 ⟨hf.1, hf.2, Node.AllEntries.nullptr⟩)

theorem holds_deleteRedLeaf {a : Nat} {kvs : List (KeyAndValue TKey TData)}
    {l r : Node TKey TData} {c : Bool} {f : Frame TKey TData} (n : Nat)
    (hf : P f.keysAndValues ∧ f.other.AllEntries P) (hne : f.other.ptr ≠ Ptr.heap a) :
    Holds (deleteRedLeaf (Node.mk a kvs l r c) (f.fill (Node.mk a kvs l r c)) n)
      (fun res => res.1.AllEntries P) := by
  obtain ⟨fa, fk, fc, fw, fo⟩ := f
  simp only at hf hne
  cases fw
  · simp only [deleteRedLeaf, Frame.fill, Node.getRightPtr, Node.setLeftPtr, Node.ptr_mk, bind,
      Except.bind, pure, Except.pure, if_true, Bool.false_eq_true, if_false, hne]
    exact Holds.ok (Node.allEntries_mk.2 ⟨hf.1, Node.AllEntries.nullptr, hf.2⟩)
  · simp only [deleteRedLeaf, Frame.fill, Node.getRightPtr, Node.setRightPtr, Node.ptr_mk, bind,
      Except.bind, pure, Except.pure, if_true, if_false]
    exact Holds.ok (Node.allEntries_mk.2 ⟨hf.1, hf.2, Node.AllEntries.nullptr⟩)

theorem holds_deleteBranch_cons {a : Nat} {kvs : List (KeyAndValue TKey TData)}
    {l r : Node TKey TData} {c : Bool} {f : Frame TKey TData}
    {rest : List (Frame TKey TData)} (n : Nat)
    (hl : l.AllEntries P) (hr : r.AllEntries P)
    (hf : P f.keysAndValues ∧ f.other.AllEntries P) (hne : f.other.ptr ≠ Ptr.heap a)
    (hrest : FramesAll P rest) :
    Holds (deleteBranch cmp (Node.mk a kvs l r c) (f.fill (Node.mk a kvs l r c)) rest n)
      (fun res => res.1.AllEntries P) := by
  obtain ⟨fa, fk, fc, fw, fo⟩ := f
  simp only at hf hne
  have hblack : ∀ y s : Node TKey TData, y = l ∨ y = r → y.makeBlack = .ok s →
      s.AllEntries P := by
    rintro y s (rfl | rfl) hs
    · exact hl.of_makeBlack hs
    · exact hr.of_makeBlack hs
  simp only [deleteBranch, Node.getLeftPtr, Node.getRightPtr, Node.ptr_mk, bind, Except.bind]
  split
  all_goals
    cases fw <;> rcases fk with _ | ⟨fkv, ftl⟩ <;>
      simp only [Frame.fill, Node.isNull, Node.frontKey, Bool.not_false, if_true,
        Bool.false_eq_true, if_false] <;> try exact Holds.error
  all_goals
    split
    · exact Holds.error
    split
    · exact Holds.error
    rename_i toHangNow hnow
    have hnow' := hblack _ _ (by first | exact Or.inl rfl | exact Or.inr rfl) hnow
    split <;>
      simp only [Node.setRightPtr, Node.setLeftPtr, Node.getLeftPtr, Node.getRightPtr,
        Node.ptr_mk, true_or, or_true, if_true, hne, false_or, or_false] <;>
      try exact Holds.error
  all_goals
    split
    · exact Holds.error
    · refine Holds.pure (allEntries_rebuild.2 ⟨hrest, Node.allEntries_mk.2 ?_⟩)
      first
        | exact ⟨hf.1, hf.2, hnow'⟩
        | exact ⟨hf.1, hnow', hf.2⟩

theorem holds_deleteBranch_nil {a : Nat} {kvs : List (KeyAndValue TKey TData)}
    {l r : Node TKey TData} {c : Bool} (n : Nat)
    (hl : l.AllEntries P) (hr : r.AllEntries P) :
    Holds (deleteBranch cmp (Node.mk a kvs l r c) Node.nullptr [] n)
      (fun res => res.1.AllEntries P) := by
  simp only [deleteBranch, Node.getLeftPtr, Node.getRightPtr, Node.isNull, bind, Except.bind,
    Bool.not_true, Bool.false_eq_true, if_false]
  split
  · split
    · exact Holds.error
    · rename_i s hs
      exact Holds.pure (hl.of_makeBlack hs)
  · split
    · exact Holds.error
    · rename_i s hs
      exact Holds.pure (hr.of_makeBlack hs)

theorem holds_deleteBranchOrRedLeaf_nil {a : Nat} {kvs : List (KeyAndValue TKey TData)}
    {l r : Node TKey TData} {c : Bool} (n : Nat)
    (hl : l.AllEntries P) (hr : r.AllEntries P) :
    Holds (deleteBranchOrRedLeaf cmp (Node.mk a kvs l r c) Node.nullptr [] n)
      (fun res => res.1.AllEntries P) := by
  simp only [deleteBranchOrRedLeaf, Node.nodeIsBranch, bind, Except.bind]
  split
  · exact holds_deleteBranch_nil n hl hr
  · simp only [deleteRedLeaf, Node.getRightPtr, bind, Except.bind]
    exact Holds.error

theorem holds_deleteBranchOrRedLeaf_cons {a : Nat} {kvs : List (KeyAndValue TKey TData)}
    {l r : Node TKey TData} {c : Bool} {f : Frame TKey TData}
    {rest : List (Frame TKey TData)} (n : Nat)
    (hl : l.AllEntries P) (hr : r.AllEntries P)
    (hf : P f.keysAndValues ∧ f.other.AllEntries P) (hne : f.other.ptr ≠ Ptr.heap a)
    (hrest : FramesAll P rest) :
    Holds (deleteBranchOrRedLeaf cmp (Node.mk a kvs l r c) (f.fill (Node.mk a kvs l r c))
      rest n) (fun res => res.1.AllEntries P) := by
  simp only [deleteBranchOrRedLeaf, Node.nodeIsBranch, bind, Except.bind]
  split
  · exact holds_deleteBranch_cons n hl hr hf hne hrest
  · refine Holds.bind (x := deleteRedLeaf (Node.mk a kvs l r c) (f.fill (Node.mk a kvs l r c)) n)
      _ (holds_deleteRedLeaf n hf hne) ?_
    intro res hres
    exact Holds.pure (allEntries_rebuild.2 ⟨hrest, hres⟩)

theorem holds_deleteLeafOrBranch (t : RBTree TKey TData) {a : Nat}
    {kvs : List (KeyAndValue TKey TData)} {l r : Node TKey TData} {c : Bool}
    {st : List (Frame TKey TData)}
    (hl : l.AllEntries P) (hr : r.AllEntries P) (hst : FramesAll P st)
    (hpp : PathPtrs st (Ptr.heap a)) :
    Holds (deleteLeafOrBranch cmp t (Node.mk a kvs l r c) st)
      (fun t' => t'.head.AllEntries P ∧ t'.comparatorStrategy = t.comparatorStrategy) := by
  simp only [deleteLeafOrBranch, Node.nodeIsRed, Node.nodeIsBranch, bind, Except.bind]
  split
  · exact Holds.pure ⟨Node.AllEntries.nullptr, rfl⟩
  cases st with
  | nil =>
    simp only [pullOutNodeFromStack]
    split
    · refine Holds.bind (x := deleteBranchOrRedLeaf cmp (Node.mk a kvs l r c) Node.nullptr []
        t.numberOfNodes) _ (holds_deleteBranchOrRedLeaf_nil _ hl hr) ?_
      intro res hres
      exact Holds.pure ⟨hres, rfl⟩
    · simp only [deleteNode, Node.getLeftPtr, bind, Except.bind]
      exact Holds.error
  | cons f rest =>
    obtain ⟨hf, hrest⟩ := FramesAll_cons.1 hst
    simp only [pullOutNodeFromStack]
    split
    · refine Holds.bind (x := deleteBranchOrRedLeaf cmp (Node.mk a kvs l r c)
        (f.fill (Node.mk a kvs l r c)) rest t.numberOfNodes) _
        (holds_deleteBranchOrRedLeaf_cons _ hl hr hf hpp.1 hrest) ?_
      intro res hres
      exact Holds.pure ⟨hres, rfl⟩
    · refine Holds.bind (x := deleteNode (Node.mk a kvs l r c)
        (f.fill (Node.mk a kvs l r c)) t.numberOfNodes) _ (holds_deleteNode _ hf hpp.1) ?_
      intro res hres
      refine Holds.bind (x := deleteLoop cmp Ptr.stackCopy Node.nullptr res.1 rest) _
        (holds_deleteLoop rest _ _ _ Node.AllEntries.nullptr hres hrest) ?_
      intro head hhead
      exact Holds.pure ⟨hhead, rfl⟩

end RemovalOfTheTop


theorem findLoop_of_noEqualKey {cmp : TKey → TKey → Int} {k : TKey} :
    ∀ (n : Node TKey TData), n.AllEntries (NoEqualKey cmp k) →
      findLoop cmp k n = .error (.thrown noElement) := by
  intro n
  induction n with
  | nullptr => intro _; rfl
  | mk a kvs l r c ihl ihr =>
    intro h
    obtain ⟨⟨kv, rest, rfl, hne⟩, hl, hr⟩ := Node.allEntries_mk.1 h
    simp only [findLoop, Node.frontKey, bind, Except.bind]
    split
    · exact ihr hr
    · split
      · exact ihl hl
      · omega

theorem holds_tryPop_run {cmp : TKey → TKey → Int} (horder : StrictTotalOrder cmp)
    (t : RBTree TKey TData) (k : TKey)
    (hbst : t.head.Ordered cmp) (hentries : t.head.EntriesOk cmp) (hdistinct : t.head.Distinct) :
    Holds (do
        let (child, nodeStack) ←
          initStackOfPreviousNodesInDeletionOrThrowException cmp k t.head []
        let (top, nodeStack) ←
          if (← child.nodeIsNotLeaf) && (← child.nodeIsNotBranch) then
            findMaxNodeInLeftBranchAndUpdateStack child nodeStack
          else pure (child, nodeStack)
        deleteLeafOrBranch cmp t top nodeStack)
      (fun t' => t'.head.AllEntries (NoEqualKey cmp k) ∧
        t'.comparatorStrategy = t.comparatorStrategy) := by
  have hne : ∀ kvs ∈ t.head.entries, kvs ≠ [] := by
    intro kvs hk
    obtain ⟨kv, rest, rfl, -⟩ := hentries kvs hk
    simp
  refine Holds.bind _ (initStackOfPreviousNodesInDeletionOrThrowException_spec horder k t.head []
    hbst hne hdistinct (fun f hf => by simp at hf) trivial) ?_
  rintro ⟨child, st⟩ ⟨a, kv, tl, l, r, c, h1, hk, hl, hr, hst, hpp, hdist, -⟩
  simp only at h1 hst hpp
  subst h1
  simp only [Node.nodeIsNotLeaf, Node.nodeIsNotBranch, Node.nodeIsBranch, bind, Except.bind,
    pure, Except.pure]
  split
  · refine Holds.bind (x := findMaxNodeInLeftBranchAndUpdateStack (Node.mk a (kv :: tl) l r c) st)
      _ (findMaxNodeInLeftBranchAndUpdateStack_spec hl hr hst hpp hdist) ?_
    rintro ⟨top, st'⟩ ⟨a', kvs', l', c', h1, hl', hst', hpp', -⟩
    simp only at h1 hst' hpp'
    subst h1
    exact holds_deleteLeafOrBranch t hl' Node.AllEntries.nullptr hst' hpp'
  · exact holds_deleteLeafOrBranch t hl hr hst hpp

/-- C6: on a tree that has the BST property under a strict-total-order comparator, whose entry
sequences are well formed and whose nodes lie at distinct addresses, whenever `tryPop(k)`
returns normally the lookup `find(k)` on the tree it leaves throws
`invalid_argument("No element in tree!")`, whatever the number of values that were stored
under `k`. -/
theorem tryPop_then_find_not_found (t : RBTree TKey TData) (cmp : TKey → TKey → Int)
    (k : TKey) (t' : RBTree TKey TData)
    (hcmp : t.comparatorStrategy = some cmp) (horder : StrictTotalOrder cmp)
    (hbst : t.head.Ordered cmp) (hentries : t.head.EntriesOk cmp)
    (hdistinct : t.head.Distinct) (hpop : t.tryPop k = .returned t') :
    t'.find k = .error (.thrown (.invalid_argument "No element in tree!")) := by
  have hrun := holds_tryPop_run horder t k hbst hentries hdistinct
  simp only [RBTree.tryPop, RBTree.throwExceptionIfThereIsNoCompare, hcmp] at hpop
  split at hpop
  · cases hpop
  · split at hpop
    · rename_i tree htree
      cases hpop
      obtain ⟨hall, hc⟩ := hrun.out _ htree
      rw [hcmp] at hc
      simp only [RBTree.find, hc]
      exact findLoop_of_noEqualKey _ hall
    · cases hpop
    · cases hpop


/-! ## The comparators -/

theorem difference_strictTotalOrder : StrictTotalOrder difference where
  eq_zero := by intro a b; simp only [difference]; omega
  antisymm := by intro a b; simp only [difference]; omega
  trans := by intro a b c; simp only [difference]; omega

theorem threeWay_strictTotalOrder : StrictTotalOrder threeWay where
  eq_zero := by
    intro a b; simp only [threeWay]; split_ifs <;> constructor <;> intro h <;>
      first | omega | contradiction
  antisymm := by
    intro a b; simp only [threeWay]; split_ifs <;> constructor <;> intro h <;> omega
  trans := by
    intro a b c; simp only [threeWay]; split_ifs <;> intro h1 h2 <;> omega

/-! ## The calls on the concrete trees -/

/-- C1: the tree `4(black)[2(black), 7(black)[-, 9(red)]]` is what `tryAdd` of `4, 2, 7, 9`
builds from the empty tree under the strict total order `difference`; it satisfies the
invariants of §3 and its `numberOfNodes` is its number of nodes.  On it `tryPop(2)` of the
present key `2` leaves a head on which the paths from the root to an absent child do not all
visit the same number of black nodes. -/
theorem tryPop_leaves_unequal_black_heights :
    StrictTotalOrder difference ∧
    (addAll emptyWithDifference [4, 2, 7, 9] 1).head = treeRedNephewRight.head ∧
    (addAll emptyWithDifference [4, 2, 7, 9] 1).numberOfNodes = 4 ∧
    treeRedNephewRight.head.Ordered difference ∧ treeRedNephewRight.head.ColourInvariants ∧
    treeRedNephewRight.head.EntriesOk difference ∧ treeRedNephewRight.head.Distinct ∧
    treeRedNephewRight.numberOfNodes = treeRedNephewRight.head.size ∧
    (2 : Int) ∈ treeRedNephewRight.head.keys ∧
    (treeRedNephewRight.tryPop 2).head? = some headRedNephewRightAfterPop ∧
    headRedNephewRightAfterPop.blackCounts = [2, 2, 2, 3, 3] ∧
    ¬ headRedNephewRightAfterPop.UniformBlackHeight ∧
    ¬ headRedNephewRightAfterPop.ColourInvariants :=
  ⟨difference_strictTotalOrder, by decide, by decide, by decide, by decide, by decide,
    by decide, by decide, by decide, by decide, by decide, by decide, by decide⟩

/-- C2: the tree `10(black)[5(black)[1(red), -], 12(black)]` is what `tryAdd` of
`10, 5, 12, 1` builds from the empty tree under the strict total order `difference`; it
satisfies the invariants of §3.  On it `tryPop(12)` of the present key `12` leaves a head
without the BST property: the keys `10` and `5` stand in the left subtree of the root `1`. -/
theorem tryPop_leaves_unordered_tree :
    StrictTotalOrder difference ∧
    (addAll emptyWithDifference [10, 5, 12, 1] 1).head = treeRedNephewLeft.head ∧
    (addAll emptyWithDifference [10, 5, 12, 1] 1).numberOfNodes = 4 ∧
    treeRedNephewLeft.head.Ordered difference ∧ treeRedNephewLeft.head.ColourInvariants ∧
    treeRedNephewLeft.head.EntriesOk difference ∧ treeRedNephewLeft.head.Distinct ∧
    treeRedNephewLeft.numberOfNodes = treeRedNephewLeft.head.size ∧
    (12 : Int) ∈ treeRedNephewLeft.head.keys ∧
    (treeRedNephewLeft.tryPop 12).head? = some headRedNephewLeftAfterPop ∧
    ¬ headRedNephewLeftAfterPop.Ordered difference :=
  ⟨difference_strictTotalOrder, by decide, by decide, by decide, by decide, by decide,
    by decide, by decide, by decide, by decide, by decide⟩

/-- C3: the tree `6(black)[2(red), -]` is what `tryAdd` of `6, 2` builds from the empty tree
under the strict total order `difference`; it satisfies the invariants of §3.  On it
`tryAdd(1, 10)` leaves a head on which the red node `6` has the red child `2`. -/
theorem tryAdd_leaves_red_node_with_red_child :
    StrictTotalOrder difference ∧
    (addAll emptyWithDifference [6, 2] 1).head = treeLeftChain.head ∧
    (addAll emptyWithDifference [6, 2] 1).numberOfNodes = 2 ∧
    treeLeftChain.head.Ordered difference ∧ treeLeftChain.head.ColourInvariants ∧
    treeLeftChain.head.EntriesOk difference ∧ treeLeftChain.head.Distinct ∧
    treeLeftChain.numberOfNodes = treeLeftChain.head.size ∧
    (treeLeftChain.tryAdd 3 1 10).head? = some headLeftChainAfterAdd ∧
    ¬ headLeftChainAfterAdd.NoRedRed ∧
    ¬ headLeftChainAfterAdd.ColourInvariants :=
  ⟨difference_strictTotalOrder, by decide, by decide, by decide, by decide, by decide,
    by decide, by decide, by decide, by decide, by decide⟩

/-- C4: the tree `10(black)[-, 20(red)]` is what `tryAdd` of `10, 20` builds from the empty
tree under the strict total order `difference`; it satisfies the invariants of §3.  On it
`tryAdd(35, 350)` leaves a head without the BST property: the keys `10` and `20` stand in the
right subtree of the root `35`. -/
theorem tryAdd_leaves_unordered_tree :
    StrictTotalOrder difference ∧
    (addAll emptyWithDifference [10, 20] 1).head = treeRightChain.head ∧
    (addAll emptyWithDifference [10, 20] 1).numberOfNodes = 2 ∧
    treeRightChain.head.Ordered difference ∧ treeRightChain.head.ColourInvariants ∧
    treeRightChain.head.EntriesOk difference ∧ treeRightChain.head.Distinct ∧
    treeRightChain.numberOfNodes = treeRightChain.head.size ∧
    (treeRightChain.tryAdd 3 35 350).head? = some headRightChainAfterAdd ∧
    ¬ headRightChainAfterAdd.Ordered difference :=
  ⟨difference_strictTotalOrder, by decide, by decide, by decide, by decide, by decide,
    by decide, by decide, by decide, by decide⟩

/-- C5: the tree `8(black)[5(red)[3(black)[2(red), 4(red)], 6(black)], 9(black)]` is what
`tryAdd` of `8, 5, 9, 3, 6, 2, 4` builds from the empty tree under the strict total order
`difference`; it satisfies the invariants of §3 and does not hold the key `1`.  On it
`tryAdd(1, 10)` returns, and `find(1)` on the tree it leaves throws
`invalid_argument("No element in tree!")` instead of returning `[10]`. -/
theorem find_after_tryAdd_throws :
    StrictTotalOrder difference ∧
    (addAll emptyWithDifference [8, 5, 9, 3, 6, 2, 4] 1).head = treeRepaint.head ∧
    (addAll emptyWithDifference [8, 5, 9, 3, 6, 2, 4] 1).numberOfNodes = 7 ∧
    treeRepaint.head.Ordered difference ∧ treeRepaint.head.ColourInvariants ∧
    treeRepaint.head.EntriesOk difference ∧ treeRepaint.head.Distinct ∧
    treeRepaint.numberOfNodes = treeRepaint.head.size ∧
    treeRepaint.find 1 = .error (.thrown (.invalid_argument "No element in tree!")) ∧
    (treeRepaint.tryAdd 8 1 10).head? = some headRepaintAfterAdd ∧
    (treeRepaint.tryAdd 8 1 10).tree?.map (fun t => t.find 1)
      = some (.error (.thrown (.invalid_argument "No element in tree!"))) :=
  ⟨difference_strictTotalOrder, by decide, by decide, by decide, by decide, by decide,
    by decide, by decide, rfl, by decide, rfl⟩

/-- C10: the tree `4(black)[2(black)[1(black), 3(black)], 7(black)[5(black), 9(red)[8(black),
10(black)]]]` of nine nodes is what `tryAdd` of `2, 1, 10, 4, 11, 3, 5, 8, 7, 9` followed by
`tryPop(11)` builds from the empty tree under the strict total order `difference`; it
satisfies the invariants of §3 and its `numberOfNodes` is `9`.  On it `tryPop(1)` of the
present key `1` returns with `numberOfNodes = 8` and a head that reaches six nodes, not
eight. -/
theorem tryPop_loses_nodes :
    StrictTotalOrder difference ∧
    ((addAll emptyWithDifference [2, 1, 10, 4, 11, 3, 5, 8, 7, 9] 1).tryPop 11).head?
      = some treeNine.head ∧
    ((addAll emptyWithDifference [2, 1, 10, 4, 11, 3, 5, 8, 7, 9] 1).tryPop 11).tree?.map
      (fun t => t.numberOfNodes) = some 9 ∧
    treeNine.head.Ordered difference ∧ treeNine.head.ColourInvariants ∧
    treeNine.head.EntriesOk difference ∧ treeNine.head.Distinct ∧
    treeNine.numberOfNodes = treeNine.head.size ∧ treeNine.head.reachableNodes = 9 ∧
    (1 : Int) ∈ treeNine.head.keys ∧
    (treeNine.tryPop 1).head? = some headNineAfterPop ∧
    (treeNine.tryPop 1).tree?.map (fun t => t.numberOfNodes) = some 8 ∧
    headNineAfterPop.reachableNodes = 6 ∧ headNineAfterPop.size = 9 :=
  ⟨difference_strictTotalOrder, by decide!, by decide!, by decide, by decide, by decide,
    by decide, by decide, by decide, by decide, by decide, by decide, by decide, by decide⟩

/-- The same calls on the same trees under the comparator `threeWay`, which orders the keys as
`difference` does but returns only `-1`, `0` and `1`: every call leaves a tree with the three
colour invariants and the BST property, `find(1)` returns `[10]` after `tryAdd(1, 10)`, and
`tryPop(1)` on the tree of nine nodes leaves eight nodes. -/
theorem same_calls_under_threeWay :
    ((treeRedNephewRight.withComparator threeWay).tryPop 2).LeavesHead
      (fun h => h.ColourInvariants ∧ h.Ordered threeWay) ∧
    ((treeRedNephewLeft.withComparator threeWay).tryPop 12).LeavesHead
      (fun h => h.ColourInvariants ∧ h.Ordered threeWay) ∧
    ((treeLeftChain.withComparator threeWay).tryAdd 3 1 10).LeavesHead
      (fun h => h.ColourInvariants ∧ h.Ordered threeWay) ∧
    ((treeRightChain.withComparator threeWay).tryAdd 3 35 350).LeavesHead
      (fun h => h.ColourInvariants ∧ h.Ordered threeWay) ∧
    ((treeRepaint.withComparator threeWay).tryAdd 8 1 10).LeavesHead
      (fun h => h.ColourInvariants ∧ h.Ordered threeWay) ∧
    ((treeRepaint.withComparator threeWay).tryAdd 8 1 10).tree?.map (fun t => t.find 1)
      = some (.ok [10]) ∧
    ((treeNine.withComparator threeWay).tryPop 1).LeavesHead
      (fun h => h.ColourInvariants ∧ h.Ordered threeWay ∧ h.reachableNodes = 8 ∧
        h.Distinct) :=
  ⟨by decide, by decide, by decide, by decide, by decide, rfl, by decide⟩


/-! ## The theorems on a concrete tree

The tree is `20(black)[10(red), 30(red)]` under the comparator `threeWay`; its node `10` holds
the two values `100` and `101`. -/

theorem tryPop_then_find_not_found_witness :
    treeThree.tryPop 10 = .returned treeThreeAfterPop ∧
    treeThreeAfterPop.find 10 = .error (.thrown (.invalid_argument "No element in tree!")) :=
  ⟨rfl, tryPop_then_find_not_found treeThree threeWay 10 treeThreeAfterPop rfl
    threeWay_strictTotalOrder (by decide) (by decide) (by decide) rfl⟩

theorem tryPop_absent_key_throws_and_keeps_tree_witness :
    (∀ x ∈ treeThree.head.keys, threeWay x 25 ≠ 0) ∧
    treeThree.tryPop 25 = .threw (.invalid_argument "No element in tree!") treeThree :=
  ⟨by decide, tryPop_absent_key_throws_and_keeps_tree treeThree threeWay 25 rfl (by decide)
    (by decide) (by decide)⟩

theorem find_returns_entries_of_equal_key_witness :
    treeThree.find 10 = .ok [100, 101] ∧
    treeThree.find 25 = .error (.thrown (.invalid_argument "No element in tree!")) :=
  ⟨(find_returns_entries_of_equal_key treeThree threeWay 10 rfl threeWay_strictTotalOrder
      (by decide) (by decide)).1 ⟨10, 100⟩ [⟨10, 101⟩] (by decide) (by decide),
    (find_returns_entries_of_equal_key treeThree threeWay 25 rfl threeWay_strictTotalOrder
      (by decide) (by decide)).2.2 (by decide)⟩

theorem tryAdd_numberOfNodes_witness :
    (∃ t', treeThree.tryAdd 4 25 250 = .returned t' ∧ t'.numberOfNodes = 4) ∧
    (∃ t', treeThree.tryAdd 4 10 102 = .returned t' ∧ t'.numberOfNodes = 3) := by
  constructor
  · obtain ⟨t', h, h1, -⟩ := tryAdd_numberOfNodes treeThree threeWay 4 25 250 rfl
      threeWay_strictTotalOrder (by decide) (by decide) (by decide) (by decide) (by decide)
      (by decide) (by decide)
    exact ⟨t', h, h1 (by decide)⟩
  · obtain ⟨t', h, -, h2⟩ := tryAdd_numberOfNodes treeThree threeWay 4 10 102 rfl
      threeWay_strictTotalOrder (by decide) (by decide) (by decide) (by decide) (by decide)
      (by decide) (by decide)
    exact ⟨t', h, h2 (by decide)⟩


/-! ## Calls that fail -/

theorem tryAdd_without_comparator_of_nonempty [DecidableEq TKey] (t : RBTree TKey TData)
    (newAddr : Nat) (key : TKey) (data : TData) (hcmp : t.comparatorStrategy = none)
    (hnodes : t.numberOfNodes ≠ 0) :
    t.tryAdd newAddr key data = .threw (.overflow_error "Can't use Compare!") t := by
  simp [RBTree.tryAdd, RBTree.isEmpty, RBTree.throwExceptionIfThereIsNoCompare, hcmp, hnodes,
    noCompare]

/-- C11: on the empty tree constructed without a comparator, `tryAdd(5, 50)` does not throw: it
returns and leaves a tree of one black node with `numberOfNodes = 1`, still without a
comparator.  The next `tryAdd` on that tree throws `overflow_error("Can't use Compare!")` and
leaves it unchanged, and `find` on that tree dereferences the null comparator. -/
theorem tryAdd_on_empty_tree_without_comparator_returns :
    emptyWithoutComparator.comparatorStrategy.isNone = true ∧
    emptyWithoutComparator.head = Node.nullptr ∧ emptyWithoutComparator.numberOfNodes = 0 ∧
    emptyWithoutComparator.tryAdd 1 5 50
      = .returned { head := .mk 1 [⟨5, 50⟩] .nullptr .nullptr false,
                    comparatorStrategy := none, numberOfNodes := 1 } ∧
    (emptyWithoutComparator.tryAdd 1 5 50).Returned ∧
    ¬ (emptyWithoutComparator.tryAdd 1 5 50).Threw ∧
    ((emptyWithoutComparator.tryAdd 1 5 50).treeOr emptyWithoutComparator).tryAdd 2 7 70
      = .threw (.overflow_error "Can't use Compare!")
          ((emptyWithoutComparator.tryAdd 1 5 50).treeOr emptyWithoutComparator) ∧
    ((emptyWithoutComparator.tryAdd 1 5 50).treeOr emptyWithoutComparator).find 5
      = .error .nullDereference :=
  ⟨rfl, rfl, rfl, rfl, ⟨_, rfl⟩, (by rintro ⟨e, t, h⟩; cases h), rfl, rfl⟩

/-- C12: on a tree with `numberOfNodes = 0`, whatever its comparator and the key, `tryPop`
throws `invalid_argument("Can't do pop. Tree is empty!")` and leaves the tree as it was, hence
empty. -/
theorem tryPop_on_empty_tree_throws (t : RBTree TKey TData) (key : TKey)
    (hempty : t.numberOfNodes = 0) :
    t.tryPop key = .threw (.invalid_argument "Can't do pop. Tree is empty!") t := by
  simp [RBTree.tryPop, RBTree.isEmpty, hempty, emptyTree]

theorem tryPop_on_empty_tree_throws_witness :
    emptyWithoutComparator.head = Node.nullptr ∧
    emptyWithoutComparator.tryPop 5
      = .threw (.invalid_argument "Can't do pop. Tree is empty!") emptyWithoutComparator ∧
    emptyWithDifference.tryPop 5
      = .threw (.invalid_argument "Can't do pop. Tree is empty!") emptyWithDifference :=
  ⟨rfl, tryPop_on_empty_tree_throws emptyWithoutComparator 5 rfl,
    tryPop_on_empty_tree_throws emptyWithDifference 5 rfl⟩

theorem tryPop_threw_same_tree (t t' : RBTree TKey TData) (key : TKey) (e : Exception)
    (h : t.tryPop key = .threw e t') : t' = t := by
  simp only [RBTree.tryPop] at h
  split at h
  · cases h; rfl
  · split at h
    · cases h; rfl
    · cases h
    · split at h
      · cases h
      · cases h; rfl
      · cases h

theorem tryAdd_threw_same_tree [DecidableEq TKey] (t t' : RBTree TKey TData) (newAddr : Nat)
    (key : TKey) (data : TData) (e : Exception)
    (h : t.tryAdd newAddr key data = .threw e t') : t' = t := by
  simp only [RBTree.tryAdd] at h
  split at h
  · cases h
  · split at h
    · cases h; rfl
    · cases h
    · split at h
      · cases h
      · cases h; rfl
      · cases h

/-- C13, the claim fails: on the empty tree `tryPop(5)` throws, and the public `pop(5)`
completes normally; on the tree of one node without a comparator `tryAdd(7, 70)` throws, and
the public `add(7, 70)` completes normally.  The message goes to `std::cerr`. -/
theorem pop_and_add_complete_normally_when_the_call_throws :
    (emptyWithDifference.tryPop 5).Threw ∧
    emptyWithDifference.pop 5
      = (.returned emptyWithDifference, ["Can't do pop. Tree is empty!"]) ∧
    ¬ (emptyWithDifference.pop 5).1.Threw ∧
    (((emptyWithoutComparator.tryAdd 1 5 50).treeOr emptyWithoutComparator).tryAdd 2 7 70).Threw ∧
    ¬ (((emptyWithoutComparator.tryAdd 1 5 50).treeOr emptyWithoutComparator).add 2 7 70).1.Threw :=
  ⟨⟨_, _, rfl⟩, rfl, (by rintro ⟨e, t, h⟩; cases h), ⟨_, _, rfl⟩, (by rintro ⟨e, t, h⟩; cases h)⟩

/-- C13 as amended: whenever `tryPop(key)` throws the exception `e`, the public `pop(key)`
completes normally, leaves the tree as it was before the call and writes the line `e.what()`
to `std::cerr`; whenever `tryAdd(key, data)` throws `e`, the public `add(key, data)` does the
same. -/
theorem pop_and_add_swallow_the_exception [DecidableEq TKey] (t : RBTree TKey TData)
    (newAddr : Nat) (key : TKey) (data : TData) :
    (∀ e t', t.tryPop key = .threw e t' → t.pop key = (.returned t, [e.what])) ∧
    (∀ e t', t.tryAdd newAddr key data = .threw e t' →
      t.add newAddr key data = (.returned t, [e.what])) := by
  constructor
  · intro e t' h
    have := tryPop_threw_same_tree t t' key e h
    subst this
    simp only [RBTree.pop, h]
  · intro e t' h
    have := tryAdd_threw_same_tree t t' newAddr key data e h
    subst this
    simp only [RBTree.add, h]

theorem pop_and_add_swallow_the_exception_witness :
    treeThree.tryPop 25 = .threw (.invalid_argument "No element in tree!") treeThree ∧
    treeThree.pop 25 = (.returned treeThree, ["No element in tree!"]) :=
  ⟨rfl, (pop_and_add_swallow_the_exception treeThree 4 25 250).1 _ _ rfl⟩


/-! ## Removal of a root with one red leaf -/

theorem deleteLeafOrBranch_root_with_right_leaf (cmp : TKey → TKey → Int)
    (t : RBTree TKey TData) (rootAddr childAddr : Nat)
    (kvs entries : List (KeyAndValue TKey TData)) (c : Bool) (htwo : t.numberOfNodes = 2) :
    deleteLeafOrBranch cmp t
        (.mk rootAddr kvs .nullptr (.mk childAddr entries .nullptr .nullptr c) false) []
      = .ok { t with head := .mk childAddr entries .nullptr .nullptr false,
                     numberOfNodes := 1 } := by
  simp [deleteLeafOrBranch, Node.nodeIsRed, Node.nodeIsBranch, Node.isNull,
    pullOutNodeFromStack, htwo, deleteBranchOrRedLeaf, deleteBranch, Node.getLeftPtr,
    Node.getRightPtr, Node.makeBlack, decrement, bind, Except.bind, pure, Except.pure]

theorem deleteLeafOrBranch_root_with_left_leaf (cmp : TKey → TKey → Int)
    (t : RBTree TKey TData) (rootAddr childAddr : Nat)
    (kvs entries : List (KeyAndValue TKey TData)) (c : Bool) (htwo : t.numberOfNodes = 2) :
    deleteLeafOrBranch cmp t
        (.mk rootAddr kvs (.mk childAddr entries .nullptr .nullptr c) .nullptr false) []
      = .ok { t with head := .mk childAddr entries .nullptr .nullptr false,
                     numberOfNodes := 1 } := by
  simp [deleteLeafOrBranch, Node.nodeIsRed, Node.nodeIsBranch, Node.isNull,
    pullOutNodeFromStack, htwo, deleteBranchOrRedLeaf, deleteBranch, Node.getLeftPtr,
    Node.getRightPtr, Node.makeBlack, decrement, bind, Except.bind, pure, Except.pure]

/-- C16: on a tree made of a black root and one red leaf, on either side, with
`numberOfNodes = 2`, `tryPop` of a key that compares equal to the key of the root returns and
leaves the former child as the only node: it is the head, it is black, it has no children
and keeps its entries, and `numberOfNodes` is `1`. -/
theorem tryPop_root_with_one_red_leaf (cmp : TKey → TKey → Int) (key : TKey)
    (rootAddr childAddr : Nat) (kv : KeyAndValue TKey TData)
    (tl childEntries : List (KeyAndValue TKey TData)) (hkey : cmp kv.key key = 0) :
    RBTree.tryPop
        { head := .mk rootAddr (kv :: tl) .nullptr
            (.mk childAddr childEntries .nullptr .nullptr true) false,
          comparatorStrategy := some cmp, numberOfNodes := 2 } key
      = .returned { head := .mk childAddr childEntries .nullptr .nullptr false,
                    comparatorStrategy := some cmp, numberOfNodes := 1 } ∧
    RBTree.tryPop
        { head := .mk rootAddr (kv :: tl)
            (.mk childAddr childEntries .nullptr .nullptr true) .nullptr false,
          comparatorStrategy := some cmp, numberOfNodes := 2 } key
      = .returned { head := .mk childAddr childEntries .nullptr .nullptr false,
                    comparatorStrategy := some cmp, numberOfNodes := 1 } := by
  constructor
  · have h2 := deleteLeafOrBranch_root_with_right_leaf cmp
      { head := .mk rootAddr (kv :: tl) .nullptr
          (.mk childAddr childEntries .nullptr .nullptr true) false,
        comparatorStrategy := some cmp, numberOfNodes := 2 }
      rootAddr childAddr (kv :: tl) childEntries true rfl
    simp only [RBTree.tryPop, RBTree.isEmpty, RBTree.throwExceptionIfThereIsNoCompare,
      initStackOfPreviousNodesInDeletionOrThrowException, Node.frontKey, hkey,
      Node.nodeIsNotLeaf, Node.nodeIsNotBranch, Node.nodeIsBranch, Node.isNull,
      bind, Except.bind, pure, Except.pure]
    simp [h2]
  · have h2 := deleteLeafOrBranch_root_with_left_leaf cmp
      { head := .mk rootAddr (kv :: tl)
          (.mk childAddr childEntries .nullptr .nullptr true) .nullptr false,
        comparatorStrategy := some cmp, numberOfNodes := 2 }
      rootAddr childAddr (kv :: tl) childEntries true rfl
    simp only [RBTree.tryPop, RBTree.isEmpty, RBTree.throwExceptionIfThereIsNoCompare,
      initStackOfPreviousNodesInDeletionOrThrowException, Node.frontKey, hkey,
      Node.nodeIsNotLeaf, Node.nodeIsNotBranch, Node.nodeIsBranch, Node.isNull,
      bind, Except.bind, pure, Except.pure]
    simp [h2]

theorem tryPop_root_with_one_red_leaf_witness :
    threeWay 10 10 = 0 ∧
    treeRootWithRedLeaf.tryPop 10
      = .returned { head := .mk 2 [⟨20, 200⟩] .nullptr .nullptr false,
                    comparatorStrategy := some threeWay, numberOfNodes := 1 } :=
  ⟨by decide, (tryPop_root_with_one_red_leaf threeWay 10 1 2 ⟨10, 100⟩ [] [⟨20, 200⟩]
    (by decide)).1⟩


/-! ## The choice between the turns, and what the turns do -/

section TurnsOnChains

variable {cmp : TKey → TKey → Int}

/-- The shape of a chain grandfather, father, grandson inside a tree with well-formed
entries. -/
theorem chain_shape {G F S : Node TKey TData} {sideF sideS : Side}
    (hF : G.child sideF = F) (hS : F.child sideS = S) (hSne : S ≠ Node.nullptr)
    (hent : G.EntriesOk cmp) :
    ∃ ga kvg tlg gl gr gc fa kvf tlf fl fr fc sa kvc tlc sl sr sc,
      G = Node.mk ga (kvg :: tlg) gl gr gc ∧ F = Node.mk fa (kvf :: tlf) fl fr fc ∧
      S = Node.mk sa (kvc :: tlc) sl sr sc := by
  cases G with
  | nullptr =>
    have : F = Node.nullptr := by rw [← hF]; cases sideF <;> rfl
    subst this
    have : S = Node.nullptr := by rw [← hS]; cases sideS <;> rfl
    exact absurd this hSne
  | mk ga gkvs gl gr gc =>
    obtain ⟨kvg, tlg, rfl, -⟩ := hent.ofRoot
    cases F with
    | nullptr =>
      have : S = Node.nullptr := by rw [← hS]; cases sideS <;> rfl
      exact absurd this hSne
    | mk fa fkvs fl fr fc =>
      have hentF : (Node.mk fa fkvs fl fr fc).EntriesOk cmp := by
        cases sideF
        · simp only [Node.child] at hF; exact hF ▸ hent.ofLeft
        · simp only [Node.child] at hF; exact hF ▸ hent.ofRight
      obtain ⟨kvf, tlf, rfl, -⟩ := hentF.ofRoot
      cases S with
      | nullptr => exact absurd rfl hSne
      | mk sa skvs sl sr sc =>
        have hentS : (Node.mk sa skvs sl sr sc).EntriesOk cmp := by
          cases sideS
          · simp only [Node.child] at hS; exact hS ▸ hentF.ofLeft
          · simp only [Node.child] at hS; exact hS ▸ hentF.ofRight
        obtain ⟨kvc, tlc, rfl, -⟩ := hentS.ofRoot
        exact ⟨ga, kvg, tlg, gl, gr, gc, fa, kvf, tlf, fl, fr, fc, sa, kvc, tlc, sl, sr, sc,
          rfl, rfl, rfl⟩

theorem ordered_right_keys (horder : StrictTotalOrder cmp) {ga : Nat}
    {kvg : KeyAndValue TKey TData} {tlg : List (KeyAndValue TKey TData)}
    {gl gr : Node TKey TData} {gc : Bool}
    (h : (Node.mk ga (kvg :: tlg) gl gr gc).Ordered cmp) :
    ∀ x ∈ gr.keys, cmp kvg.key x < 0 := by
  intro x hx
  have := (h.1.1 kvg.key (by simp)).2 x hx
  exact (horder.antisymm kvg.key x).2 this

theorem ordered_left_keys (horder : StrictTotalOrder cmp) {ga : Nat}
    {kvg : KeyAndValue TKey TData} {tlg : List (KeyAndValue TKey TData)}
    {gl gr : Node TKey TData} {gc : Bool}
    (h : (Node.mk ga (kvg :: tlg) gl gr gc).Ordered cmp) :
    ∀ x ∈ gl.keys, cmp kvg.key x > 0 := by
  intro x hx
  have := (h.1.1 kvg.key (by simp)).1 x hx
  exact (horder.antisymm x kvg.key).1 this

/-- The keys of a chain grandfather, father, grandson of a tree with the BST property compare
as the sides of the chain say. -/
theorem chain_keys (horder : StrictTotalOrder cmp) {ga fa sa : Nat}
    {kvg kvf kvc : KeyAndValue TKey TData} {tlg tlf tlc : List (KeyAndValue TKey TData)}
    {gl gr fl fr sl sr : Node TKey TData} {gc fc sc : Bool} {sideF sideS : Side}
    (hF : (Node.mk ga (kvg :: tlg) gl gr gc).child sideF = Node.mk fa (kvf :: tlf) fl fr fc)
    (hS : (Node.mk fa (kvf :: tlf) fl fr fc).child sideS = Node.mk sa (kvc :: tlc) sl sr sc)
    (hbst : (Node.mk ga (kvg :: tlg) gl gr gc).Ordered cmp) :
    (if sideF = Side.right then cmp kvg.key kvf.key < 0 ∧ cmp kvg.key kvc.key < 0
      else cmp kvg.key kvf.key > 0 ∧ cmp kvg.key kvc.key > 0) ∧
    (if sideS = Side.right then cmp kvf.key kvc.key < 0 else cmp kvf.key kvc.key > 0) := by
  have hcF : kvc.key ∈ (Node.mk fa (kvf :: tlf) fl fr fc).keys := by
    cases sideS <;> simp only [Node.child] at hS <;> subst hS <;> simp [Node.keys]
  have hfF : kvf.key ∈ (Node.mk fa (kvf :: tlf) fl fr fc).keys := by simp [Node.keys]
  have hbstF : (Node.mk fa (kvf :: tlf) fl fr fc).Ordered cmp := by
    cases sideF <;> simp only [Node.child] at hF <;> subst hF
    · exact hbst.1.2
    · exact hbst.2
  constructor
  · cases sideF <;> simp only [Node.child] at hF <;> subst hF
    · simp only [reduceCtorEq, if_false]
      exact ⟨ordered_left_keys horder hbst _ hfF, ordered_left_keys horder hbst _ hcF⟩
    · simp only [if_true]
      exact ⟨ordered_right_keys horder hbst _ hfF, ordered_right_keys horder hbst _ hcF⟩
  · cases sideS <;> simp only [Node.child] at hS <;> subst hS
    · simp only [reduceCtorEq, if_false]
      exact ordered_left_keys horder hbstF _ (by simp [Node.keys])
    · simp only [if_true]
      exact ordered_right_keys horder hbstF _ (by simp [Node.keys])

/-- With a comparator that returns only `-1`, `0` and `1`, `needToMakeSingleTurn` is true
exactly on the straight chains. -/
theorem needToMakeSingleTurn_of_signOnly (horder : StrictTotalOrder cmp) (hsign : SignOnly cmp)
    (G F S : Node TKey TData) (sideF sideS : Side)
    (hF : G.child sideF = F) (hS : F.child sideS = S) (hSne : S ≠ Node.nullptr)
    (hbst : G.Ordered cmp) (hent : G.EntriesOk cmp) :
    needToMakeSingleTurn cmp G S = .ok (decide (sideF = sideS)) := by
  obtain ⟨ga, kvg, tlg, gl, gr, gc, fa, kvf, tlf, fl, fr, fc, sa, kvc, tlc, sl, sr, sc,
    rfl, rfl, rfl⟩ := chain_shape hF hS hSne hent
  have hk := chain_keys horder hF hS hbst
  have h1 := hsign kvg.key kvf.key
  have h2 := hsign kvf.key kvc.key
  cases sideF <;> cases sideS <;> simp only [Node.child] at hF hS <;> subst hF <;>
    simp only [reduceCtorEq, if_false, if_true] at hk
  · rw [needToMakeSingleTurn_of_not_lt (by omega)]
    simp only [decide_True, Except.ok.injEq, decide_eq_true_eq]; omega
  · rw [needToMakeSingleTurn_of_not_lt (by omega)]
    simp only [reduceCtorEq, decide_False, Except.ok.injEq, decide_eq_false_iff_not]; omega
  · rw [needToMakeSingleTurn_of_lt (by omega)]
    simp only [reduceCtorEq, decide_False, Except.ok.injEq, decide_eq_false_iff_not]; omega
  · rw [needToMakeSingleTurn_of_lt (by omega)]
    simp only [decide_True, Except.ok.injEq, decide_eq_true_eq]; omega

/-- C18: under the strict total order `difference`, on the chain
`10(black)[-, 20(red)[-, 35(red)]]` of a tree with the BST property, the father `20` is the
right child of the grandfather `10` and the grandson `35` is the right child of the father:
the chain is straight.  `needToMakeSingleTurn(grandfather, grandson)` returns `false`, because
`compare(10, 20) = -10` and `compare(20, 35) = -15` are different integers; under `threeWay`
it returns `true`. -/
theorem needToMakeSingleTurn_false_on_straight_chain :
    StrictTotalOrder difference ∧ chainRightRight.Ordered difference ∧
    chainRightRight.EntriesOk difference ∧
    chainRightRight.child Side.right
      = .mk 2 [⟨20, 200⟩] .nullptr (.mk 3 [⟨35, 350⟩] .nullptr .nullptr true) true ∧
    (chainRightRight.child Side.right).child Side.right
      = .mk 3 [⟨35, 350⟩] .nullptr .nullptr true ∧
    difference 10 20 = -10 ∧ difference 20 35 = -15 ∧
    needToMakeSingleTurn difference chainRightRight
      (.mk 3 [⟨35, 350⟩] .nullptr .nullptr true) = .ok false ∧
    needToMakeSingleTurn threeWay chainRightRight
      (.mk 3 [⟨35, 350⟩] .nullptr .nullptr true) = .ok true :=
  ⟨difference_strictTotalOrder, by decide, by decide, rfl, rfl, by decide, by decide,
    rfl, rfl⟩

/-- C19: in a tree with the BST property under a strict-total-order comparator, with
well-formed entries and nodes at distinct addresses, let the father be a child of the
grandfather and the grandson a child of the father.  On a straight chain
`makeSingleTurn(grandfather, grandson)` returns and leaves the father as the root of a
subtree, on a bent chain `makeDoubleTurn(grandfather, grandson)` returns and leaves the
grandson as the root of a subtree, and the in-order sequence of the nodes of that subtree,
each with its address, entry sequence and colour, is the in-order sequence of the subtree
that the grandfather was the root of. -/
theorem turns_keep_inorder_sequence (cmp : TKey → TKey → Int) (horder : StrictTotalOrder cmp)
    (G F S : Node TKey TData) (sideF sideS : Side)
    (hF : G.child sideF = F) (hS : F.child sideS = S) (hSne : S ≠ Node.nullptr)
    (hbst : G.Ordered cmp) (hent : G.EntriesOk cmp) (hdist : G.Distinct) :
    (sideF = sideS → ∃ F' G', makeSingleTurn cmp G S = .ok (F', G') ∧ F'.ptr = F.ptr ∧
      F'.inorder = G.inorder) ∧
    (sideF ≠ sideS → ∃ S' F' G', makeDoubleTurn cmp G S = .ok (S', F', G') ∧
      S'.ptr = S.ptr ∧ S'.inorder = G.inorder) := by
  obtain ⟨ga, kvg, tlg, gl, gr, gc, fa, kvf, tlf, fl, fr, fc, sa, kvc, tlc, sl, sr, sc,
    rfl, rfl, rfl⟩ := chain_shape hF hS hSne hent
  have hk := chain_keys horder hF hS hbst
  cases sideF <;> cases sideS <;> simp only [Node.child] at hF hS <;> subst hF <;>
    simp only [reduceCtorEq, if_false, if_true] at hk
  · -- left, left
    subst hS
    have hs : fr.ptr ≠ Ptr.heap sa := by
      simpa using hdist.left.right_ne_left (by simp)
    have hp : gr.ptr ≠ Ptr.heap fa := by
      simpa using hdist.right_ne_left (by simp)
    refine ⟨fun _ => ⟨_, _, makeSingleTurn_left_left (by omega) hs hp, rfl, ?_⟩,
      fun h => absurd rfl h⟩
    simp [Node.inorder]
  · -- left, right
    subst hS
    have hs : fl.ptr ≠ Ptr.heap sa := by
      simpa using hdist.left.left_ne_right (by simp)
    have hp : gr.ptr ≠ Ptr.heap fa := by
      simpa using hdist.right_ne_left (by simp)
    refine ⟨fun h => (by cases h),
      fun _ => ⟨_, _, _, makeDoubleTurn_left_right (by omega) hs hp, rfl, ?_⟩⟩
    simp [Node.inorder]
  · -- right, left
    subst hS
    have hp : gl.ptr ≠ Ptr.heap fa := by
      simpa using hdist.left_ne_right (by simp)
    refine ⟨fun h => (by cases h),
      fun _ => ⟨_, _, _, makeDoubleTurn_right_left (by omega) hp, rfl, ?_⟩⟩
    simp [Node.inorder]
  · -- right, right
    subst hS
    have hp : gl.ptr ≠ Ptr.heap fa := by
      simpa using hdist.left_ne_right (by simp)
    refine ⟨fun _ => ⟨_, _, makeSingleTurn_right_right (by omega) hp, rfl, ?_⟩,
      fun h => absurd rfl h⟩
    simp [Node.inorder]

theorem turns_keep_inorder_sequence_witness :
    (∃ F' G', makeSingleTurn difference chainRightRight
        (.mk 3 [⟨35, 350⟩] .nullptr .nullptr true) = .ok (F', G') ∧
      F'.ptr = Ptr.heap 2 ∧ F'.inorder = chainRightRight.inorder) ∧
    (∃ S' F' G', makeDoubleTurn difference chainRightLeft
        (chainRightLeft.child Side.right |>.child Side.left) = .ok (S', F', G') ∧
      S'.ptr = Ptr.heap 4 ∧ S'.inorder = chainRightLeft.inorder) :=
  ⟨(turns_keep_inorder_sequence difference difference_strictTotalOrder chainRightRight _ _
      Side.right Side.right rfl rfl (by decide) (by decide) (by decide) (by decide)).1 rfl,
    (turns_keep_inorder_sequence difference difference_strictTotalOrder chainRightLeft _ _
      Side.right Side.left rfl rfl (by decide) (by decide) (by decide) (by decide)).2
      (by decide)⟩

/-- On a straight chain `makeSingleTurn` is the single rotation of the specification at the
grandfather. -/
theorem makeSingleTurn_eq_specRotate (horder : StrictTotalOrder cmp)
    (G F S : Node TKey TData) (side : Side)
    (hF : G.child side = F) (hS : F.child side = S) (hSne : S ≠ Node.nullptr)
    (hbst : G.Ordered cmp) (hent : G.EntriesOk cmp) (hdist : G.Distinct) :
    ∃ G', makeSingleTurn cmp G S
      = .ok (if side = Side.right then specRotateLeft G else specRotateRight G, G') := by
  obtain ⟨ga, kvg, tlg, gl, gr, gc, fa, kvf, tlf, fl, fr, fc, sa, kvc, tlc, sl, sr, sc,
    rfl, rfl, rfl⟩ := chain_shape hF hS hSne hent
  have hk := chain_keys horder hF hS hbst
  cases side <;> simp only [Node.child] at hF hS <;> subst hF <;> subst hS <;>
    simp only [reduceCtorEq, if_false, if_true] at hk ⊢
  · have hs : fr.ptr ≠ Ptr.heap sa := by
      simpa using hdist.left.right_ne_left (by simp)
    have hp : gr.ptr ≠ Ptr.heap fa := by
      simpa using hdist.right_ne_left (by simp)
    exact ⟨_, makeSingleTurn_left_left (by omega) hs hp⟩
  · have hp : gl.ptr ≠ Ptr.heap fa := by
      simpa using hdist.left_ne_right (by simp)
    exact ⟨_, makeSingleTurn_right_right (by omega) hp⟩

/-- C20: in a tree with the BST property under a strict-total-order comparator, with
well-formed entries and nodes at distinct addresses, on a bent chain (the father on one side
of the grandfather, the grandson on the other side of the father, both mirror images)
`makeDoubleTurn(grandfather, grandson)` returns and leaves the subtree that the two single
rotations of the specification leave: the grandson rotated above the father and linked as
the child of the grandfather, then rotated above the grandfather. -/
theorem makeDoubleTurn_eq_two_single_rotations (cmp : TKey → TKey → Int)
    (horder : StrictTotalOrder cmp) (G F S : Node TKey TData) (sideF sideS : Side)
    (hF : G.child sideF = F) (hS : F.child sideS = S) (hSne : S ≠ Node.nullptr)
    (hbent : sideF ≠ sideS)
    (hbst : G.Ordered cmp) (hent : G.EntriesOk cmp) (hdist : G.Distinct) :
    ∃ F' G', makeDoubleTurn cmp G S = .ok (specDoubleRotation sideF G, F', G') := by
  obtain ⟨ga, kvg, tlg, gl, gr, gc, fa, kvf, tlf, fl, fr, fc, sa, kvc, tlc, sl, sr, sc,
    rfl, rfl, rfl⟩ := chain_shape hF hS hSne hent
  have hk := chain_keys horder hF hS hbst
  cases sideF <;> cases sideS <;> simp only [Node.child] at hF hS <;> subst hF <;>
    simp only [reduceCtorEq, if_false, if_true] at hk
  · exact absurd rfl hbent
  · subst hS
    have hs : fl.ptr ≠ Ptr.heap sa := by
      simpa using hdist.left.left_ne_right (by simp)
    have hp : gr.ptr ≠ Ptr.heap fa := by
      simpa using hdist.right_ne_left (by simp)
    exact ⟨_, _, makeDoubleTurn_left_right (by omega) hs hp⟩
  · subst hS
    have hp : gl.ptr ≠ Ptr.heap fa := by
      simpa using hdist.left_ne_right (by simp)
    exact ⟨_, _, makeDoubleTurn_right_left (by omega) hp⟩
  · exact absurd rfl hbent

theorem makeDoubleTurn_eq_two_single_rotations_witness :
    specDoubleRotation Side.right chainRightLeft
      = .mk 4 [⟨20, 200⟩]
          (.mk 1 [⟨10, 100⟩] (.mk 2 [⟨5, 50⟩] .nullptr .nullptr false)
            (.mk 5 [⟨15, 150⟩] .nullptr .nullptr false) false)
          (.mk 3 [⟨30, 300⟩] (.mk 6 [⟨25, 250⟩] .nullptr .nullptr false)
            (.mk 7 [⟨40, 400⟩] .nullptr .nullptr false) true) true ∧
    ∃ F' G', makeDoubleTurn threeWay chainRightLeft
        (chainRightLeft.child Side.right |>.child Side.left)
      = .ok (specDoubleRotation Side.right chainRightLeft, F', G') :=
  ⟨by decide, makeDoubleTurn_eq_two_single_rotations threeWay threeWay_strictTotalOrder
    chainRightLeft _ _ Side.right Side.left rfl rfl (by decide) (by decide) (by decide)
    (by decide) (by decide)⟩

end TurnsOnChains


/-! ## Three keys inserted into the empty tree -/

section ThreeKeys

variable [DecidableEq TKey] (cmp : TKey → TKey → Int) (a b c : TKey) (va vb vc : TData)
variable (p1 p2 p3 : Nat)

theorem tryAdd_first_key (t : RBTree TKey TData) (hempty : t.numberOfNodes = 0) :
    t.tryAdd p1 a va
      = .returned { t with head := .mk p1 [⟨a, va⟩] .nullptr .nullptr false,
                           numberOfNodes := 1 } := by
  simp [RBTree.tryAdd, RBTree.isEmpty, hempty]

theorem tryAdd_second_key_right (hab : cmp a b < 0) :
    RBTree.tryAdd
        { head := .mk p1 [⟨a, va⟩] .nullptr .nullptr false, comparatorStrategy := some cmp,
          numberOfNodes := 1 } p2 b vb
      = .returned
        { head := .mk p1 [⟨a, va⟩] .nullptr (.mk p2 [⟨b, vb⟩] .nullptr .nullptr true) false,
          comparatorStrategy := some cmp, numberOfNodes := 2 } := by
  simp [RBTree.tryAdd, RBTree.isEmpty, RBTree.throwExceptionIfThereIsNoCompare,
    initStackOfPreviousNodesInInsert, Node.frontKey, hab, pullOutNodeFromStack, Frame.fill,
    linkOrUnionChildWithFatherInInsert, Node.setRightPtr, increment, Node.nodeIsBlack,
    rebuild, bind, Except.bind, pure, Except.pure]

/-- The third key of a straight chain: when the comparator returns the same integer for the
two links of the chain, the single turn makes `b` the black root with the red leaves `a` and
`c`. -/
theorem tryAdd_third_key_straight (hbc : cmp b c < 0) (hac : cmp a c < 0)
    (heq : cmp a b = cmp b c) (hne : b ≠ c) (h12 : p1 ≠ p2) (h13 : p1 ≠ p3) (h23 : p2 ≠ p3) :
    RBTree.tryAdd
        { head := .mk p1 [⟨a, va⟩] .nullptr (.mk p2 [⟨b, vb⟩] .nullptr .nullptr true) false,
          comparatorStrategy := some cmp, numberOfNodes := 2 } p3 c vc
      = .returned
        { head := .mk p2 [⟨b, vb⟩] (.mk p1 [⟨a, va⟩] .nullptr .nullptr true)
            (.mk p3 [⟨c, vc⟩] .nullptr .nullptr true) false,
          comparatorStrategy := some cmp, numberOfNodes := 3 } := by
  have h1 : initStackOfPreviousNodesInInsert cmp c
      (.mk p1 [⟨a, va⟩] .nullptr (.mk p2 [⟨b, vb⟩] .nullptr .nullptr true) false) []
      = .ok (.mk p2 [⟨b, vb⟩] .nullptr .nullptr true,
          [(⟨p1, [⟨a, va⟩], false, true, .nullptr⟩ : Frame TKey TData)]) := by
    simp [initStackOfPreviousNodesInInsert, Node.frontKey, hac, hbc, pullOutNodeFromStack,
      Frame.fill, bind, Except.bind, pure, Except.pure]
  have h2 : linkOrUnionChildWithFatherInInsert cmp
      (.mk p3 [⟨c, vc⟩] .nullptr .nullptr true) (.mk p2 [⟨b, vb⟩] .nullptr .nullptr true) 2
      = .ok (.mk p2 [⟨b, vb⟩] .nullptr (.mk p3 [⟨c, vc⟩] .nullptr .nullptr true) true, 3) := by
    simp [linkOrUnionChildWithFatherInInsert, Node.frontKey, hbc, Node.setRightPtr, increment,
      bind, Except.bind, pure, Except.pure]
  have h3 : tryAddLoop cmp (.mk p3 [⟨c, vc⟩] .nullptr .nullptr true)
      (.mk p2 [⟨b, vb⟩] .nullptr (.mk p3 [⟨c, vc⟩] .nullptr .nullptr true) true)
      [(⟨p1, [⟨a, va⟩], false, true, .nullptr⟩ : Frame TKey TData)]
      = .ok (.mk p2 [⟨b, vb⟩] (.mk p1 [⟨a, va⟩] .nullptr .nullptr true)
            (.mk p3 [⟨c, vc⟩] .nullptr .nullptr true) false) := by
    rw [tryAddLoop_red_cons cmp _ p2 _ _ _ _ [] Node.nullptr
      (by simp [Frame.fill, Node.returnAnotherChild])]
    simp only [Node.isRedNode, if_true, Frame.fill, tryAddRotate]
    rw [needToMakeSingleTurn_of_lt hac, makeSingleTurn_right_right hac (by simp)]
    simp [heq, hangNodesAfterTurnStack, Node.reread, Node.setColorAt, h12, h13, h23,
      Ne.symm h12, Ne.symm h13, Ne.symm h23, bind, Except.bind, pure, Except.pure]
  simp only [RBTree.tryAdd, RBTree.isEmpty, RBTree.throwExceptionIfThereIsNoCompare, h1, h2,
    bind, Except.bind]
  simp [Node.nodeIsBlack, Node.hasTheSameKeyWith, Node.frontKey, hne, h3, bind, Except.bind,
    pure, Except.pure]

/-- The third key of a bent chain: the double turn makes `b` the black root with the red
leaves `a` and `c`, whatever integers the comparator returns. -/
theorem tryAdd_third_key_bent (hab : cmp a b < 0) (hcb : cmp c b > 0) (hac : cmp a c < 0)
    (hne : c ≠ b) (h12 : p1 ≠ p2) (h13 : p1 ≠ p3) (h23 : p2 ≠ p3) :
    RBTree.tryAdd
        { head := .mk p1 [⟨a, va⟩] .nullptr (.mk p2 [⟨c, vc⟩] .nullptr .nullptr true) false,
          comparatorStrategy := some cmp, numberOfNodes := 2 } p3 b vb
      = .returned
        { head := .mk p3 [⟨b, vb⟩] (.mk p1 [⟨a, va⟩] .nullptr .nullptr true)
            (.mk p2 [⟨c, vc⟩] .nullptr .nullptr true) false,
          comparatorStrategy := some cmp, numberOfNodes := 3 } := by
  have hcb' : ¬ cmp c b < 0 := by omega
  have h1 : initStackOfPreviousNodesInInsert cmp b
      (.mk p1 [⟨a, va⟩] .nullptr (.mk p2 [⟨c, vc⟩] .nullptr .nullptr true) false) []
      = .ok (.mk p2 [⟨c, vc⟩] .nullptr .nullptr true,
          [(⟨p1, [⟨a, va⟩], false, true, .nullptr⟩ : Frame TKey TData)]) := by
    simp [initStackOfPreviousNodesInInsert, Node.frontKey, hab, hcb, hcb', pullOutNodeFromStack,
      Frame.fill, bind, Except.bind, pure, Except.pure]
  have h2 : linkOrUnionChildWithFatherInInsert cmp
      (.mk p3 [⟨b, vb⟩] .nullptr .nullptr true) (.mk p2 [⟨c, vc⟩] .nullptr .nullptr true) 2
      = .ok (.mk p2 [⟨c, vc⟩] (.mk p3 [⟨b, vb⟩] .nullptr .nullptr true) .nullptr true, 3) := by
    simp [linkOrUnionChildWithFatherInInsert, Node.frontKey, hcb, hcb', Node.setLeftPtr,
      increment, bind, Except.bind, pure, Except.pure]
  have hdiff : cmp a c ≠ cmp c b := by omega
  have h3 : tryAddLoop cmp (.mk p3 [⟨b, vb⟩] .nullptr .nullptr true)
      (.mk p2 [⟨c, vc⟩] (.mk p3 [⟨b, vb⟩] .nullptr .nullptr true) .nullptr true)
      [(⟨p1, [⟨a, va⟩], false, true, .nullptr⟩ : Frame TKey TData)]
      = .ok (.mk p3 [⟨b, vb⟩] (.mk p1 [⟨a, va⟩] .nullptr .nullptr true)
            (.mk p2 [⟨c, vc⟩] .nullptr .nullptr true) false) := by
    rw [tryAddLoop_red_cons cmp _ p2 _ _ _ _ [] Node.nullptr
      (by simp [Frame.fill, Node.returnAnotherChild])]
    simp only [Node.isRedNode, if_true, Frame.fill, tryAddRotate]
    rw [needToMakeSingleTurn_of_lt hab, makeDoubleTurn_right_left hab (by simp)]
    simp [hdiff, hangNodesAfterTurnStack, Node.setColorAt, h12, h13, h23,
      Ne.symm h12, Ne.symm h13, Ne.symm h23, bind, Except.bind, pure, Except.pure]
  simp only [RBTree.tryAdd, RBTree.isEmpty, RBTree.throwExceptionIfThereIsNoCompare, h1, h2,
    bind, Except.bind]
  simp [Node.nodeIsBlack, Node.hasTheSameKeyWith, Node.frontKey, hne, h3, bind, Except.bind,
    pure, Except.pure]

end ThreeKeys

/-- Under `threeWay`, the keys `a < b < c` inserted in this order give the black root `b` with
the red leaves `a` and `c`. -/
theorem straight_row_under_threeWay (a b c : Int) (hab : a < b) (hbc : b < c) :
    addAll (RBTree.new (some threeWay)) [a, b, c] 1
      = { head := .mk 2 [⟨b, 10 * b⟩] (.mk 1 [⟨a, 10 * a⟩] .nullptr .nullptr true)
            (.mk 3 [⟨c, 10 * c⟩] .nullptr .nullptr true) false,
          comparatorStrategy := some threeWay, numberOfNodes := 3 } := by
  have hac : a < c := by omega
  have e1 : threeWay a b = -1 := by simp [threeWay, hab]
  have e2 : threeWay b c = -1 := by simp [threeWay, hbc]
  have e3 : threeWay a c = -1 := by simp [threeWay, hac]
  have h1 : threeWay a b < 0 := by omega
  have h2 : threeWay b c < 0 := by omega
  have h3 : threeWay a c < 0 := by omega
  have h4 : threeWay a b = threeWay b c := by omega
  simp only [addAll, RBTree.new]
  rw [tryAdd_first_key a (10 * a) 1 _ rfl]
  simp only [Outcome.treeOr, Outcome.tree?, Option.getD]
  rw [tryAdd_second_key_right threeWay a b (10 * a) (10 * b) 1 2 h1]
  simp only [Outcome.treeOr, Outcome.tree?, Option.getD]
  rw [tryAdd_third_key_straight threeWay a b c (10 * a) (10 * b) (10 * c) 1 2 3 h2 h3 h4
    (by omega) (by decide) (by decide) (by decide)]

/-- Under every comparator that orders `a`, `b`, `c` in this order, the keys inserted in the
order `a`, `c`, `b` give the black root `b` with the red leaves `a` and `c`. -/
theorem bent_row (cmp : Int → Int → Int) (a b c : Int) (hab : cmp a b < 0)
    (hcb : cmp c b > 0) (hac : cmp a c < 0) (hne : c ≠ b) :
    addAll (RBTree.new (some cmp)) [a, c, b] 1
      = { head := .mk 3 [⟨b, 10 * b⟩] (.mk 1 [⟨a, 10 * a⟩] .nullptr .nullptr true)
            (.mk 2 [⟨c, 10 * c⟩] .nullptr .nullptr true) false,
          comparatorStrategy := some cmp, numberOfNodes := 3 } := by
  simp only [addAll, RBTree.new]
  rw [tryAdd_first_key a (10 * a) 1 _ rfl]
  simp only [Outcome.treeOr, Outcome.tree?, Option.getD]
  rw [tryAdd_second_key_right cmp a c (10 * a) (10 * c) 1 2 hac]
  simp only [Outcome.treeOr, Outcome.tree?, Option.getD]
  rw [tryAdd_third_key_bent cmp a b c (10 * a) (10 * b) (10 * c) 1 2 3 hab hcb hac hne
    (by decide) (by decide) (by decide)]

/-- C14: under the strict total order `difference`, an integer comparator with negative, zero
and positive results, the keys `1 < 2 < 4` inserted in this order into the empty tree do not
give the black root `2` with the red leaves `1` and `4`: the head is
`4(black)[2(red), 1(red)[-, 2(red)]]`, where node `2` hangs under node `4` and under node `1`.
The keys `10, 20, 30` of the scenario do give the black root `20` with the red leaves `10`
and `30`, because `compare(10, 20)` and `compare(20, 30)` are the same integer. -/
theorem straight_row_under_difference :
    StrictTotalOrder difference ∧ difference 1 2 < 0 ∧ difference 2 4 < 0 ∧
    addAll emptyWithDifference [1, 2] 1
      = { head := .mk 1 [⟨1, 10⟩] .nullptr (.mk 2 [⟨2, 20⟩] .nullptr .nullptr true) false,
          comparatorStrategy := some difference, numberOfNodes := 2 } ∧
    (addAll emptyWithDifference [1, 2, 4] 1).head
      = .mk 3 [⟨4, 40⟩] (.mk 2 [⟨2, 20⟩] .nullptr .nullptr true)
          (.mk 1 [⟨1, 10⟩] .nullptr (.mk 2 [⟨2, 20⟩] .nullptr .nullptr true) true) false ∧
    (addAll emptyWithDifference [1, 2, 4] 1).head
      ≠ .mk 2 [⟨2, 20⟩] (.mk 1 [⟨1, 10⟩] .nullptr .nullptr true)
          (.mk 3 [⟨4, 40⟩] .nullptr .nullptr true) false ∧
    (addAll emptyWithDifference [10, 20, 30] 1).head
      = .mk 2 [⟨20, 200⟩] (.mk 1 [⟨10, 100⟩] .nullptr .nullptr true)
          (.mk 3 [⟨30, 300⟩] .nullptr .nullptr true) false :=
  ⟨difference_strictTotalOrder, by decide, by decide, rfl, by decide, by decide, by decide⟩

/-- C15: under the strict total order `difference`, the keys `10 < 20 < 50` inserted in the
order `10, 50, 20` give the black root `20` with the red leaves `10` and `50`, and inserted in
the order `10, 20, 50` they give `50(black)[20(red), 10(red)[-, 20(red)]]`: the two trees
differ in shape. -/
theorem bent_row_differs_from_straight_row_under_difference :
    StrictTotalOrder difference ∧ difference 10 20 < 0 ∧ difference 20 50 < 0 ∧
    (addAll emptyWithDifference [10, 50, 20] 1).head
      = .mk 3 [⟨20, 200⟩] (.mk 1 [⟨10, 100⟩] .nullptr .nullptr true)
          (.mk 2 [⟨50, 500⟩] .nullptr .nullptr true) false ∧
    (addAll emptyWithDifference [10, 20, 50] 1).head
      = .mk 3 [⟨50, 500⟩] (.mk 2 [⟨20, 200⟩] .nullptr .nullptr true)
          (.mk 1 [⟨10, 100⟩] .nullptr (.mk 2 [⟨20, 200⟩] .nullptr .nullptr true) true)
          false ∧
    (addAll emptyWithDifference [10, 50, 20] 1).head.withoutAddresses
      ≠ (addAll emptyWithDifference [10, 20, 50] 1).head.withoutAddresses :=
  ⟨difference_strictTotalOrder, by decide, by decide, by decide, by decide, by decide⟩

/-- Under `threeWay`, the keys `a < b < c` inserted in the order `a`, `c`, `b` give the tree
that the order `a`, `b`, `c` gives: the same shape, colours and entries. -/
theorem bent_row_eq_straight_row_under_threeWay (a b c : Int) (hab : a < b) (hbc : b < c) :
    (addAll (RBTree.new (some threeWay)) [a, c, b] 1).head.withoutAddresses
      = (addAll (RBTree.new (some threeWay)) [a, b, c] 1).head.withoutAddresses := by
  have hac : a < c := by omega
  have e1 : threeWay a b = -1 := by simp [threeWay, hab]
  have e2 : threeWay c b = 1 := by
    simp only [threeWay]
    rw [if_neg (by omega), if_pos (by omega)]
  have e3 : threeWay a c = -1 := by simp [threeWay, hac]
  rw [straight_row_under_threeWay a b c hab hbc,
    bent_row threeWay a b c (by omega) (by omega) (by omega) (by omega)]
  simp [Node.withoutAddresses]


/-! ## Insertion of a key that compares equal to a key of the tree -/

section DuplicateKey

variable {cmp : TKey → TKey → Int}

/-- The walk of `tryAdd` ends at a node of the tree: with the node it returns under the stack
it returns, the tree is the tree the walk started from. -/
theorem initStackOfPreviousNodesInInsert_rebuild (key : TKey) :
    ∀ (n : Node TKey TData) (st st' : List (Frame TKey TData)) (top : Node TKey TData),
      n ≠ Node.nullptr →
      initStackOfPreviousNodesInInsert cmp key n st = .ok (top, st') →
      rebuild st' top = rebuild st n := by
  intro n
  induction n with
  | nullptr => intro st st' top h; exact absurd rfl h
  | mk a kvs l r c ihl ihr =>
    intro st st' top _ h
    cases kvs with
    | nil => simp [initStackOfPreviousNodesInInsert, Node.frontKey, bind, Except.bind] at h
    | cons kv tl =>
      simp only [initStackOfPreviousNodesInInsert, Node.frontKey, bind, Except.bind] at h
      split at h
      · by_cases hr : r = Node.nullptr
        · subst hr
          simp only [initStackOfPreviousNodesInInsert, pullOutNodeFromStack, pure, Except.pure,
            Except.ok.injEq, Prod.mk.injEq] at h
          obtain ⟨rfl, rfl⟩ := h
          simp [Frame.fill]
        · rw [ihr _ _ _ hr h]; simp [rebuild, Frame.fill]
      · split at h
        · by_cases hl : l = Node.nullptr
          · subst hl
            simp only [initStackOfPreviousNodesInInsert, pullOutNodeFromStack, pure,
              Except.pure, Except.ok.injEq, Prod.mk.injEq] at h
            obtain ⟨rfl, rfl⟩ := h
            simp [Frame.fill]
          · rw [ihl _ _ _ hl h]; simp [rebuild, Frame.fill]
        · simp only [pure, Except.pure, Except.ok.injEq, Prod.mk.injEq] at h
          obtain ⟨rfl, rfl⟩ := h
          rfl

/-- When the walk of `tryAdd` ends at a node whose first key compares equal to the new key,
and that node is black or its first key is `==` to the new key, `tryAdd` returns and the only
change is the new entry at the tail of the entry sequence of that node. -/
theorem tryAdd_equal_key_of_walk [DecidableEq TKey] (t : RBTree TKey TData) (newAddr : Nat)
    (key : TKey) (data : TData) (hcmp : t.comparatorStrategy = some cmp)
    (hnodes : t.numberOfNodes ≠ 0) (hhead : t.head ≠ Node.nullptr)
    (a : Nat) (kv : KeyAndValue TKey TData) (tl : List (KeyAndValue TKey TData))
    (l r : Node TKey TData) (c : Bool) (st : List (Frame TKey TData))
    (hwalk : initStackOfPreviousNodesInInsert cmp key t.head []
      = .ok (Node.mk a (kv :: tl) l r c, st))
    (heq : cmp kv.key key = 0) (hsame : c = false ∨ kv.key = key) :
    t.head = rebuild st (Node.mk a (kv :: tl) l r c) ∧
    t.tryAdd newAddr key data
      = .returned { t with
          head := rebuild st (Node.mk a (kv :: tl ++ [⟨key, data⟩]) l r c) } := by
  refine ⟨(initStackOfPreviousNodesInInsert_rebuild key _ _ _ _ hhead hwalk).symm, ?_⟩
  have h1 : ¬ cmp kv.key key < 0 := by omega
  have h2 : ¬ cmp kv.key key > 0 := by omega
  simp only [RBTree.tryAdd, RBTree.isEmpty, beq_iff_eq, hnodes, if_false,
    RBTree.throwExceptionIfThereIsNoCompare, hcmp, hwalk, bind, Except.bind,
    linkOrUnionChildWithFatherInInsert, Node.frontKey, Node.front, pure, Except.pure,
    h1, h2, Node.pushBack, List.cons_append, Node.nodeIsBlack, Node.hasTheSameKeyWith]
  rcases hsame with rfl | hk
  · simp
  · cases c <;> simp [hk]

/-- Under a strict-total-order comparator, for which the keys that compare equal are the
keys that are `==`, on a tree with the BST property, well-formed entries and nodes at distinct
addresses, `tryAdd` of a key that compares equal to a representative key of the tree returns;
the tree it leaves is the tree before the call with the new entry at the tail of the entry
sequence of the node with that key, and `numberOfNodes` is unchanged. -/
theorem tryAdd_equal_key_appends [DecidableEq TKey] (t : RBTree TKey TData) (newAddr : Nat)
    (key : TKey) (data : TData) (hcmp : t.comparatorStrategy = some cmp)
    (horder : StrictTotalOrder cmp) (hbst : t.head.Ordered cmp)
    (hentries : t.head.EntriesOk cmp) (hdistinct : t.head.Distinct)
    (hnodes : t.numberOfNodes ≠ 0) (hpresent : ∃ x ∈ t.head.keys, cmp x key = 0) :
    ∃ a kv tl l r c st, t.head = rebuild st (Node.mk a (kv :: tl) l r c) ∧
      cmp kv.key key = 0 ∧
      t.tryAdd newAddr key data
        = .returned { t with
            head := rebuild st (Node.mk a (kv :: tl ++ [⟨key, data⟩]) l r c) } := by
  have hne : t.head ≠ Node.nullptr := by
    intro h; obtain ⟨x, hx, -⟩ := hpresent; rw [h] at hx; simp [Node.keys] at hx
  have hnonempty : ∀ kvs ∈ t.head.entries, kvs ≠ [] := by
    intro kvs hk; obtain ⟨kv, rest, rfl, -⟩ := hentries kvs hk; simp
  obtain ⟨a, kv, tl, l, r, c, st', hdescent, -, -, -, -, -, -, -, hcase⟩ :=
    initStackOfPreviousNodesInInsert_spec horder key t.head [] hne hbst hnonempty hdistinct
      trivial (fun x _ f hf => by simp at hf) trivial
  rcases hcase with ⟨heq, -⟩ | ⟨-, hall⟩
  · obtain ⟨h1, h2⟩ := tryAdd_equal_key_of_walk t newAddr key data hcmp hnodes hne a kv tl l r
      c st' hdescent heq (Or.inr ((horder.eq_zero _ _).1 heq))
    exact ⟨a, kv, tl, l, r, c, st', h1, heq, h2⟩
  · obtain ⟨x, hx, hx0⟩ := hpresent
    exact absurd hx0 (hall x hx)

end DuplicateKey

/-- C17: under the comparator `compareAbsolute`, the tree `20(black)[10(red), -]` is what
`tryAdd` of `20, 10` builds from the empty tree and satisfies the invariants of §3.  The key
`-10` compares equal to the key `10` of the red node and is not `==` to it.  `tryAdd(-10, 7)`
appends the entry to that node and then goes on to the fixup with the new node: the head it
leaves is `-10(black)[10(red), 20(red)]`, where the new node is the root, node `20` has lost
its left child and has become red, and `numberOfNodes` is still `2`.  On the tree
`20(black)[10(red), 30(red)]` the same call repaints the nodes `10` and `30` black. -/
theorem tryAdd_equal_key_changes_links_and_colours :
    compareAbsolute 10 (-10) = 0 ∧ (10 : Int) ≠ -10 ∧
    (addAll (RBTree.new (some compareAbsolute)) [20, 10] 1).head = treeRedLeftAbsolute.head ∧
    treeRedLeftAbsolute.head.Ordered compareAbsolute ∧
    treeRedLeftAbsolute.head.ColourInvariants ∧
    treeRedLeftAbsolute.head.EntriesOk compareAbsolute ∧
    treeRedLeftAbsolute.tryAdd 3 (-10) 7
      = .returned
        { head := .mk 3 [⟨-10, 7⟩] (.mk 2 [⟨10, 100⟩, ⟨-10, 7⟩] .nullptr .nullptr true)
            (.mk 1 [⟨20, 200⟩] .nullptr .nullptr true) false,
          comparatorStrategy := some compareAbsolute, numberOfNodes := 2 } ∧
    (addAll (RBTree.new (some compareAbsolute)) [20, 10, 30] 1).head
      = treeTwoRedAbsolute.head ∧
    treeTwoRedAbsolute.head.ColourInvariants ∧
    treeTwoRedAbsolute.tryAdd 4 (-10) 7
      = .returned
        { head := .mk 1 [⟨20, 200⟩] (.mk 2 [⟨10, 100⟩, ⟨-10, 7⟩] .nullptr .nullptr false)
            (.mk 3 [⟨30, 300⟩] .nullptr .nullptr false) false,
          comparatorStrategy := some compareAbsolute, numberOfNodes := 3 } ∧
    treeTwoRedAbsolute.tryAdd 4 10 7
      = .returned
        { head := .mk 1 [⟨20, 200⟩] (.mk 2 [⟨10, 100⟩, ⟨10, 7⟩] .nullptr .nullptr true)
            (.mk 3 [⟨30, 300⟩] .nullptr .nullptr true) false,
          comparatorStrategy := some compareAbsolute, numberOfNodes := 3 } :=
  ⟨by decide, by decide, by decide, by decide, by decide, by decide, rfl, by decide,
    by decide, rfl, rfl⟩


/-! ## `swapNodes`, and the other keys after a removal or an insertion -/

/-- What `swapNodes` does: the first node takes the entry sequence of the second, and the
second keeps its own, because `firstKeysAndValues` is a reference to the list that the first
assignment overwrites.  Colours and child links stay. -/
theorem swapNodes_eq (a1 a2 : Nat) (k1 k2 : List (KeyAndValue TKey TData))
    (l1 r1 l2 r2 : Node TKey TData) (c1 c2 : Bool) :
    swapNodes (Node.mk a1 k1 l1 r1 c1) (Node.mk a2 k2 l2 r2 c2)
      = .ok (Node.mk a1 k2 l1 r1 c1, Node.mk a2 k2 l2 r2 c2) := by
  simp [swapNodes, Node.setKeysAndValues, Node.getKeysAndValues, bind, Except.bind, pure,
    Except.pure]

/-- C21: `swapNodes(first, second)` on the node `first` with the entries `[(20, 200)]` and the
node `second`, at another address, with the entries `[(10, 100)]` (the call that `tryPop(20)`
makes on the tree `20(black)[10(red), 30(red)]`): afterwards `first` holds `[(10, 100)]`, and
`second` holds `[(10, 100)]` too, not the entries `[(20, 200)]` that `first` had.  Colours and
child links are unchanged. -/
theorem swapNodes_leaves_second_entries_in_both_nodes :
    swapNodes
        (Node.mk 1 [(⟨20, 200⟩ : KeyAndValue Int Int)]
          (.mk 2 [⟨10, 100⟩] .nullptr .nullptr true)
          (.mk 3 [⟨30, 300⟩] .nullptr .nullptr true) false)
        (Node.mk 2 [⟨10, 100⟩] .nullptr .nullptr true)
      = .ok (Node.mk 1 [⟨10, 100⟩] (.mk 2 [⟨10, 100⟩] .nullptr .nullptr true)
              (.mk 3 [⟨30, 300⟩] .nullptr .nullptr true) false,
            Node.mk 2 [⟨10, 100⟩] .nullptr .nullptr true) ∧
    ([⟨10, 100⟩] : List (KeyAndValue Int Int)) ≠ [⟨20, 200⟩] :=
  ⟨rfl, by decide⟩

/-- C22: the tree `10(black)[5(black)[1(red), -], 12(black)]` is what `tryAdd` of
`10, 5, 12, 1` builds from the empty tree under the strict total order `difference`; it
satisfies the invariants of §3 and `find(10)` returns `[100]`.  `tryPop(12)` returns, and on
the tree it leaves `find(10)` throws `invalid_argument("No element in tree!")`, although `10`
does not compare equal to `12`. -/
theorem find_other_key_after_tryPop_throws :
    StrictTotalOrder difference ∧
    (addAll emptyWithDifference [10, 5, 12, 1] 1).head = treeRedNephewLeft.head ∧
    treeRedNephewLeft.head.Ordered difference ∧ treeRedNephewLeft.head.ColourInvariants ∧
    treeRedNephewLeft.head.EntriesOk difference ∧
    treeRedNephewLeft.numberOfNodes = treeRedNephewLeft.head.size ∧
    (12 : Int) ∈ treeRedNephewLeft.head.keys ∧ difference 10 12 ≠ 0 ∧
    treeRedNephewLeft.find 10 = .ok [100] ∧
    (treeRedNephewLeft.tryPop 12).Returned ∧
    (treeRedNephewLeft.tryPop 12).tree?.map (fun t => t.find 10)
      = some (.error (.thrown (.invalid_argument "No element in tree!"))) ∧
    ((treeRedNephewLeft.withComparator threeWay).tryPop 12).tree?.map
        (fun t => [t.find 10, t.find 5, t.find 1])
      = some [.ok [100], .ok [50], .ok [10]] :=
  ⟨difference_strictTotalOrder, by decide, by decide, by decide, by decide, by decide,
    by decide, by decide, rfl, ⟨_, rfl⟩, rfl, rfl⟩

/-- C23: the tree `6(black)[2(red), -]` is what `tryAdd` of `6, 2` builds from the empty tree
under the strict total order `difference`; it satisfies the invariants of §3 and `find(6)`
returns `[60]`.  `tryAdd(1, 10)` returns, and on the tree it leaves `find(6)` throws
`invalid_argument("No element in tree!")`, although `6` does not compare equal to `1`. -/
theorem find_other_key_after_tryAdd_throws :
    StrictTotalOrder difference ∧
    (addAll emptyWithDifference [6, 2] 1).head = treeLeftChain.head ∧
    treeLeftChain.head.Ordered difference ∧ treeLeftChain.head.ColourInvariants ∧
    treeLeftChain.head.EntriesOk difference ∧
    treeLeftChain.numberOfNodes = treeLeftChain.head.size ∧
    difference 6 1 ≠ 0 ∧
    treeLeftChain.find 6 = .ok [60] ∧
    (treeLeftChain.tryAdd 3 1 10).Returned ∧
    (treeLeftChain.tryAdd 3 1 10).tree?.map (fun t => t.find 6)
      = some (.error (.thrown (.invalid_argument "No element in tree!"))) ∧
    ((treeLeftChain.withComparator threeWay).tryAdd 3 1 10).tree?.map
        (fun t => [t.find 6, t.find 2, t.find 1])
      = some [.ok [60], .ok [20], .ok [10]] :=
  ⟨difference_strictTotalOrder, by decide, by decide, by decide, by decide, by decide,
    by decide, rfl, ⟨_, rfl⟩, rfl, rfl⟩

/-! ## Removal of a key that is in the tree returns -/

section RemovalReturns

variable {cmp : TKey → TKey → Int}

theorem Node.blackHeight_mem_blackCounts :
    ∀ n : Node TKey TData, n.blackHeight ∈ n.blackCounts
  | .nullptr => by simp [Node.blackHeight, Node.blackCounts]
  | .mk _ _ l r c => by
    simp only [Node.blackHeight, Node.blackCounts, List.mem_map, List.mem_append]
    exact ⟨l.blackHeight, Or.inl (Node.blackHeight_mem_blackCounts l), rfl⟩

theorem Node.UniformBlackHeight.balanced :
    ∀ {n : Node TKey TData}, n.UniformBlackHeight → n.Balanced
  | .nullptr, _ => trivial
  | .mk _ _ l r c, h => by
    have hsub : ∀ m ∈ l.blackCounts ++ r.blackCounts, ∀ k ∈ l.blackCounts ++ r.blackCounts,
        m = k := by
      intro m hm k hk
      have := h (m + if c then 0 else 1)
        (by simp only [Node.blackCounts, List.mem_map]; exact ⟨m, hm, rfl⟩)
        (k + if c then 0 else 1)
        (by simp only [Node.blackCounts, List.mem_map]; exact ⟨k, hk, rfl⟩)
      omega
    have hl : l.UniformBlackHeight := fun m hm k hk =>
      hsub m (List.mem_append_left _ hm) k (List.mem_append_left _ hk)
    have hr : r.UniformBlackHeight := fun m hm k hk =>
      hsub m (List.mem_append_right _ hm) k (List.mem_append_right _ hk)
    exact ⟨⟨hsub _ (List.mem_append_left _ (Node.blackHeight_mem_blackCounts l)) _
      (List.mem_append_right _ (Node.blackHeight_mem_blackCounts r)), hl.balanced⟩, hr.balanced⟩

theorem FrameOk.weaken {b b' : Nat} {f : Frame TKey TData} (h : FrameOk cmp b f) (hb : b' ≤ b) :
    FrameOk cmp b' f :=
  ⟨h.1, h.2.1, h.2.2.1, h.2.2.2.1, h.2.2.2.2.1, le_trans hb h.2.2.2.2.2⟩

theorem Node.Ordered.root_keys {a : Nat} {kv : KeyAndValue TKey TData}
    {tl : List (KeyAndValue TKey TData)} {l r : Node TKey TData} {c : Bool}
    (h : (Node.mk a (kv :: tl) l r c).Ordered cmp) :
    (∀ x ∈ l.keys, cmp x kv.key < 0) ∧ (∀ x ∈ r.keys, cmp x kv.key > 0) :=
  h.1.1 kv.key (by simp)

/-- One step of a walk to the right child. -/
theorem WalkOk.stepRight (hcmp : StrictTotalOrder cmp) {a : Nat} {kvs : List (KeyAndValue TKey TData)}
    {l r : Node TKey TData} {c : Bool} {st : List (Frame TKey TData)}
    (h : WalkOk cmp (Node.mk a kvs l r c) st) (hr : r ≠ Node.nullptr) :
    WalkOk cmp r
      ({ addr := a, keysAndValues := kvs, isRed := c, wentRight := true, other := l } :: st) := by
  obtain ⟨hord, hent, hdist, hbal, hst, hkeys, hpp⟩ := h
  obtain ⟨kv, tl, rfl, -⟩ := hent.ofRoot
  have hroot := hord.root_keys
  have hle : r.blackHeight ≤ (Node.mk a (kv :: tl) l r c).blackHeight := by
    have := hbal.1.1
    simp only [Node.blackHeight]; omega
  refine ⟨hord.2, hent.ofRight, hdist.right, hbal.2, ?_, ?_, hdist.left_ne_right hr, hpp⟩
  · intro f hf
    rcases List.mem_cons.1 hf with rfl | hf
    · exact ⟨⟨kv, tl, rfl, fun x hx => by
          simpa using (hcmp.antisymm _ _).1 (hroot.1 x hx)⟩,
        hord.1.2, hent.ofLeft, hdist.left, hbal.1.2, le_of_eq hbal.1.1.symm⟩
    · exact (hst f hf).weaken hle
  · intro x hx
    refine KeyBelow.cons ⟨kv, tl, rfl, ?_⟩ (hkeys x (by simp [Node.keys, hx]))
    simpa using (hcmp.antisymm _ _).2 (hroot.2 x hx)

/-- One step of a walk to the left child. -/
theorem WalkOk.stepLeft (hcmp : StrictTotalOrder cmp) {a : Nat} {kvs : List (KeyAndValue TKey TData)}
    {l r : Node TKey TData} {c : Bool} {st : List (Frame TKey TData)}
    (h : WalkOk cmp (Node.mk a kvs l r c) st) (hl : l ≠ Node.nullptr) :
    WalkOk cmp l
      ({ addr := a, keysAndValues := kvs, isRed := c, wentRight := false, other := r } :: st) := by
  obtain ⟨hord, hent, hdist, hbal, hst, hkeys, hpp⟩ := h
  obtain ⟨kv, tl, rfl, -⟩ := hent.ofRoot
  have hroot := hord.root_keys
  have hle : l.blackHeight ≤ (Node.mk a (kv :: tl) l r c).blackHeight := by
    simp only [Node.blackHeight]; omega
  refine ⟨hord.1.2, hent.ofLeft, hdist.left, hbal.1.2, ?_, ?_, hdist.right_ne_left hl, hpp⟩
  · intro f hf
    rcases List.mem_cons.1 hf with rfl | hf
    · exact ⟨⟨kv, tl, rfl, fun x hx => by
          simpa using (hcmp.antisymm _ _).2 (hroot.2 x hx)⟩,
        hord.2, hent.ofRight, hdist.right, hbal.2, le_of_eq hbal.1.1⟩
    · exact (hst f hf).weaken hle
  · intro x hx
    refine KeyBelow.cons ⟨kv, tl, rfl, ?_⟩ (hkeys x (by simp [Node.keys, hx]))
    simpa using (hcmp.antisymm _ _).1 (hroot.1 x hx)

end RemovalReturns

section RemovalWalk

variable {cmp : TKey → TKey → Int}

theorem Node.ne_nullptr_of_mem_keys {n : Node TKey TData} {x : TKey} (h : x ∈ n.keys) :
    n ≠ Node.nullptr := by
  rintro rfl; simp [Node.keys] at h

/-- The walk of a removal reaches the node of a key that is in the tree. -/
theorem initStackOfPreviousNodesInDeletionOrThrowException_returns
    (hcmp : StrictTotalOrder cmp) (k : TKey) :
    ∀ (n : Node TKey TData) (st : List (Frame TKey TData)), WalkOk cmp n st → k ∈ n.keys →
      ∃ a kv tl l r c pushed,
        initStackOfPreviousNodesInDeletionOrThrowException cmp k n st
          = .ok (Node.mk a (kv :: tl) l r c, pushed ++ st) ∧
        WalkOk cmp (Node.mk a (kv :: tl) l r c) (pushed ++ st) ∧
        (pushed = [] → Node.mk a (kv :: tl) l r c = n) := by
  intro n
  induction n with
  | nullptr => intro st _ hk; simp [Node.keys] at hk
  | mk a kvs l r c ihl ihr =>
    intro st hw hk
    obtain ⟨kv, tl, rfl, -⟩ := hw.2.1.ofRoot
    have hroot := hw.1.root_keys
    simp only [Node.keys, List.head?_cons, Option.map_some', Option.toList_some,
      List.singleton_append, List.mem_cons, List.mem_append] at hk
    simp only [initStackOfPreviousNodesInDeletionOrThrowException, Node.frontKey, bind,
      Except.bind]
    by_cases h1 : cmp kv.key k < 0
    · have hkr : k ∈ r.keys := by
        rcases hk with rfl | hk | hk
        · have := hcmp.refl kv.key; omega
        · have := (hcmp.antisymm _ _).1 (hroot.1 k hk); omega
        · exact hk
      obtain ⟨a', kv', tl', l', r', c', pushed, h, hw', -⟩ :=
        ihr _ (hw.stepRight hcmp (Node.ne_nullptr_of_mem_keys hkr)) hkr
      simp only [h1, if_true]
      refine ⟨a', kv', tl', l', r', c',
        pushed ++ [(⟨a, kv :: tl, c, true, l⟩ : Frame TKey TData)], ?_, ?_, by simp⟩
      · rw [h]; simp
      · simpa using hw'
    · by_cases h2 : cmp kv.key k > 0
      · have hkl : k ∈ l.keys := by
          rcases hk with rfl | hk | hk
          · have := hcmp.refl kv.key; omega
          · exact hk
          · have := (hcmp.antisymm _ _).2 (hroot.2 k hk); omega
        obtain ⟨a', kv', tl', l', r', c', pushed, h, hw', -⟩ :=
          ihl _ (hw.stepLeft hcmp (Node.ne_nullptr_of_mem_keys hkl)) hkl
        simp only [h1, h2, if_true, if_false]
        refine ⟨a', kv', tl', l', r', c',
          pushed ++ [(⟨a, kv :: tl, c, false, r⟩ : Frame TKey TData)], ?_, ?_, by simp⟩
        · rw [h]; simp
        · simpa using hw'
      · simp only [h1, h2, if_false]
        exact ⟨a, kv, tl, l, r, c, [], rfl, hw, fun _ => rfl⟩

/-- The walk to the greatest node of a subtree returns. -/
theorem walkRight_returns (hcmp : StrictTotalOrder cmp) :
    ∀ (n : Node TKey TData) (st : List (Frame TKey TData)), n ≠ Node.nullptr →
      WalkOk cmp n st →
      ∃ a kv tl l c pushed,
        walkRight n st = .ok (Node.mk a (kv :: tl) l Node.nullptr c, pushed ++ st) ∧
        WalkOk cmp (Node.mk a (kv :: tl) l Node.nullptr c) (pushed ++ st) := by
  intro n
  induction n with
  | nullptr => intro st h; exact absurd rfl h
  | mk a kvs l r c _ ihr =>
    intro st _ hw
    obtain ⟨kv, tl, rfl, -⟩ := hw.2.1.ofRoot
    cases r with
    | nullptr => exact ⟨a, kv, tl, l, c, [], rfl, hw⟩
    | mk ra rkvs rl rr rc =>
      obtain ⟨a', kv', tl', l', c', pushed, h, hw'⟩ :=
        ihr _ (by simp) (hw.stepRight hcmp (by simp))
      refine ⟨a', kv', tl', l', c',
        pushed ++ [(⟨a, kv :: tl, c, true, l⟩ : Frame TKey TData)], ?_, ?_⟩
      · simp only [walkRight]; rw [h]; simp
      · simpa using hw'

/-- The walk to the greatest node does not look at the stack it is given. -/
theorem walkRight_append :
    ∀ (n : Node TKey TData) (st0 st : List (Frame TKey TData)) (top : Node TKey TData)
      (res : List (Frame TKey TData)),
      walkRight n st0 = .ok (top, res) → walkRight n (st0 ++ st) = .ok (top, res ++ st) := by
  intro n
  induction n with
  | nullptr => intro st0 st top res h; simp [walkRight] at h
  | mk a kvs l r c _ ihr =>
    intro st0 st top res h
    cases r with
    | nullptr =>
      simp only [walkRight, pure, Except.pure, Except.ok.injEq, Prod.mk.injEq] at h
      obtain ⟨rfl, rfl⟩ := h
      rfl
    | mk ra rkvs rl rr rc =>
      simp only [walkRight] at h ⊢
      exact ihr _ st top res h

end RemovalWalk

section RemovalTurns

variable {cmp : TKey → TKey → Int}

@[simp] theorem Node.ptr_setColorAt (p : Ptr) (red : Bool) (n : Node TKey TData) :
    (n.setColorAt p red).ptr = n.ptr := by
  cases n <;> rfl

theorem Node.mem_keys_left {a : Nat} {kvs : List (KeyAndValue TKey TData)}
    {l r : Node TKey TData} {c : Bool} {x : TKey} (h : x ∈ l.keys) :
    x ∈ (Node.mk a kvs l r c).keys := by
  simp [Node.keys, h]

theorem Node.mem_keys_right {a : Nat} {kvs : List (KeyAndValue TKey TData)}
    {l r : Node TKey TData} {c : Bool} {x : TKey} (h : x ∈ r.keys) :
    x ∈ (Node.mk a kvs l r c).keys := by
  simp [Node.keys, h]

theorem Node.mem_keys_root {a : Nat} {kv : KeyAndValue TKey TData}
    {tl : List (KeyAndValue TKey TData)} {l r : Node TKey TData} {c : Bool} :
    kv.key ∈ (Node.mk a (kv :: tl) l r c).keys := by
  simp [Node.keys]

/-- The facts about a stack entry and the brother that hangs off it which the turns of the
fixup use. -/
theorem FrameOk.brother {b : Nat} {f : Frame TKey TData} (h : FrameOk cmp b f) (hb : 1 ≤ b) :
    ∃ fkv ftl ba bkv btl bl br bc, f.keysAndValues = fkv :: ftl ∧
      f.other = Node.mk ba (bkv :: btl) bl br bc ∧
      (bc = true → bl ≠ Node.nullptr ∧ br ≠ Node.nullptr) := by
  obtain ⟨⟨fkv, ftl, hk, -⟩, -, hent, -, hbal, hbh⟩ := h
  cases ho : f.other with
  | nullptr => rw [ho] at hbh; simp [Node.blackHeight] at hbh; omega
  | mk ba bkvs bl br bc =>
    rw [ho] at hent hbal hbh
    obtain ⟨bkv, btl, rfl, -⟩ := hent.ofRoot
    refine ⟨fkv, ftl, ba, bkv, btl, bl, br, bc, hk, rfl, ?_⟩
    rintro rfl
    have h1 := hbal.1.1
    simp only [Node.blackHeight, if_true, Nat.add_zero] at hbh
    constructor
    · rintro rfl; simp [Node.blackHeight] at hbh; omega
    · rintro rfl; simp [Node.blackHeight] at h1; omega

/-- The turn that the fixup of a removal makes around the father `f.fill child` with a nephew
`nephew`, a child of the brother, and the hanging of the turned subtree both return. -/
theorem removalTurn_returns (hcmp : StrictTotalOrder cmp) (f : Frame TKey TData)
    (child : Node TKey TData) (rest : List (Frame TKey TData))
    {fkv : KeyAndValue TKey TData} {ftl : List (KeyAndValue TKey TData)}
    {ba : Nat} {bkv : KeyAndValue TKey TData} {btl : List (KeyAndValue TKey TData)}
    {bl br : Node TKey TData} {bc : Bool} {nephew : Node TKey TData}
    (hk : f.keysAndValues = fkv :: ftl)
    (hside : ∀ x ∈ f.other.keys, if f.wentRight then cmp fkv.key x > 0 else cmp fkv.key x < 0)
    (hB : f.other = Node.mk ba (bkv :: btl) bl br bc)
    (hord : f.other.Ordered cmp) (hent : f.other.EntriesOk cmp) (hdist : f.other.Distinct)
    (hN : nephew = bl ∨ nephew = br) (hNn : nephew ≠ Node.nullptr)
    (hchild : child.ptr ≠ Ptr.heap ba)
    (hrest : ∀ g ∈ rest, g.keysAndValues ≠ []) :
    ∃ b, needToMakeSingleTurn cmp (f.fill child) nephew = .ok b ∧
      (b = true → ∃ bn fn head, makeSingleTurn cmp (f.fill child) nephew = .ok (bn, fn) ∧
        hangNodesAfterTurnStack cmp (Node.reread f.other bn) fn rest = .ok head) ∧
      (b = false → ∃ nn x fn head, makeDoubleTurn cmp (f.fill child) nephew = .ok (nn, x, fn) ∧
        hangNodesAfterTurnStack cmp nn fn rest = .ok head) := by
  obtain ⟨fa, fkvs, fc, fw, fo⟩ := f
  simp only at hk hside hB hord hent hdist
  subst hk hB
  have hroot := hord.root_keys
  have hang := fun (n o : Node TKey TData)
      (hn : ∃ a kv tl l r c, n = Node.mk a (kv :: tl) l r c) =>
    hangNodesAfterTurnStack_ok cmp n o rest hn hrest
  have hfb := hside bkv.key Node.mem_keys_root
  rcases hN with rfl | rfl
  · -- the nephew is the left child of the brother
    cases hn : nephew with
    | nullptr => exact absurd hn hNn
    | mk na nkvs nl nr nc =>
      subst hn
      obtain ⟨nkv, ntl, rfl, -⟩ := hent.ofLeft.ofRoot
      have hfn := hside nkv.key (Node.mem_keys_left Node.mem_keys_root)
      have hnb := hroot.1 nkv.key Node.mem_keys_root
      have hbn := (hcmp.antisymm _ _).1 hnb
      have hrl : br.ptr ≠ Ptr.heap na := hdist.right_ne_left (by simp)
      cases fw <;> simp only [Bool.false_eq_true, if_false, if_true] at hside hfb hfn <;>
        simp only [Frame.fill, Bool.false_eq_true, if_false, if_true]
      · -- right, left
        rw [needToMakeSingleTurn_of_lt hfn]
        have he : ¬ cmp fkv.key bkv.key = cmp bkv.key nkv.key := by omega
        refine ⟨_, rfl, ?_, ?_⟩
        · intro h; simp [he] at h
        · intro _
          rw [makeDoubleTurn_right_left hfn hchild]
          obtain ⟨head, hh⟩ := hang (Node.mk na (nkv :: ntl)
            (Node.mk fa (fkv :: ftl) child nl fc) (Node.mk ba (bkv :: btl) nr br bc) nc)
            (Node.mk fa (fkv :: ftl) child nl fc) ⟨_, _, _, _, _, _, rfl⟩
          exact ⟨_, _, _, head, rfl, hh⟩
      · -- left, left
        have hlt : ¬ cmp fkv.key nkv.key < 0 := by omega
        rw [needToMakeSingleTurn_of_not_lt hlt]
        refine ⟨_, rfl, ?_, ?_⟩
        · intro _
          rw [makeSingleTurn_left_left hlt hrl hchild]
          obtain ⟨head, hh⟩ := hang (Node.mk ba (bkv :: btl) (Node.mk na (nkv :: ntl) nl nr nc)
            (Node.mk fa (fkv :: ftl) br child fc) bc)
            (Node.mk fa (fkv :: ftl) br child fc) ⟨_, _, _, _, _, _, rfl⟩
          exact ⟨_, _, head, rfl, by simpa [Node.reread] using hh⟩
        · intro _
          rw [makeDoubleTurn_left_left hlt]
          obtain ⟨head, hh⟩ := hang (Node.mk na (nkv :: ntl)
            (Node.mk fa (fkv :: ftl) (Node.mk ba (bkv :: btl) nr br bc) nl fc)
            (Node.mk ba (bkv :: btl) nr br bc) nc)
            (Node.mk fa (fkv :: ftl) (Node.mk ba (bkv :: btl) nr br bc) nl fc)
            ⟨_, _, _, _, _, _, rfl⟩
          exact ⟨_, _, _, head, rfl, hh⟩
  · -- the nephew is the right child of the brother
    cases hn : nephew with
    | nullptr => exact absurd hn hNn
    | mk na nkvs nl nr nc =>
      subst hn
      obtain ⟨nkv, ntl, rfl, -⟩ := hent.ofRight.ofRoot
      have hfn := hside nkv.key (Node.mem_keys_right Node.mem_keys_root)
      have hnb := hroot.2 nkv.key Node.mem_keys_root
      have hbn := (hcmp.antisymm _ _).2 hnb
      have hlr : bl.ptr ≠ Ptr.heap na := hdist.left_ne_right (by simp)
      cases fw <;> simp only [Bool.false_eq_true, if_false, if_true] at hside hfb hfn <;>
        simp only [Frame.fill, Bool.false_eq_true, if_false, if_true]
      · -- right, right
        rw [needToMakeSingleTurn_of_lt hfn]
        refine ⟨_, rfl, ?_, ?_⟩
        · intro _
          rw [makeSingleTurn_right_right hfn hchild]
          obtain ⟨head, hh⟩ := hang (Node.mk ba (bkv :: btl)
            (Node.mk fa (fkv :: ftl) child bl fc) (Node.mk na (nkv :: ntl) nl nr nc) bc)
            (Node.mk fa (fkv :: ftl) child bl fc) ⟨_, _, _, _, _, _, rfl⟩
          exact ⟨_, _, head, rfl, by simpa [Node.reread] using hh⟩
        · intro _
          rw [makeDoubleTurn_right_right hfn hlr]
          obtain ⟨head, hh⟩ := hang (Node.mk na (nkv :: ntl)
            (Node.mk ba (bkv :: btl) bl nl bc)
            (Node.mk fa (fkv :: ftl) nr (Node.mk ba (bkv :: btl) bl nl bc) fc) nc)
            (Node.mk fa (fkv :: ftl) nr (Node.mk ba (bkv :: btl) bl nl bc) fc)
            ⟨_, _, _, _, _, _, rfl⟩
          exact ⟨_, _, _, head, rfl, hh⟩
      · -- left, right
        have hlt : ¬ cmp fkv.key nkv.key < 0 := by omega
        rw [needToMakeSingleTurn_of_not_lt hlt]
        have he : ¬ cmp fkv.key bkv.key = cmp bkv.key nkv.key := by omega
        refine ⟨_, rfl, ?_, ?_⟩
        · intro h; simp [he] at h
        · intro _
          rw [makeDoubleTurn_left_right hlt hlr hchild]
          obtain ⟨head, hh⟩ := hang (Node.mk na (nkv :: ntl)
            (Node.mk ba (bkv :: btl) bl nl bc) (Node.mk fa (fkv :: ftl) nr child fc) nc)
            (Node.mk fa (fkv :: ftl) nr child fc) ⟨_, _, _, _, _, _, rfl⟩
          exact ⟨_, _, _, head, rfl, hh⟩

end RemovalTurns

section RemovalFixup

variable {cmp : TKey → TKey → Int}

theorem Node.returnRedChildOrNullptr_mk (a : Nat) (kvs : List (KeyAndValue TKey TData))
    (l r : Node TKey TData) (c : Bool) :
    ∃ n, (Node.mk a kvs l r c).returnRedChildOrNullptr = .ok n ∧
      (n = Node.nullptr ∨ ((n = l ∨ n = r) ∧ n ≠ Node.nullptr)) := by
  rcases l with _ | ⟨la, lk, ll, lr, _ | _⟩ <;> rcases r with _ | ⟨ra, rk, rl, rr, _ | _⟩ <;>
    simp [Node.returnRedChildOrNullptr]

theorem turnAndHang_returns (hcmp : StrictTotalOrder cmp) (f : Frame TKey TData)
    (child : Node TKey TData) (rest : List (Frame TKey TData))
    {fkv : KeyAndValue TKey TData} {ftl : List (KeyAndValue TKey TData)}
    {ba : Nat} {bkv : KeyAndValue TKey TData} {btl : List (KeyAndValue TKey TData)}
    {bl br : Node TKey TData} {bc : Bool} {nephew : Node TKey TData}
    (hk : f.keysAndValues = fkv :: ftl)
    (hside : ∀ x ∈ f.other.keys, if f.wentRight then cmp fkv.key x > 0 else cmp fkv.key x < 0)
    (hB : f.other = Node.mk ba (bkv :: btl) bl br bc)
    (hord : f.other.Ordered cmp) (hent : f.other.EntriesOk cmp) (hdist : f.other.Distinct)
    (hN : nephew = bl ∨ nephew = br) (hNn : nephew ≠ Node.nullptr)
    (hchild : child.ptr ≠ Ptr.heap ba)
    (hrest : ∀ g ∈ rest, g.keysAndValues ≠ []) :
    ∃ head, turnAndHang cmp (f.fill child) f.other nephew rest = .ok head := by
  obtain ⟨b, hb, h1, h2⟩ :=
    removalTurn_returns hcmp f child rest hk hside hB hord hent hdist hN hNn hchild hrest
  cases b with
  | true =>
    obtain ⟨bn, fn, head, ht, hh⟩ := h1 rfl
    exact ⟨head, by simp only [turnAndHang, hb, ht, hh, bind, Except.bind, if_true]⟩
  | false =>
    obtain ⟨nn, x, fn, head, ht, hh⟩ := h2 rfl
    exact ⟨head, by
      simp only [turnAndHang, hb, ht, hh, bind, Except.bind, Bool.false_eq_true, if_false]⟩

theorem deleteFatherRed_returns (hcmp : StrictTotalOrder cmp) (f : Frame TKey TData)
    (child : Node TKey TData) (rest : List (Frame TKey TData))
    {fkv : KeyAndValue TKey TData} {ftl : List (KeyAndValue TKey TData)}
    {ba : Nat} {bkv : KeyAndValue TKey TData} {btl : List (KeyAndValue TKey TData)}
    {bl br : Node TKey TData} {bc : Bool} {redNephew : Node TKey TData}
    (hk : f.keysAndValues = fkv :: ftl)
    (hside : ∀ x ∈ f.other.keys, if f.wentRight then cmp fkv.key x > 0 else cmp fkv.key x < 0)
    (hB : f.other = Node.mk ba (bkv :: btl) bl br bc)
    (hord : f.other.Ordered cmp) (hent : f.other.EntriesOk cmp) (hdist : f.other.Distinct)
    (hN : redNephew = Node.nullptr ∨ ((redNephew = bl ∨ redNephew = br) ∧
      redNephew ≠ Node.nullptr))
    (hchild : child.ptr ≠ Ptr.heap ba)
    (hrest : ∀ g ∈ rest, g.keysAndValues ≠ []) :
    ∃ head, deleteFatherRed cmp (f.fill child) f.other redNephew rest = .ok head := by
  rcases hN with rfl | ⟨hN, hNn⟩
  · exact ⟨_, by simp only [deleteFatherRed, Node.isNull, Bool.not_true, Bool.false_eq_true,
      if_false]; rfl⟩
  · obtain ⟨b, hb, h1, h2⟩ :=
      removalTurn_returns hcmp f child rest hk hside hB hord hent hdist hN hNn hchild hrest
    have hnull : redNephew.isNull = false := by
      cases redNephew with
      | nullptr => exact absurd rfl hNn
      | mk _ _ _ _ _ => rfl
    cases b with
    | true =>
      obtain ⟨bn, fn, head, ht, hh⟩ := h1 rfl
      exact ⟨_, by
        simp only [deleteFatherRed, hnull, hb, ht, hh, bind, Except.bind, if_true,
          Bool.not_false]; rfl⟩
    | false =>
      obtain ⟨nn, x, fn, head, ht, hh⟩ := h2 rfl
      exact ⟨_, by
        simp only [deleteFatherRed, hnull, hb, ht, hh, bind, Except.bind, Bool.false_eq_true,
          if_false, if_true, Bool.not_false]; rfl⟩

end RemovalFixup

section RemovalBrotherRed

variable {cmp : TKey → TKey → Int}

theorem Node.redGrandsonExists_returns {a : Nat} {kvs : List (KeyAndValue TKey TData)}
    {l r : Node TKey TData} {c : Bool} (hl : l ≠ Node.nullptr) (hr : r ≠ Node.nullptr) :
    ∃ b, (Node.mk a kvs l r c).redGrandsonExists = .ok b := by
  cases l with
  | nullptr => exact absurd rfl hl
  | mk la lk ll lr lc =>
    cases r with
    | nullptr => exact absurd rfl hr
    | mk ra rk rl rr rc =>
      obtain ⟨n, hn, -⟩ := Node.returnRedChildOrNullptr_mk ra rk rl rr rc
      obtain ⟨m, hm, -⟩ := Node.returnRedChildOrNullptr_mk la lk ll lr lc
      simp only [Node.redGrandsonExists, hn, hm, bind, Except.bind, pure, Except.pure]
      split <;> exact ⟨_, rfl⟩

theorem Node.returnAnotherChild_mk (a : Nat) (kvs : List (KeyAndValue TKey TData))
    (l r : Node TKey TData) (c : Bool) (p : Ptr) :
    ∃ n, (Node.mk a kvs l r c).returnAnotherChild p = .ok n ∧ (n = l ∨ n = r) := by
  simp only [Node.returnAnotherChild]
  split_ifs <;> simp

theorem makeDoubleTurn_returns {ga fa sa : Nat} {gkvs fkvs skvs : List (KeyAndValue TKey TData)}
    {gl gr fl fr sl sr : Node TKey TData} {gc fc sc : Bool}
    (hF : returnFather cmp (Node.mk ga gkvs gl gr gc) (Node.mk sa skvs sl sr sc)
      = .ok (Node.mk fa fkvs fl fr fc)) :
    ∃ l r x y, makeDoubleTurn cmp (Node.mk ga gkvs gl gr gc) (Node.mk sa skvs sl sr sc)
      = .ok (Node.mk sa skvs l r sc, x, y) := by
  simp only [makeDoubleTurn, hF, bind, Except.bind, pure, Except.pure]
  split_ifs <;> exact ⟨_, _, _, _, rfl⟩

theorem hangNodesAfterTurn_returns (cmp : TKey → TKey → Int)
    {na pa : Nat} {nkv pkv : KeyAndValue TKey TData} {ntl ptl : List (KeyAndValue TKey TData)}
    {nl nr pl pr : Node TKey TData} {nc pc : Bool} :
    ∃ l r, hangNodesAfterTurn cmp (Node.mk na (nkv :: ntl) nl nr nc)
      (Node.mk pa (pkv :: ptl) pl pr pc) = .ok (Node.mk pa (pkv :: ptl) l r pc) := by
  have hlast : ∃ e, (nkv :: ntl).getLast? = some e := by
    cases h : (nkv :: ntl).getLast? with
    | none => simp at h
    | some e => exact ⟨e, rfl⟩
  obtain ⟨e, he⟩ := hlast
  simp only [hangNodesAfterTurn, Node.frontKey, Node.backKey, he, bind, Except.bind,
    Node.setRightPtr, Node.setLeftPtr]
  split_ifs <;> exact ⟨_, _, rfl⟩

theorem Node.isRedNode_eq_true {n : Node TKey TData} (h : n.isRedNode = true) :
    ∃ a kvs l r, n = Node.mk a kvs l r true := by
  cases n with
  | nullptr => simp [Node.isRedNode] at h
  | mk a kvs l r c => simp only [Node.isRedNode] at h; subst h; exact ⟨_, _, _, _, rfl⟩

end RemovalBrotherRed

section RemovalBrotherRedMain

variable {cmp : TKey → TKey → Int}

theorem deleteBrotherRed_returns (hcmp : StrictTotalOrder cmp) (f : Frame TKey TData)
    (child : Node TKey TData) (rest : List (Frame TKey TData))
    {fkv : KeyAndValue TKey TData} {ftl : List (KeyAndValue TKey TData)}
    {ba : Nat} {bkv : KeyAndValue TKey TData} {btl : List (KeyAndValue TKey TData)}
    {bl br : Node TKey TData} {bc : Bool}
    (hk : f.keysAndValues = fkv :: ftl)
    (hside : ∀ x ∈ f.other.keys, if f.wentRight then cmp fkv.key x > 0 else cmp fkv.key x < 0)
    (hB : f.other = Node.mk ba (bkv :: btl) bl br bc)
    (hord : f.other.Ordered cmp) (hent : f.other.EntriesOk cmp) (hdist : f.other.Distinct)
    (hbl : bl ≠ Node.nullptr) (hbr : br ≠ Node.nullptr)
    (hchild : child.ptr ≠ Ptr.heap ba)
    (hrest : ∀ g ∈ rest, g.keysAndValues ≠ []) :
    ∃ head, deleteBrotherRed cmp (f.fill child) f.other rest = .ok head := by
  have hb : ∃ b, (Node.mk ba (bkv :: btl) bl br bc).redGrandsonExists = .ok b :=
    Node.redGrandsonExists_returns hbl hbr
  obtain ⟨b, hb⟩ := hb
  cases b with
  | false =>
    obtain ⟨head, hh⟩ := turnAndHang_returns hcmp f child rest hk hside hB hord hent hdist
      (Or.inl rfl) hbl hchild hrest
    rw [hB] at hh ⊢
    cases br with
    | nullptr => exact absurd rfl hbr
    | mk ra rkvs rl rr rc =>
      exact ⟨_, by
        simp only [deleteBrotherRed, hb, hh, bind, Except.bind, Bool.false_eq_true, if_false,
          Node.getLeftPtr, Node.getRightPtr, Node.makeRed]; rfl⟩
  | true =>
    obtain ⟨fa, fkvs, fc, fw, fo⟩ := f
    simp only at hk hside hB hord hent hdist
    subst hk hB
    have hroot := hord.root_keys
    have hang := fun (n o : Node TKey TData)
        (hn : ∃ a kv tl l r c, n = Node.mk a (kv :: tl) l r c) =>
      hangNodesAfterTurnStack_ok cmp n o rest hn hrest
    have hfb := hside bkv.key Node.mem_keys_root
    cases bl with
    | nullptr => exact absurd rfl hbl
    | mk la lkvs ll lr lc =>
    cases br with
    | nullptr => exact absurd rfl hbr
    | mk ra rkvs rl rr rc =>
    obtain ⟨lkv, ltl, rfl, -⟩ := hent.ofLeft.ofRoot
    obtain ⟨rkv, rtl, rfl, -⟩ := hent.ofRight.ofRoot
    have hlr : Ptr.heap la ≠ Ptr.heap ra := hdist.left_ne_right (by simp)
    have hfl := hside lkv.key (Node.mem_keys_left Node.mem_keys_root)
    have hfr := hside rkv.key (Node.mem_keys_right Node.mem_keys_root)
    simp only [deleteBrotherRed, hb, bind, Except.bind, if_true]
    cases fw <;> simp only [Bool.false_eq_true, if_false, if_true] at hside hfb hfl hfr <;>
      simp only [Frame.fill, Bool.false_eq_true, if_false, if_true]
    · -- the brother is the right child
      have hng : ¬ cmp fkv.key bkv.key > 0 := by omega
      simp only [Node.returnGrandsonByZigzag, Node.returnSonByZigzag, Node.frontKey,
        Node.getLeftPtr, Node.getRightPtr, bind, Except.bind, hng, if_false]
      cases hzr : lr.isRedNode with
      | true =>
        obtain ⟨ga, gkvs, gl, gr, rfl⟩ := Node.isRedNode_eq_true hzr
        obtain ⟨gkv, gtl, rfl, -⟩ := hent.ofLeft.ofRight.ofRoot
        have hgb : ¬ cmp bkv.key gkv.key < 0 := by
          have := (hcmp.antisymm _ _).1
            (hroot.1 gkv.key (Node.mem_keys_right Node.mem_keys_root))
          omega
        simp only [if_true, Node.returnSon, Node.frontKey, Node.getLeftPtr, bind, Except.bind,
          hgb, if_false, makeDoubleTurn_right_left hfl hchild]
        split
        · rename_i heq
          obtain ⟨h, hh⟩ := hang _ _ ⟨_, _, _, _, _, _, rfl⟩
          rw [hh] at heq
          cases heq
        · exact ⟨_, rfl⟩
      | false =>
        simp only [Bool.false_eq_true, if_false]
        obtain ⟨g2, hg2, hg2c⟩ := Node.returnAnotherChild_mk la (lkv :: ltl) ll lr lc lr.ptr
        simp only [hg2]
        cases hg2r : g2.isRedNode with
        | true =>
          obtain ⟨ga, gkvs, gl, gr, rfl⟩ := Node.isRedNode_eq_true hg2r
          have hgk : ∃ gkv gtl, gkvs = gkv :: gtl ∧ cmp fkv.key gkv.key < 0 := by
            rcases hg2c with h | h
            · subst h
              obtain ⟨gkv, gtl, rfl, -⟩ := hent.ofLeft.ofLeft.ofRoot
              exact ⟨gkv, gtl, rfl,
                hside _ (Node.mem_keys_left (Node.mem_keys_left Node.mem_keys_root))⟩
            · subst h
              obtain ⟨gkv, gtl, rfl, -⟩ := hent.ofLeft.ofRight.ofRoot
              exact ⟨gkv, gtl, rfl,
                hside _ (Node.mem_keys_left (Node.mem_keys_right Node.mem_keys_root))⟩
          obtain ⟨gkv, gtl, rfl, hfg⟩ := hgk
          have hd : ∃ l1 r1 x y, makeDoubleTurn cmp
              (Node.mk fa (fkv :: ftl) child (Node.mk la (lkv :: ltl) ll lr lc) fc)
              (Node.mk ga (gkv :: gtl) gl gr true)
                = .ok (Node.mk ga (gkv :: gtl) l1 r1 true, x, y) :=
            makeDoubleTurn_returns (returnFather_of_lt hfg)
          obtain ⟨l1, r1, x, y, hd⟩ := hd
          simp only [if_true, Node.returnAnotherChild, Node.ptr_mk,
            makeSingleTurn_right_right hfr hchild, hd, Node.reread, Node.setColorAt,
            Node.rereadChildren]
          obtain ⟨l2, r2, hh⟩ := hangNodesAfterTurn_returns cmp
          rw [hh]
          exact hang _ _ ⟨_, _, _, _, _, _, rfl⟩
        | false =>
          have hfr' : cmp fkv.key rkv.key < 0 := hfr
          simp only [Bool.false_eq_true, if_false, Node.setColorAt, Node.returnAnotherChild,
            Node.ptr_mk, Node.ptr_setColorAt, if_true]
          rw [makeSingleTurn_right_right hfr' (by simpa using hchild)]
          simp only [Node.reread, Node.ptr_mk, if_true]
          exact hang _ _ ⟨_, _, _, _, _, _, rfl⟩
    · -- the brother is the left child
      have hlr' : (Node.mk la (lkv :: ltl) ll lr lc).ptr ≠ Ptr.heap ra := hlr
      have hrl : (Node.mk ra (rkv :: rtl) rl rr rc).ptr ≠ Ptr.heap la := fun h => hlr h.symm
      have hnl : ¬ cmp fkv.key lkv.key < 0 := by omega
      have hnr : ¬ cmp fkv.key rkv.key < 0 := by omega
      simp only [Node.returnGrandsonByZigzag, Node.returnSonByZigzag, Node.frontKey,
        Node.getLeftPtr, Node.getRightPtr, bind, Except.bind, hfb, if_true]
      cases hzr : rl.isRedNode with
      | true =>
        obtain ⟨ga, gkvs, gl, gr, rfl⟩ := Node.isRedNode_eq_true hzr
        obtain ⟨gkv, gtl, rfl, -⟩ := hent.ofRight.ofLeft.ofRoot
        have hgb : cmp bkv.key gkv.key < 0 :=
          (hcmp.antisymm _ _).2 (hroot.2 gkv.key (Node.mem_keys_left Node.mem_keys_root))
        simp only [if_true, Node.returnSon, Node.frontKey, Node.getRightPtr, bind, Except.bind,
          hgb, makeDoubleTurn_left_right hnr hlr' hchild]
        split
        · rename_i heq
          obtain ⟨h, hh⟩ := hang _ _ ⟨_, _, _, _, _, _, rfl⟩
          rw [hh] at heq
          cases heq
        · exact ⟨_, rfl⟩
      | false =>
        simp only [Bool.false_eq_true, if_false]
        obtain ⟨g2, hg2, hg2c⟩ := Node.returnAnotherChild_mk ra (rkv :: rtl) rl rr rc rl.ptr
        simp only [hg2]
        cases hg2r : g2.isRedNode with
        | true =>
          obtain ⟨ga, gkvs, gl, gr, rfl⟩ := Node.isRedNode_eq_true hg2r
          have hgk : ∃ gkv gtl, gkvs = gkv :: gtl ∧ cmp fkv.key gkv.key > 0 := by
            rcases hg2c with h | h
            · subst h
              obtain ⟨gkv, gtl, rfl, -⟩ := hent.ofRight.ofLeft.ofRoot
              exact ⟨gkv, gtl, rfl,
                hside _ (Node.mem_keys_right (Node.mem_keys_left Node.mem_keys_root))⟩
            · subst h
              obtain ⟨gkv, gtl, rfl, -⟩ := hent.ofRight.ofRight.ofRoot
              exact ⟨gkv, gtl, rfl,
                hside _ (Node.mem_keys_right (Node.mem_keys_right Node.mem_keys_root))⟩
          obtain ⟨gkv, gtl, rfl, hfg⟩ := hgk
          have hnfg : ¬ cmp fkv.key gkv.key < 0 := by omega
          have hd : ∃ l1 r1 x y, makeDoubleTurn cmp
              (Node.mk fa (fkv :: ftl) (Node.mk ra (rkv :: rtl) rl rr rc) child fc)
              (Node.mk ga (gkv :: gtl) gl gr true)
                = .ok (Node.mk ga (gkv :: gtl) l1 r1 true, x, y) :=
            makeDoubleTurn_returns (returnFather_of_not_lt hnfg)
          obtain ⟨l1, r1, x, y, hd⟩ := hd
          simp only [if_true, Node.returnAnotherChild, Node.ptr_mk, hlr, if_false,
            makeSingleTurn_left_left hnl hrl hchild, hd, Node.reread, Node.setColorAt,
            Node.rereadChildren]
          obtain ⟨l2, r2, hh⟩ := hangNodesAfterTurn_returns cmp
          rw [hh]
          exact hang _ _ ⟨_, _, _, _, _, _, rfl⟩
        | false =>
          simp only [Bool.false_eq_true, if_false, Node.setColorAt, Node.returnAnotherChild,
            Node.ptr_mk, Node.ptr_setColorAt, if_true, hlr]
          rw [makeSingleTurn_left_left hnl]
          · simp only [Node.reread, Node.ptr_mk, if_true]
            exact hang _ _ ⟨_, _, _, _, _, _, rfl⟩
          · exact hrl
          · simpa using hchild

end RemovalBrotherRedMain

section RemovalLoop

variable {cmp : TKey → TKey → Int}

theorem Frame.fill_ptr (f : Frame TKey TData) (child : Node TKey TData) :
    (f.fill child).ptr = Ptr.heap f.addr := by
  unfold Frame.fill; split <;> rfl

theorem Frame.fill_returnAnotherChild_of_ne (f : Frame TKey TData) (child : Node TKey TData)
    (childPtr : Ptr) (hp : f.other.ptr ≠ childPtr) (ho : f.other ≠ Node.nullptr)
    (hc : child.ptr = childPtr ∨ child = Node.nullptr) :
    (f.fill child).returnAnotherChild childPtr = .ok f.other := by
  have ho' : f.other.ptr ≠ Ptr.null := by
    cases h : f.other with
    | nullptr => exact absurd h ho
    | mk _ _ _ _ _ => simp
  unfold Frame.fill
  rcases hc with hc | hc
  · split <;> simp [Node.returnAnotherChild, hc, hp]
  · subst hc
    split <;> simp [Node.returnAnotherChild, hp, ho']

/-- One round of the loop of `deleteLeafOrBranch`: it returns, or it paints the brother red
and goes on one level higher. -/
theorem deleteLoop_step (hcmp : StrictTotalOrder cmp) (st : List (Frame TKey TData))
    (f : Frame TKey TData) (childPtr : Ptr) (child : Node TKey TData)
    (hf : FrameOk cmp 1 f) (hst : ∀ g ∈ st, g.keysAndValues ≠ [])
    (hp : f.other.ptr ≠ childPtr) (hc : child.ptr = childPtr ∨ child = Node.nullptr) :
    (∃ head, deleteLoop cmp childPtr child (f.fill child) st = .ok head) ∨
    deleteLoop cmp childPtr child (f.fill child) st =
      match st with
      | [] => .ok ((f.fill child).setColorAt f.other.ptr true)
      | g :: rest =>
        deleteLoop cmp (Ptr.heap f.addr) ((f.fill child).setColorAt f.other.ptr true)
          (g.fill ((f.fill child).setColorAt f.other.ptr true)) rest := by
  obtain ⟨fkv, ftl, ba, bkv, btl, bl, br, bc, hk, hB, hred⟩ := hf.brother le_rfl
  obtain ⟨⟨fkv', ftl', hk', hside⟩, hord, hent, hdist, -, -⟩ := hf
  rw [hk] at hk'
  obtain ⟨rfl, rfl⟩ := List.cons.inj hk'
  have hchild : child.ptr ≠ Ptr.heap ba := by
    rcases hc with hc | hc
    · rw [hc]; intro h; apply hp; rw [hB, h]; rfl
    · subst hc; simp
  have hbro := Frame.fill_returnAnotherChild_of_ne f child childPtr hp (by rw [hB]; simp) hc
  obtain ⟨rn, hrn, hrnc⟩ := Node.returnRedChildOrNullptr_mk ba (bkv :: btl) bl br bc
  have h1 := deleteFatherRed_returns hcmp f child st hk hside hB hord hent hdist hrnc hchild hst
  have h2 := fun hbl hbr =>
    deleteBrotherRed_returns hcmp f child st hk hside hB hord hent hdist hbl hbr hchild hst
  have h3 : rn = bl ∨ rn = br → rn ≠ Node.nullptr →
      ∃ head, turnAndHang cmp (f.fill child) f.other rn st = .ok head := fun hN hNn =>
    turnAndHang_returns hcmp f child st hk hside hB hord hent hdist hN hNn hchild hst
  have hptr := Frame.fill_ptr f child
  rw [hB] at hbro h1 h2 h3
  obtain ⟨fa, fkvs, fc, fw, fo⟩ := f
  simp only at hk hB hptr
  subst hk hB
  cases hfill : Frame.fill ⟨fa, fkv :: ftl, fc, fw, Node.mk ba (bkv :: btl) bl br bc⟩ child with
  | nullptr => simp [Frame.fill] at hfill; split at hfill <;> cases hfill
  | mk a kvs l r c =>
    have hcol : c = fc := by
      simp only [Frame.fill] at hfill; split at hfill <;> cases hfill <;> rfl
    subst hcol
    rw [hfill] at hbro h1 h2 h3 hptr
    simp only [Node.ptr_mk, Ptr.heap.injEq] at hptr
    subst hptr
    rw [deleteLoop]
    simp only [hbro, hrn, bind, Except.bind, Node.nodeIsRed]
    cases c with
    | true => left; simpa using h1
    | false =>
      cases bc with
      | true =>
        left
        obtain ⟨hbl, hbr⟩ := hred rfl
        simpa using h2 hbl hbr
      | false =>
        rcases hrnc with rfl | ⟨hN, hNn⟩
        · right
          cases st <;> simp [Node.isNull, pure, Except.pure]
        · left
          obtain ⟨head, hh⟩ := h3 hN hNn
          have hnull : rn.isNull = false := by
            cases rn with
            | nullptr => exact absurd rfl hNn
            | mk _ _ _ _ _ => rfl
          simp [hnull, hh, pure, Except.pure]

end RemovalLoop

section RemovalLoopReturns

variable {cmp : TKey → TKey → Int}

theorem FrameOk.keys_ne_nil {b : Nat} {f : Frame TKey TData} (h : FrameOk cmp b f) :
    f.keysAndValues ≠ [] := by
  obtain ⟨⟨kv, tl, hk, -⟩, -⟩ := h
  rw [hk]; simp

/-- The loop of `deleteLeafOrBranch` returns on a stack of well-formed entries. -/
theorem deleteLoop_returns (hcmp : StrictTotalOrder cmp) :
    ∀ (st : List (Frame TKey TData)) (f : Frame TKey TData) (childPtr : Ptr)
      (child : Node TKey TData),
      (∀ g ∈ f :: st, FrameOk cmp 1 g) → PathPtrs (f :: st) childPtr →
      (child.ptr = childPtr ∨ child = Node.nullptr) →
      ∃ head, deleteLoop cmp childPtr child (f.fill child) st = .ok head := by
  intro st
  induction st with
  | nil =>
    intro f childPtr child hall hpp hc
    rcases deleteLoop_step hcmp [] f childPtr child (hall f (List.mem_cons_self _ _))
      (by simp) hpp.1 hc with h | h
    · exact h
    · exact ⟨_, h⟩
  | cons g rest ih =>
    intro f childPtr child hall hpp hc
    rcases deleteLoop_step hcmp (g :: rest) f childPtr child (hall f (List.mem_cons_self _ _))
      (fun x hx => (hall x (List.mem_cons_of_mem _ hx)).keys_ne_nil) hpp.1 hc with h | h
    · exact h
    · rw [h]
      exact ih g (Ptr.heap f.addr) _ (fun x hx => hall x (List.mem_cons_of_mem _ hx)) hpp.2
        (Or.inl (by rw [Node.ptr_setColorAt, Frame.fill_ptr]))

end RemovalLoopReturns

section RemovalOfTheTopReturns

variable {cmp : TKey → TKey → Int}

theorem deleteNode_fill {a : Nat} {kvs : List (KeyAndValue TKey TData)}
    {l r : Node TKey TData} {c : Bool} (f : Frame TKey TData) (n : Nat)
    (hne : f.other.ptr ≠ Ptr.heap a) :
    deleteNode (Node.mk a kvs l r c) (f.fill (Node.mk a kvs l r c)) n
      = .ok (f.fill Node.nullptr, decrement n) := by
  obtain ⟨fa, fk, fc, fw, fo⟩ := f
  simp only at hne
  cases fw <;>
    simp [deleteNode, Frame.fill, Node.getLeftPtr, Node.setLeftPtr, Node.setRightPtr, bind,
      Except.bind, pure, Except.pure, hne]

theorem deleteRedLeaf_fill {a : Nat} {kvs : List (KeyAndValue TKey TData)}
    {l r : Node TKey TData} {c : Bool} (f : Frame TKey TData) (n : Nat)
    (hne : f.other.ptr ≠ Ptr.heap a) :
    deleteRedLeaf (Node.mk a kvs l r c) (f.fill (Node.mk a kvs l r c)) n
      = .ok (f.fill Node.nullptr, decrement n) := by
  obtain ⟨fa, fk, fc, fw, fo⟩ := f
  simp only at hne
  cases fw <;>
    simp [deleteRedLeaf, Frame.fill, Node.getRightPtr, Node.setLeftPtr, Node.setRightPtr, bind,
      Except.bind, pure, Except.pure, hne]

/-- `deleteBranch` returns when the node to delete has exactly one child and the keys below it
lie on its side of the father. -/
theorem deleteBranch_returns {a : Nat} {kvs : List (KeyAndValue TKey TData)}
    {l r : Node TKey TData} {c : Bool} (f : Frame TKey TData)
    (rest : List (Frame TKey TData)) (n : Nat)
    (hone : (l = Node.nullptr ∧ r ≠ Node.nullptr) ∨ (l ≠ Node.nullptr ∧ r = Node.nullptr))
    (hdist : (Node.mk a kvs l r c).Distinct) (hent : (Node.mk a kvs l r c).EntriesOk cmp)
    (hne : f.other.ptr ≠ Ptr.heap a)
    (hside : ∀ x ∈ l.keys ++ r.keys, ∃ kv tl, f.keysAndValues = kv :: tl ∧
      if f.wentRight then cmp kv.key x < 0 else cmp kv.key x > 0) :
    ∃ res, deleteBranch cmp (Node.mk a kvs l r c) (f.fill (Node.mk a kvs l r c)) rest n
      = .ok res := by
  obtain ⟨fa, fk, fc, fw, fo⟩ := f
  simp only at hne hside
  rcases hone with ⟨rfl, hr⟩ | ⟨hl, rfl⟩
  · cases r with
    | nullptr => exact absurd rfl hr
    | mk ha hkvs hl' hr' hc =>
      obtain ⟨hkv, htl, rfl, -⟩ := hent.ofRight.ofRoot
      obtain ⟨fkv, ftl, rfl, hs⟩ := hside hkv.key (by simp [Node.keys])
      have hha : Ptr.heap ha ≠ Ptr.heap a := hdist.root_ne_right
      cases fw <;> simp only [Bool.false_eq_true, if_false, if_true] at hs
      · have : ¬ cmp fkv.key hkv.key < 0 := by omega
        simp [deleteBranch, Frame.fill, Node.getLeftPtr, Node.getRightPtr, Node.isNull,
          Node.frontKey, Node.makeBlack, Node.setLeftPtr, Node.setRightPtr, bind, Except.bind,
          pure, Except.pure, this, hne, hha]
      · simp [deleteBranch, Frame.fill, Node.getLeftPtr, Node.getRightPtr, Node.isNull,
          Node.frontKey, Node.makeBlack, Node.setLeftPtr, Node.setRightPtr, bind, Except.bind,
          pure, Except.pure, hs, hne, hha]
  · cases l with
    | nullptr => exact absurd rfl hl
    | mk ha hkvs hl' hr' hc =>
      obtain ⟨hkv, htl, rfl, -⟩ := hent.ofLeft.ofRoot
      obtain ⟨fkv, ftl, rfl, hs⟩ := hside hkv.key (by simp [Node.keys])
      have hha : Ptr.heap ha ≠ Ptr.heap a := hdist.root_ne_left
      cases fw <;> simp only [Bool.false_eq_true, if_false, if_true] at hs
      · have : ¬ cmp fkv.key hkv.key < 0 := by omega
        simp [deleteBranch, Frame.fill, Node.getLeftPtr, Node.getRightPtr, Node.isNull,
          Node.frontKey, Node.makeBlack, Node.setLeftPtr, Node.setRightPtr, bind, Except.bind,
          pure, Except.pure, this, hne, hha]
      · simp [deleteBranch, Frame.fill, Node.getLeftPtr, Node.getRightPtr, Node.isNull,
          Node.frontKey, Node.makeBlack, Node.setLeftPtr, Node.setRightPtr, bind, Except.bind,
          pure, Except.pure, hs, hne, hha]

/-- `deleteBranch` returns on the root of the tree. -/
theorem deleteBranch_root_returns {a : Nat} {kvs : List (KeyAndValue TKey TData)}
    {l r : Node TKey TData} {c : Bool} (n : Nat)
    (hone : (l = Node.nullptr ∧ r ≠ Node.nullptr) ∨ (l ≠ Node.nullptr ∧ r = Node.nullptr)) :
    ∃ res, deleteBranch cmp (Node.mk a kvs l r c) Node.nullptr [] n = .ok res := by
  rcases hone with ⟨rfl, hr⟩ | ⟨hl, rfl⟩
  · cases r with
    | nullptr => exact absurd rfl hr
    | mk ha hkvs hl' hr' hc =>
      simp [deleteBranch, Node.getLeftPtr, Node.getRightPtr, Node.isNull, Node.makeBlack, bind,
        Except.bind, pure, Except.pure]
  · cases l with
    | nullptr => exact absurd rfl hl
    | mk ha hkvs hl' hr' hc =>
      simp [deleteBranch, Node.getLeftPtr, Node.getRightPtr, Node.isNull, Node.makeBlack, bind,
        Except.bind, pure, Except.pure]

end RemovalOfTheTopReturns

section RemovalTopLevel

variable {cmp : TKey → TKey → Int}

/-- `deleteLeafOrBranch` returns on a node with at most one child that a walk has reached. -/
theorem deleteLeafOrBranch_returns (hcmp : StrictTotalOrder cmp) (t : RBTree TKey TData)
    {a : Nat} {kv : KeyAndValue TKey TData} {tl : List (KeyAndValue TKey TData)}
    {l r : Node TKey TData} {c : Bool} (st : List (Frame TKey TData))
    (hone : l = Node.nullptr ∨ r = Node.nullptr)
    (hdist : (Node.mk a (kv :: tl) l r c).Distinct)
    (hent : (Node.mk a (kv :: tl) l r c).EntriesOk cmp)
    (hframes : ∀ f ∈ st, FrameOk cmp (Node.mk a (kv :: tl) l r c).blackHeight f)
    (hpp : PathPtrs st (Ptr.heap a))
    (hside : ∀ x ∈ l.keys ++ r.keys, KeyBelow cmp (st.take 1) x)
    (hcount : st = [] → l = Node.nullptr → r = Node.nullptr → t.numberOfNodes = 1) :
    ∃ t', deleteLeafOrBranch cmp t (Node.mk a (kv :: tl) l r c) st = .ok t' := by
  by_cases hn : t.numberOfNodes = 1
  · cases st <;>
      simp [deleteLeafOrBranch, Node.nodeIsRed, Node.nodeIsBranch, pullOutNodeFromStack, hn,
        bind, Except.bind, pure, Except.pure]
  by_cases hleaf : l = Node.nullptr ∧ r = Node.nullptr
  · -- a leaf
    obtain ⟨rfl, rfl⟩ := hleaf
    cases st with
    | nil => exact absurd (hcount rfl rfl rfl) hn
    | cons f rest =>
      have hne : f.other.ptr ≠ Ptr.heap a := hpp.1
      cases c with
      | true =>
        simp [deleteLeafOrBranch, Node.nodeIsRed, Node.nodeIsBranch, pullOutNodeFromStack, hn,
          bind, Except.bind, pure, Except.pure, deleteBranchOrRedLeaf, Node.isNull,
          deleteRedLeaf_fill f t.numberOfNodes hne]
      | false =>
        have hall : ∀ g ∈ f :: rest, FrameOk cmp 1 g := fun g hg =>
          (hframes g hg).weaken (by simp [Node.blackHeight])
        have hpp' : PathPtrs (f :: rest) Ptr.stackCopy := by
          refine ⟨?_, hpp.2⟩
          cases f.other <;> simp
        obtain ⟨head, hh⟩ := deleteLoop_returns hcmp rest f Ptr.stackCopy Node.nullptr hall
          hpp' (Or.inr rfl)
        simp [deleteLeafOrBranch, Node.nodeIsRed, Node.nodeIsBranch, pullOutNodeFromStack, hn,
          bind, Except.bind, pure, Except.pure, Node.isNull,
          deleteNode_fill f t.numberOfNodes hne, hh]
  · -- a node with one child
    have hone' : (l = Node.nullptr ∧ r ≠ Node.nullptr) ∨ (l ≠ Node.nullptr ∧ r = Node.nullptr) := by
      rcases hone with h | h
      · exact Or.inl ⟨h, fun h' => hleaf ⟨h, h'⟩⟩
      · exact Or.inr ⟨fun h' => hleaf ⟨h', h⟩, h⟩
    have hbranch : (Node.mk a (kv :: tl) l r c).nodeIsBranch = .ok true := by
      rcases hone' with ⟨rfl, hr⟩ | ⟨hl, rfl⟩
      · cases r with
        | nullptr => exact absurd rfl hr
        | mk _ _ _ _ _ => simp [Node.nodeIsBranch, Node.isNull]
      · cases l with
        | nullptr => exact absurd rfl hl
        | mk _ _ _ _ _ => simp [Node.nodeIsBranch, Node.isNull]
    cases st with
    | nil =>
      have hres : ∃ res, deleteBranch cmp (Node.mk a (kv :: tl) l r c) Node.nullptr []
          t.numberOfNodes = .ok res := deleteBranch_root_returns _ hone'
      obtain ⟨res, hres⟩ := hres
      simp [deleteLeafOrBranch, Node.nodeIsRed, hbranch, pullOutNodeFromStack, hn,
        bind, Except.bind, pure, Except.pure, deleteBranchOrRedLeaf, hres]
    | cons f rest =>
      have hne : f.other.ptr ≠ Ptr.heap a := hpp.1
      obtain ⟨res, hres⟩ := deleteBranch_returns f rest t.numberOfNodes hone' hdist hent hne
        (fun x hx => hside x hx f (by simp))
      simp [deleteLeafOrBranch, Node.nodeIsRed, hbranch, pullOutNodeFromStack, hn,
        bind, Except.bind, pure, Except.pure, deleteBranchOrRedLeaf, hres]

end RemovalTopLevel

section RemovalReturnsMain

variable {cmp : TKey → TKey → Int}

theorem WalkOk.emptyStack {n : Node TKey TData} {st : List (Frame TKey TData)}
    (h : WalkOk cmp n st) : WalkOk cmp n [] :=
  ⟨h.1, h.2.1, h.2.2.1, h.2.2.2.1, fun _ hf => by simp at hf,
    fun _ _ _ hf => by simp at hf, trivial⟩

/-- `findMaxNodeInLeftBranchAndUpdateStack` returns on a node with two children that a walk
has reached, and leaves a top of the stack that `deleteLeafOrBranch` can take. -/
theorem findMaxNodeInLeftBranchAndUpdateStack_returns (hcmp : StrictTotalOrder cmp)
    {a : Nat} {kv : KeyAndValue TKey TData} {tl : List (KeyAndValue TKey TData)}
    {l r : Node TKey TData} {c : Bool} {st : List (Frame TKey TData)}
    (hw : WalkOk cmp (Node.mk a (kv :: tl) l r c) st) (hl : l ≠ Node.nullptr) :
    ∃ pa pkv ptl pl pc st',
      findMaxNodeInLeftBranchAndUpdateStack (Node.mk a (kv :: tl) l r c) st
        = .ok (Node.mk pa (pkv :: ptl) pl Node.nullptr pc, st') ∧
      (Node.mk pa (pkv :: ptl) pl Node.nullptr pc).Distinct ∧
      (Node.mk pa (pkv :: ptl) pl Node.nullptr pc).EntriesOk cmp ∧
      (∀ f ∈ st', FrameOk cmp (Node.mk pa (pkv :: ptl) pl Node.nullptr pc).blackHeight f) ∧
      PathPtrs st' (Ptr.heap pa) ∧
      (∀ x ∈ pl.keys ++ (Node.nullptr : Node TKey TData).keys, KeyBelow cmp (st'.take 1) x) ∧
      st' ≠ [] := by
  have hw0 := hw.stepLeft hcmp hl
  obtain ⟨pa, pkv, ptl, pl, pc, pushed, hwalk, hw1⟩ := walkRight_returns hcmp l [] hl hw0.emptyStack
  obtain ⟨pa', pkv', ptl', pl', pc', pushed', hwalk', hw'⟩ :=
    walkRight_returns hcmp l _ hl hw0
  have happ := walkRight_append l [] (⟨a, kv :: tl, c, false, r⟩ :: st) _ _ hwalk
  simp only [List.nil_append, List.append_nil] at happ hwalk
  rw [happ] at hwalk'
  simp only [Except.ok.injEq, Prod.mk.injEq, Node.mk.injEq, List.cons.injEq] at hwalk'
  obtain ⟨⟨rfl, ⟨rfl, rfl⟩, rfl, -, rfl⟩, hst⟩ := hwalk'
  rw [← hst] at hw'
  obtain ⟨hord, hent, hdist, -, hframes, hkeys, hpp⟩ := hw'
  have hroot := hord.root_keys
  refine ⟨pa, pkv, ptl, pl, pc, pushed ++ ⟨a, pkv :: ptl, c, false, r⟩ :: st, ?_, hdist, hent,
    ?_, ?_, ?_, by simp⟩
  · simp only [findMaxNodeInLeftBranchAndUpdateStack, hwalk, swapNodes_eq, bind, Except.bind,
      Node.getKeysAndValues, pure, Except.pure]
  · intro f hf
    rcases List.mem_append.1 hf with hf | hf
    · exact hframes f (List.mem_append_left _ hf)
    rcases List.mem_cons.1 hf with rfl | hf
    · obtain ⟨⟨kv0, tl0, hk0, hside⟩, h2⟩ :=
        hframes ⟨a, kv :: tl, c, false, r⟩ (List.mem_append_right _ (List.mem_cons_self _ _))
      simp only [List.cons.injEq] at hk0
      obtain ⟨rfl, rfl⟩ := hk0
      obtain ⟨kv1, tl1, hk1, hbelow⟩ := hkeys pkv.key Node.mem_keys_root
        ⟨a, kv :: tl, c, false, r⟩ (List.mem_append_right _ (List.mem_cons_self _ _))
      simp only [List.cons.injEq] at hk1
      obtain ⟨rfl, rfl⟩ := hk1
      simp only [Bool.false_eq_true, if_false] at hbelow hside
      refine ⟨⟨pkv, ptl, rfl, fun x hx => ?_⟩, h2⟩
      simp only [Bool.false_eq_true, if_false]
      exact hcmp.trans _ _ _ ((hcmp.antisymm _ _).2 hbelow) (hside x hx)
    · exact hframes f (List.mem_append_right _ (List.mem_cons_of_mem _ hf))
  · have h := PathPtrs_append.1 hpp
    exact PathPtrs_append.2 ⟨h.1, h.2⟩
  · intro x hx
    simp only [Node.keys, List.append_nil] at hx
    cases pushed with
    | nil =>
      intro f hf
      simp only [List.nil_append, List.take_succ_cons, List.take_zero, List.mem_singleton] at hf
      subst hf
      exact ⟨pkv, ptl, rfl, by simpa using (hcmp.antisymm _ _).1 (hroot.1 x hx)⟩
    | cons g rest =>
      intro f hf
      simp only [List.cons_append, List.take_succ_cons, List.take_zero,
        List.mem_singleton] at hf
      subst hf
      exact hkeys x (Node.mem_keys_left hx) f (by simp)

end RemovalReturnsMain

/-! ## The removal of a present key -/

theorem Node.size_eq_one_of_leaf {a : Nat} {kvs : List (KeyAndValue TKey TData)} {c : Bool} :
    (Node.mk a kvs (Node.nullptr : Node TKey TData) Node.nullptr c).size = 1 := rfl

/-- C24: on a tree that satisfies the invariants of §3 under a strict-total-order comparator
(BST property, well-formed entry sequences, colour invariants), whose nodes lie at distinct
addresses and whose `numberOfNodes` is its number of nodes, `tryPop(key)` of a key that is in
the tree returns normally.  In the model every dereference of an absent node ends the call
with `Err.nullDereference` and every read of an unassigned local with
`Err.uninitialisedRead`, so none happens: the brother that `returnAnotherChild` returns in
each round of the loop, the two children of a red brother that `redGrandsonExists` and
`returnGrandsonByZigzag` read, the nephews given to the turns and the father given to
`deleteNode` and `deleteRedLeaf` are all present. -/
theorem tryPop_of_present_key_returns (t : RBTree TKey TData) (cmp : TKey → TKey → Int)
    (key : TKey) (hcmp : t.comparatorStrategy = some cmp) (horder : StrictTotalOrder cmp)
    (hbst : t.head.Ordered cmp) (hentries : t.head.EntriesOk cmp)
    (hcolour : t.head.ColourInvariants) (hdistinct : t.head.Distinct)
    (hcount : t.numberOfNodes = t.head.size) (hkey : key ∈ t.head.keys) :
    ∃ t', t.tryPop key = .returned t' := by
  have hw : WalkOk cmp t.head [] :=
    ⟨hbst, hentries, hdistinct, hcolour.2.1.balanced, fun _ hf => by simp at hf,
      fun _ _ _ hf => by simp at hf, trivial⟩
  have hsize : t.numberOfNodes ≠ 0 := by
    rw [hcount]
    cases h : t.head with
    | nullptr => rw [h] at hkey; simp [Node.keys] at hkey
    | mk _ _ _ _ _ => simp [Node.size]
  obtain ⟨a, kv, tl, l, r, c, pushed, hwalk, hw', htop⟩ :=
    initStackOfPreviousNodesInDeletionOrThrowException_returns horder key t.head [] hw hkey
  simp only [List.append_nil] at hwalk hw'
  have hrun : ∃ t', (do
      let (child, nodeStack) ←
        initStackOfPreviousNodesInDeletionOrThrowException cmp key t.head []
      let (top, nodeStack) ←
        if (← child.nodeIsNotLeaf) && (← child.nodeIsNotBranch) then
          findMaxNodeInLeftBranchAndUpdateStack child nodeStack
        else pure (child, nodeStack)
      deleteLeafOrBranch cmp t top nodeStack) = .ok t' := by
    simp only [hwalk, bind, Except.bind, Node.nodeIsNotLeaf, Node.nodeIsNotBranch,
      Node.nodeIsBranch, pure, Except.pure]
    by_cases htwo : l ≠ Node.nullptr ∧ r ≠ Node.nullptr
    · obtain ⟨pa, pkv, ptl, pl, pc, st', hmax, hdist, hent, hframes, hpp, hside, hne⟩ :=
        findMaxNodeInLeftBranchAndUpdateStack_returns horder hw' htwo.1
      have hl : l.isNull = false := by
        cases l with
        | nullptr => exact absurd rfl htwo.1
        | mk _ _ _ _ _ => rfl
      have hr : r.isNull = false := by
        cases r with
        | nullptr => exact absurd rfl htwo.2
        | mk _ _ _ _ _ => rfl
      simp only [hl, hr, hmax]
      simpa using deleteLeafOrBranch_returns horder t st' (Or.inr rfl) hdist hent hframes hpp
        hside (fun h => absurd h hne)
    · have hone : l = Node.nullptr ∨ r = Node.nullptr := by
        by_cases hl : l = Node.nullptr
        · exact Or.inl hl
        · exact Or.inr (by_contra fun hr => htwo ⟨hl, hr⟩)
      have hcond : (!(l.isNull && r.isNull) &&
          !(!l.isNull && r.isNull || l.isNull && !r.isNull)) = false := by
        rcases hone with rfl | rfl
        · cases r <;> rfl
        · cases l <;> rfl
      obtain ⟨hord, hent, hdist, -, hframes, hkeys, hpp⟩ := hw'
      simp only [hcond]
      simpa using deleteLeafOrBranch_returns horder t pushed hone hdist hent hframes hpp
        (fun x hx g hg => hkeys x (by
            simp only [List.mem_append] at hx
            rcases hx with hx | hx
            · exact Node.mem_keys_left hx
            · exact Node.mem_keys_right hx) g (List.mem_of_mem_take hg))
        (fun hp hl hr => by
          subst hl hr
          rw [hcount, ← htop hp]
          rfl)
  obtain ⟨t', ht'⟩ := hrun
  refine ⟨t', ?_⟩
  have hempty : t.isEmpty = false := by simp [RBTree.isEmpty, hsize]
  simp only [RBTree.tryPop, hempty, RBTree.throwExceptionIfThereIsNoCompare, hcmp, ht']
  rfl

theorem tryPop_of_present_key_returns_witness :
    (∃ t', treeNine.tryPop 1 = .returned t') ∧ (∃ t', treeNine.tryPop 4 = .returned t') ∧
    (∃ t', treeThree.tryPop 20 = .returned t') :=
  ⟨tryPop_of_present_key_returns treeNine difference 1 rfl difference_strictTotalOrder
      (by decide) (by decide) (by decide) (by decide) (by decide) (by decide),
    tryPop_of_present_key_returns treeNine difference 4 rfl difference_strictTotalOrder
      (by decide) (by decide) (by decide) (by decide) (by decide) (by decide),
    tryPop_of_present_key_returns treeThree threeWay 20 rfl threeWay_strictTotalOrder
      (by decide) (by decide) (by decide) (by decide) (by decide) (by decide)⟩

end RedBlackTree
